import Mathlib

/-!
Formal model of the diff and alignment engine of
`samples/document_compare.py`, together with proofs about the claims of its
specification.  Python strings are modelled as lists of characters, Python
floats as exact rationals, and the parts of Python's `difflib` library that
the engine calls (`SequenceMatcher.get_opcodes` / `.ratio`, both with no junk
elements) are modelled following their documented algorithm.  All recursion is
structural (fuel-based where the Python loop is not), so every definition
evaluates inside the kernel.
-/

/-- Python strings are modelled as lists of characters. -/
abbrev Str := List Char

/-- Convenience: view a Lean string literal as a `Str`. -/
def chars (s : String) : Str := s.data

/-- ASCII whitespace, as matched by Python's `\s`, `str.split()` and
`str.strip()` on ASCII text. -/
def isWs (c : Char) : Bool :=
  c = ' ' || c = '\t' || c = '\n' || c = '\r' || c = '\x0b' || c = '\x0c'

/-- Fuel-driven worker for `tokenize`: peel off one maximal run of characters
of the same whitespace class at a time.  `fuel ≥ length` makes it total. -/
def tokenizeF : Nat → Str → List Str
  | 0, _ => []
  | _, [] => []
  | fuel+1, c :: rest =>
    (c :: rest.takeWhile (fun d => isWs d == isWs c))
      :: tokenizeF fuel (rest.dropWhile (fun d => isWs d == isWs c))

/-- Embedding of `tokenize` (document_compare.py line 58):
`re.findall(r'\S+|\s+', text)`, i.e. the list of maximal runs of
non-whitespace and whitespace characters, in order. -/
def tokenize (s : Str) : List Str := tokenizeF s.length s

/-- The whitespace class of a token (its head character's class). -/
def tokClass (t : Str) : Bool := isWs (t.headD ' ')

/-- Embedding of Python `text.split()` (no separator): the maximal runs of
non-whitespace characters. -/
def pySplit (s : Str) : List Str := (tokenize s).filter (fun t => !(isWs (t.headD ' ')))

/-- `len(text.split())`: the number of whitespace-separated words of a text. -/
def wordCount (s : Str) : Nat := (pySplit s).length

/-- Embedding of Python `str.strip()`: drop leading and trailing whitespace. -/
def strip (s : Str) : Str := ((s.dropWhile isWs).reverse.dropWhile isWs).reverse

/-- Embedding of Python `str.lower()`. -/
def lower (s : Str) : Str := s.map Char.toLower

/-- Embedding of `re.sub(r'\s+', ' ', text)`: replace every maximal
whitespace run by a single space. -/
def collapseWs (s : Str) : Str :=
  ((tokenize s).map (fun t => if isWs (t.headD ' ') then [' '] else t)).flatten

/-- Embedding of `normalize_text_for_move` (lines 129-133):
lowercase, strip, collapse internal whitespace. -/
def normalize_text_for_move (s : Str) : Str := collapseWs (strip (lower s))

theorem length_dropWhile_le' (p : Char → Bool) (l : Str) :
    (l.dropWhile p).length ≤ l.length := by
  induction l with
  | nil => simp [List.dropWhile]
  | cons c rest ih =>
    by_cases h : p c
    · simp [List.dropWhile, h]; omega
    · simp [List.dropWhile, h]

theorem tokenizeF_join (fuel : Nat) : ∀ s : Str, s.length ≤ fuel →
    (tokenizeF fuel s).flatten = s := by
  induction fuel with
  | zero =>
    intro s h
    have : s = [] := List.eq_nil_of_length_eq_zero (by omega)
    subst this; simp [tokenizeF]
  | succ fuel ih =>
    intro s h
    match s with
    | [] => simp [tokenizeF]
    | c :: rest =>
      have hlen : (rest.dropWhile (fun d => isWs d == isWs c)).length ≤ fuel := by
        have := length_dropWhile_le' (fun d => isWs d == isWs c) rest
        simp at h; omega
      simp only [tokenizeF, List.flatten_cons, List.cons_append, ih _ hlen]
      rw [List.takeWhile_append_dropWhile]

theorem tokenize_join (s : Str) : (tokenize s).flatten = s :=
  tokenizeF_join s.length s le_rfl

theorem dropWhile_head_false {p : Char → Bool} : ∀ {l : Str} {c : Char} {r : Str},
    l.dropWhile p = c :: r → p c = false := by
  intro l
  induction l with
  | nil => intro c r h; simp [List.dropWhile] at h
  | cons a l ih =>
    intro c r h
    by_cases hp : p a
    · rw [List.dropWhile_cons_of_pos hp] at h; exact ih h
    · rw [List.dropWhile_cons_of_neg hp] at h
      cases h; simpa using hp

theorem tokenizeF_tokens (fuel : Nat) : ∀ s : Str, s.length ≤ fuel →
    ∀ t ∈ tokenizeF fuel s, t ≠ [] ∧ ∀ c ∈ t, isWs c = tokClass t := by
  induction fuel with
  | zero => intro s _ t ht; simp [tokenizeF] at ht
  | succ fuel ih =>
    intro s h t ht
    match s with
    | [] => simp [tokenizeF] at ht
    | a :: rest =>
      simp only [tokenizeF, List.mem_cons] at ht
      rcases ht with rfl | ht
      · refine ⟨by simp, ?_⟩
        intro c hc
        simp only [tokClass, List.headD]
        rcases List.mem_cons.mp hc with rfl | hc
        · rfl
        · have := List.mem_takeWhile_imp hc
          simpa using this
      · have hlen : (rest.dropWhile (fun d => isWs d == isWs a)).length ≤ fuel := by
          have := length_dropWhile_le' (fun d => isWs d == isWs a) rest
          simp at h; omega
        exact ih _ hlen t ht

theorem tokenizeF_chain (fuel : Nat) : ∀ s : Str, s.length ≤ fuel →
    List.Chain' (fun t1 t2 => tokClass t1 ≠ tokClass t2) (tokenizeF fuel s) := by
  induction fuel with
  | zero => intro s _; simp [tokenizeF]
  | succ fuel ih =>
    intro s h
    match s with
    | [] => simp [tokenizeF]
    | a :: rest =>
      have hlen : (rest.dropWhile (fun d => isWs d == isWs a)).length ≤ fuel := by
        have := length_dropWhile_le' (fun d => isWs d == isWs a) rest
        simp at h; omega
      simp only [tokenizeF]
      rw [List.chain'_cons']
      refine ⟨?_, ih _ hlen⟩
      intro y hy
      rcases hdrop : rest.dropWhile (fun d => isWs d == isWs a) with _ | ⟨d, r'⟩
      · rcases fuel with _ | fuel <;> simp [tokenizeF, hdrop] at hy
      · have hd : (isWs d == isWs a) = false := dropWhile_head_false hdrop
        rcases fuel with _ | fuel
        · simp [hdrop] at hlen
        · rw [hdrop] at hy
          simp only [tokenizeF, List.head?] at hy
          cases hy
          simp only [tokClass, List.headD, ne_eq]
          intro hcontra
          rw [hcontra] at hd
          simp at hd

/-- C9: `tokenize` covers its input exactly (the concatenation of the tokens
reproduces the input), every token is a non-empty run of a single whitespace
class, adjacent tokens are of opposite classes (so boundaries are exactly the
whitespace/non-whitespace transitions), and the empty string yields the empty
token list. -/
theorem tokenize_correct (s : Str) :
    (tokenize s).flatten = s ∧
    tokenize ([] : Str) = [] ∧
    (∀ t ∈ tokenize s, t ≠ [] ∧ ∀ c ∈ t, isWs c = tokClass t) ∧
    List.Chain' (fun t1 t2 => tokClass t1 ≠ tokClass t2) (tokenize s) :=
  ⟨tokenize_join s, rfl, tokenizeF_tokens s.length s le_rfl,
    tokenizeF_chain s.length s le_rfl⟩

/-- Witness for C9 at a concrete input, discharging the membership
hypothesis of the token-structure conjunct. -/
theorem tokenize_correct_witness :
    (tokenize (chars "ab  cd")).flatten = chars "ab  cd" ∧
    (chars "ab" ≠ [] ∧ ∀ c ∈ chars "ab", isWs c = tokClass (chars "ab")) := by
  refine ⟨(tokenize_correct (chars "ab  cd")).1, ?_⟩
  exact (tokenize_correct (chars "ab  cd")).2.2.1 (chars "ab") (by decide)

/-- Python slice `l[i1:i2]`. -/
def pySlice {α : Type} (l : List α) (i1 i2 : Nat) : List α := (l.drop i1).take (i2 - i1)

/-- Length of the longest common prefix of two lists. -/
def commonPrefixLen {α : Type} [DecidableEq α] : List α → List α → Nat
  | a :: as, b :: bs => if a = b then commonPrefixLen as bs + 1 else 0
  | _, _ => 0

theorem commonPrefixLen_le_left {α : Type} [DecidableEq α] :
    ∀ (l1 l2 : List α), commonPrefixLen l1 l2 ≤ l1.length := by
  intro l1
  induction l1 with
  | nil => intro l2; cases l2 <;> simp [commonPrefixLen]
  | cons a as ih =>
    intro l2
    cases l2 with
    | nil => simp [commonPrefixLen]
    | cons b bs =>
      by_cases h : a = b
      · simp only [commonPrefixLen, if_pos h, List.length_cons]
        exact Nat.succ_le_succ (ih bs)
      · simp [commonPrefixLen, h]

theorem commonPrefixLen_le_right {α : Type} [DecidableEq α] :
    ∀ (l1 l2 : List α), commonPrefixLen l1 l2 ≤ l2.length := by
  intro l1
  induction l1 with
  | nil => intro l2; cases l2 <;> simp [commonPrefixLen]
  | cons a as ih =>
    intro l2
    cases l2 with
    | nil => simp [commonPrefixLen]
    | cons b bs =>
      by_cases h : a = b
      · simp only [commonPrefixLen, if_pos h, List.length_cons]
        exact Nat.succ_le_succ (ih bs)
      · simp [commonPrefixLen, h]

theorem commonPrefixLen_take_eq {α : Type} [DecidableEq α] :
    ∀ (l1 l2 : List α), l1.take (commonPrefixLen l1 l2) = l2.take (commonPrefixLen l1 l2) := by
  intro l1
  induction l1 with
  | nil => intro l2; cases l2 <;> simp [commonPrefixLen]
  | cons a as ih =>
    intro l2
    cases l2 with
    | nil => simp [commonPrefixLen]
    | cons b bs =>
      by_cases h : a = b
      · subst h
        simp [commonPrefixLen, ih bs]
      · simp [commonPrefixLen, h]

/-- The length of the longest matching block of `a[i:ahi]` and `b[j:bhi]`
starting exactly at positions `i` and `j`. -/
def matchLenAt {α : Type} [DecidableEq α] (a b : List α) (ahi bhi i j : Nat) : Nat :=
  commonPrefixLen ((a.take ahi).drop i) ((b.take bhi).drop j)

/-- One candidate step of `SequenceMatcher.find_longest_match` (no junk):
keep the strictly longer match. -/
def flmStep {α : Type} [DecidableEq α] (a b : List α) (ahi bhi i : Nat)
    (best : Nat × Nat × Nat) (j : Nat) : Nat × Nat × Nat :=
  let k := matchLenAt a b ahi bhi i j
  if best.2.2 < k then (i, j, k) else best

/-- Model of `difflib.SequenceMatcher.find_longest_match` restricted to the
no-junk case (the word-diff path: `diff_texts` constructs its matcher with
`autojunk=False` at line 71): among all maximal matching blocks of
`a[alo:ahi]` and `b[blo:bhi]` it returns the one starting earliest in `a`,
ties broken by the earliest start in `b`; with no match it returns
`(alo, blo, 0)`. -/
def findLongestMatch {α : Type} [DecidableEq α] (a b : List α)
    (alo ahi blo bhi : Nat) : Nat × Nat × Nat :=
  (List.range' alo (ahi - alo)).foldl
    (fun best i => (List.range' blo (bhi - blo)).foldl (flmStep a b ahi bhi i) best)
    (alo, blo, 0)

theorem foldl_preserve {α β : Type} (P : β → Prop) (f : β → α → β) :
    ∀ (l : List α) (init : β), P init → (∀ s x, x ∈ l → P s → P (f s x)) →
    P (l.foldl f init) := by
  intro l
  induction l with
  | nil => intro init h _; simpa using h
  | cons a l ih =>
    intro init h hstep
    simp only [List.foldl_cons]
    exact ih _ (hstep init a (by simp) h) (fun s x hx => hstep s x (by simp [hx]))

/-- The well-formedness we need of a `findLongestMatch` result. -/
def GoodFLM {α : Type} [DecidableEq α] (a b : List α)
    (alo ahi blo bhi : Nat) (r : Nat × Nat × Nat) : Prop :=
  r = (alo, blo, 0) ∨
  (alo ≤ r.1 ∧ r.1 < ahi ∧ blo ≤ r.2.1 ∧ r.2.1 < bhi ∧
    r.2.2 = matchLenAt a b ahi bhi r.1 r.2.1 ∧ 0 < r.2.2)

theorem findLongestMatch_good {α : Type} [DecidableEq α] (a b : List α)
    (alo ahi blo bhi : Nat) :
    GoodFLM a b alo ahi blo bhi (findLongestMatch a b alo ahi blo bhi) := by
  unfold findLongestMatch
  apply foldl_preserve (GoodFLM a b alo ahi blo bhi)
  · exact Or.inl rfl
  · intro s i hi hs
    apply foldl_preserve (GoodFLM a b alo ahi blo bhi)
    · exact hs
    · intro s' j hj hs'
      unfold flmStep
      by_cases hlt : s'.2.2 < matchLenAt a b ahi bhi i j
      · simp only [if_pos hlt]
        right
        obtain ⟨hi1, hi2⟩ := List.mem_range'_1.mp hi
        obtain ⟨hj1, hj2⟩ := List.mem_range'_1.mp hj
        exact ⟨hi1, show i < ahi by omega, hj1, show j < bhi by omega, rfl,
          show 0 < matchLenAt a b ahi bhi i j by omega⟩
      · simpa [hlt] using hs'

theorem pySlice_append {α : Type} (l : List α) {i n m : Nat} (h1 : i ≤ n) (h2 : n ≤ m) :
    pySlice l i n ++ pySlice l n m = pySlice l i m := by
  unfold pySlice
  have hm : m - i = (n - i) + (m - n) := by omega
  have hdrop : (l.drop i).drop (n - i) = l.drop n := by
    rw [List.drop_drop]; congr 1; omega
  rw [hm, List.take_add, hdrop]

theorem matchLenAt_le_left {α : Type} [DecidableEq α] (a b : List α) (ahi bhi i j : Nat) :
    matchLenAt a b ahi bhi i j ≤ ahi - i := by
  unfold matchLenAt
  have h1 := commonPrefixLen_le_left ((a.take ahi).drop i) ((b.take bhi).drop j)
  have h2 : ((a.take ahi).drop i).length ≤ ahi - i := by
    simp [List.length_take]; omega
  omega

theorem matchLenAt_le_right {α : Type} [DecidableEq α] (a b : List α) (ahi bhi i j : Nat) :
    matchLenAt a b ahi bhi i j ≤ bhi - j := by
  unfold matchLenAt
  have h1 := commonPrefixLen_le_right ((a.take ahi).drop i) ((b.take bhi).drop j)
  have h2 : ((b.take bhi).drop j).length ≤ bhi - j := by
    simp [List.length_take]; omega
  omega

theorem matchLenAt_slice {α : Type} [DecidableEq α] (a b : List α) (ahi bhi i j : Nat) :
    pySlice a i (i + matchLenAt a b ahi bhi i j)
      = pySlice b j (j + matchLenAt a b ahi bhi i j) := by
  have h := commonPrefixLen_take_eq ((a.take ahi).drop i) ((b.take bhi).drop j)
  have ha : ((a.take ahi).drop i).take (matchLenAt a b ahi bhi i j)
      = pySlice a i (i + matchLenAt a b ahi bhi i j) := by
    rw [List.drop_take, List.take_take]
    unfold pySlice
    congr 1
    have := matchLenAt_le_left a b ahi bhi i j
    omega
  have hb : ((b.take bhi).drop j).take (matchLenAt a b ahi bhi i j)
      = pySlice b j (j + matchLenAt a b ahi bhi i j) := by
    rw [List.drop_take, List.take_take]
    unfold pySlice
    congr 1
    have := matchLenAt_le_right a b ahi bhi i j
    omega
  rw [← ha, ← hb]
  exact h

/-- Fuel-driven model of the recursive block collection of
`SequenceMatcher.get_matching_blocks` (before merging): find the longest
match, recurse on the region to its left and the region to its right.
`fuel ≥ (ahi - alo) + (bhi - blo)` makes it total. -/
def matchingBlocksF {α : Type} [DecidableEq α] (a b : List α) :
    Nat → Nat → Nat → Nat → Nat → List (Nat × Nat × Nat)
  | 0, _, _, _, _ => []
  | fuel+1, alo, ahi, blo, bhi =>
    let r := findLongestMatch a b alo ahi blo bhi
    if 0 < r.2.2 then
      matchingBlocksF a b fuel alo r.1 blo r.2.1
        ++ r :: matchingBlocksF a b fuel (r.1 + r.2.2) ahi (r.2.1 + r.2.2) bhi
    else []

/-- Blocks are in order, disjoint, inside the window, and each block's `a`
slice equals its `b` slice. -/
def ChainedB {α : Type} [DecidableEq α] (a b : List α) :
    Nat → Nat → Nat → Nat → List (Nat × Nat × Nat) → Prop
  | _, _, _, _, [] => True
  | i, j, ahi, bhi, (ai, bj, k) :: rest =>
    i ≤ ai ∧ j ≤ bj ∧ ai + k ≤ ahi ∧ bj + k ≤ bhi ∧
    pySlice a ai (ai + k) = pySlice b bj (bj + k) ∧
    ChainedB a b (ai + k) (bj + k) ahi bhi rest

theorem ChainedB_mono_start {α : Type} [DecidableEq α] (a b : List α)
    {i' j' i j ahi bhi : Nat} {l : List (Nat × Nat × Nat)}
    (h : ChainedB a b i' j' ahi bhi l) (hi : i ≤ i') (hj : j ≤ j') :
    ChainedB a b i j ahi bhi l := by
  cases l with
  | nil => trivial
  | cons blk rest =>
    obtain ⟨ai, bj, k⟩ := blk
    obtain ⟨h1, h2, h3, h4, h5, h6⟩ := h
    exact ⟨by omega, by omega, h3, h4, h5, h6⟩

theorem ChainedB_append {α : Type} [DecidableEq α] (a b : List α) :
    ∀ (l1 : List (Nat × Nat × Nat)) {l2 i j m1 m2 ahi bhi},
    ChainedB a b i j m1 m2 l1 → ChainedB a b m1 m2 ahi bhi l2 →
    m1 ≤ ahi → m2 ≤ bhi → i ≤ m1 → j ≤ m2 →
    ChainedB a b i j ahi bhi (l1 ++ l2) := by
  intro l1
  induction l1 with
  | nil =>
    intro l2 i j m1 m2 ahi bhi _ h2 _ _ hi hj
    exact ChainedB_mono_start a b h2 hi hj
  | cons blk rest ih =>
    intro l2 i j m1 m2 ahi bhi h1 h2 hm1 hm2 hi hj
    obtain ⟨ai, bj, k⟩ := blk
    obtain ⟨g1, g2, g3, g4, g5, g6⟩ := h1
    refine ⟨g1, g2, by omega, by omega, g5, ?_⟩
    have hend : ai + k ≤ m1 ∧ bj + k ≤ m2 := by
      cases rest with
      | nil => exact ⟨g3, g4⟩
      | cons blk' rest' =>
        obtain ⟨ai', bj', k'⟩ := blk'
        obtain ⟨p1, p2, p3, p4, _, _⟩ := g6
        constructor <;> omega
    exact ih g6 h2 hm1 hm2 hend.1 hend.2

theorem matchingBlocksF_chained {α : Type} [DecidableEq α] (a b : List α) (fuel : Nat) :
    ∀ alo ahi blo bhi,
    ChainedB a b alo blo ahi bhi (matchingBlocksF a b fuel alo ahi blo bhi) := by
  induction fuel with
  | zero => intro alo ahi blo bhi; simp [matchingBlocksF, ChainedB]
  | succ fuel ih =>
    intro alo ahi blo bhi
    simp only [matchingBlocksF]
    rcases hg : findLongestMatch a b alo ahi blo bhi with ⟨ri, rj, rk⟩
    have hgood := findLongestMatch_good a b alo ahi blo bhi
    rw [hg] at hgood
    by_cases hk : 0 < rk
    · simp only [if_pos hk]
      rcases hgood with heq | ⟨h1, h2, h3, h4, h5, h6⟩
      · cases heq; omega
      · simp only at h1 h2 h3 h4 h5
        have hkle : ri + rk ≤ ahi := by
          have := matchLenAt_le_left a b ahi bhi ri rj
          omega
        have hkle' : rj + rk ≤ bhi := by
          have := matchLenAt_le_right a b ahi bhi ri rj
          omega
        apply ChainedB_append a b _ (ih alo ri blo rj) _ (by omega) (by omega) h1 h3
        refine ⟨le_rfl, le_rfl, hkle, hkle', ?_, ?_⟩
        · rw [h5]; exact matchLenAt_slice a b ahi bhi ri rj
        · exact ih (ri + rk) ahi (rj + rk) bhi
    · simp [hk, ChainedB]

/-- Model of the adjacent-block merging loop at the end of
`SequenceMatcher.get_matching_blocks`: `(i1, j1, k1)` is the pending block
(initially the zero block), adjacent blocks are coalesced, non-empty pending
blocks are emitted. -/
def mergeBlocksAux : Nat → Nat → Nat → List (Nat × Nat × Nat) → List (Nat × Nat × Nat)
  | i1, j1, k1, [] => if 0 < k1 then [(i1, j1, k1)] else []
  | i1, j1, k1, (i2, j2, k2) :: rest =>
    if i1 + k1 = i2 ∧ j1 + k1 = j2 then mergeBlocksAux i1 j1 (k1 + k2) rest
    else (if 0 < k1 then [(i1, j1, k1)] else []) ++ mergeBlocksAux i2 j2 k2 rest

theorem mergeBlocksAux_chained {α : Type} [DecidableEq α] (a b : List α) {ahi bhi : Nat} :
    ∀ (rest : List (Nat × Nat × Nat)) (i1 j1 k1 i j : Nat),
    pySlice a i1 (i1 + k1) = pySlice b j1 (j1 + k1) →
    i1 + k1 ≤ ahi → j1 + k1 ≤ bhi → i ≤ i1 → j ≤ j1 →
    ChainedB a b (i1 + k1) (j1 + k1) ahi bhi rest →
    ChainedB a b i j ahi bhi (mergeBlocksAux i1 j1 k1 rest) := by
  intro rest
  induction rest with
  | nil =>
    intro i1 j1 k1 i j hsl hk1 hk2 hi hj _
    by_cases hk : 0 < k1
    · simp only [mergeBlocksAux, if_pos hk]
      exact ⟨hi, hj, hk1, hk2, hsl, trivial⟩
    · simp [mergeBlocksAux, hk, ChainedB]
  | cons blk rest ih =>
    intro i1 j1 k1 i j hsl hk1 hk2 hi hj hch
    obtain ⟨i2, j2, k2⟩ := blk
    obtain ⟨c1, c2, c3, c4, c5, c6⟩ := hch
    by_cases hadj : i1 + k1 = i2 ∧ j1 + k1 = j2
    · simp only [mergeBlocksAux, if_pos hadj]
      obtain ⟨ha1, ha2⟩ := hadj
      have hsl' : pySlice a i1 (i1 + (k1 + k2)) = pySlice b j1 (j1 + (k1 + k2)) := by
        have e1 : pySlice a i1 (i1 + (k1 + k2))
            = pySlice a i1 (i1 + k1) ++ pySlice a (i1 + k1) (i1 + k1 + k2) := by
          rw [pySlice_append a (by omega) (by omega)]
          congr 1; omega
        have e2 : pySlice b j1 (j1 + (k1 + k2))
            = pySlice b j1 (j1 + k1) ++ pySlice b (j1 + k1) (j1 + k1 + k2) := by
          rw [pySlice_append b (by omega) (by omega)]
          congr 1; omega
        rw [e1, e2, hsl]
        congr 1
        rw [ha1, ha2]
        have e3 : i2 + k2 = i2 + 0 + k2 := by omega
        have e4 : j2 + k2 = j2 + 0 + k2 := by omega
        simpa using c5
      apply ih i1 j1 (k1 + k2) i j hsl' (by omega) (by omega) hi hj
      have : i1 + (k1 + k2) = i2 + k2 := by omega
      rw [this]
      have : j1 + (k1 + k2) = j2 + k2 := by omega
      rw [this]
      exact c6
    · simp only [mergeBlocksAux, if_neg hadj]
      have hrec := ih i2 j2 k2 (i1 + k1) (j1 + k1) c5 c3 c4 c1 c2 c6
      by_cases hk : 0 < k1
      · simp only [if_pos hk, List.singleton_append]
        exact ⟨hi, hj, hk1, hk2, hsl, hrec⟩
      · simp only [if_neg hk, List.nil_append]
        have hk0 : k1 = 0 := by omega
        exact ChainedB_mono_start a b hrec (by omega) (by omega)

/-- Sum of the block sizes (difflib's `sum(size for _, _, size in blocks)`,
the `M` of the ratio). -/
def sumSizes (blocks : List (Nat × Nat × Nat)) : Nat :=
  (blocks.map (fun blk => blk.2.2)).sum

theorem mergeBlocksAux_sum :
    ∀ (rest : List (Nat × Nat × Nat)) (i1 j1 k1 : Nat),
    sumSizes (mergeBlocksAux i1 j1 k1 rest) = k1 + sumSizes rest := by
  intro rest
  induction rest with
  | nil =>
    intro i1 j1 k1
    by_cases hk : 0 < k1 <;> simp [mergeBlocksAux, hk, sumSizes] <;> omega
  | cons blk rest ih =>
    intro i1 j1 k1
    obtain ⟨i2, j2, k2⟩ := blk
    by_cases hadj : i1 + k1 = i2 ∧ j1 + k1 = j2
    · rw [show mergeBlocksAux i1 j1 k1 ((i2, j2, k2) :: rest)
          = mergeBlocksAux i1 j1 (k1 + k2) rest from by
            simp [mergeBlocksAux, hadj], ih]
      simp only [sumSizes, List.map_cons, List.sum_cons]
      omega
    · rw [show mergeBlocksAux i1 j1 k1 ((i2, j2, k2) :: rest)
          = (if 0 < k1 then [(i1, j1, k1)] else []) ++ mergeBlocksAux i2 j2 k2 rest from by
            simp [mergeBlocksAux, hadj]]
      have hrec := ih i2 j2 k2
      by_cases hk : 0 < k1 <;>
        simp only [hk, ite_true, ite_false, List.singleton_append, List.nil_append, sumSizes,
          List.map_cons, List.sum_cons, List.map_append, List.sum_append] <;>
      · simp only [sumSizes, List.map_cons, List.sum_cons] at hrec
        omega

theorem chainedB_sum_le {α : Type} [DecidableEq α] (a b : List α) :
    ∀ (l : List (Nat × Nat × Nat)) {i j ahi bhi : Nat},
    ChainedB a b i j ahi bhi l → sumSizes l ≤ ahi - i ∧ sumSizes l ≤ bhi - j := by
  intro l
  induction l with
  | nil => intro i j ahi bhi _; simp [sumSizes]
  | cons blk rest ih =>
    intro i j ahi bhi h
    obtain ⟨ai, bj, k⟩ := blk
    obtain ⟨c1, c2, c3, c4, _, c6⟩ := h
    have := ih c6
    simp only [sumSizes, List.map_cons, List.sum_cons] at this ⊢
    omega

/-- Model of `SequenceMatcher.get_matching_blocks` (no junk): all maximal
blocks left-to-right, adjacent blocks merged, closed by the sentinel
`(len(a), len(b), 0)`. -/
def getMatchingBlocks {α : Type} [DecidableEq α] (a b : List α) : List (Nat × Nat × Nat) :=
  mergeBlocksAux 0 0 0 (matchingBlocksF a b (a.length + b.length) 0 a.length 0 b.length)
    ++ [(a.length, b.length, 0)]

theorem getMatchingBlocks_chained {α : Type} [DecidableEq α] (a b : List α) :
    ChainedB a b 0 0 a.length b.length (getMatchingBlocks a b) := by
  unfold getMatchingBlocks
  have hbase := matchingBlocksF_chained a b (a.length + b.length) 0 a.length 0 b.length
  have hmerged : ChainedB a b 0 0 a.length b.length
      (mergeBlocksAux 0 0 0 (matchingBlocksF a b (a.length + b.length) 0 a.length 0 b.length)) := by
    apply mergeBlocksAux_chained a b _ 0 0 0 0 0 rfl (by omega) (by omega) le_rfl le_rfl
    simpa using hbase
  apply ChainedB_append a b _ hmerged _ le_rfl le_rfl (by omega) (by omega)
  exact ⟨le_rfl, le_rfl, by omega, by omega, by simp [pySlice], trivial⟩

theorem getMatchingBlocks_sum_le {α : Type} [DecidableEq α] (a b : List α) :
    sumSizes (getMatchingBlocks a b) ≤ a.length ∧
    sumSizes (getMatchingBlocks a b) ≤ b.length := by
  have := chainedB_sum_le a b _ (getMatchingBlocks_chained a b)
  omega

/-- The position both sequences have been consumed to after a block list. -/
def endPos : Nat × Nat → List (Nat × Nat × Nat) → Nat × Nat
  | p, [] => p
  | _, (ai, bj, k) :: rest => endPos (ai + k, bj + k) rest

theorem endPos_append (l1 l2 : List (Nat × Nat × Nat)) :
    ∀ p, endPos p (l1 ++ l2) = endPos (endPos p l1) l2 := by
  induction l1 with
  | nil => intro p; rfl
  | cons blk rest ih =>
    intro p
    obtain ⟨ai, bj, k⟩ := blk
    simp only [List.cons_append, endPos]
    exact ih (ai + k, bj + k)

theorem endPos_ge {α : Type} [DecidableEq α] (a b : List α) :
    ∀ (l : List (Nat × Nat × Nat)) {i j ahi bhi : Nat},
    ChainedB a b i j ahi bhi l → i ≤ (endPos (i, j) l).1 ∧ j ≤ (endPos (i, j) l).2 := by
  intro l
  induction l with
  | nil => intro i j ahi bhi _; exact ⟨le_rfl, le_rfl⟩
  | cons blk rest ih =>
    intro i j ahi bhi h
    obtain ⟨ai, bj, k⟩ := blk
    obtain ⟨c1, c2, _, _, _, c6⟩ := h
    have := ih c6
    simp only [endPos] at this ⊢
    omega

/-- Opcode tags of `SequenceMatcher.get_opcodes`. -/
inductive OpTag
  | oEqual
  | oDelete
  | oInsert
  | oReplace
deriving DecidableEq, Repr

/-- The opcode construction loop of `SequenceMatcher.get_opcodes`: walk the
(sentinel-terminated) matching blocks from positions `(i, j)`, classifying
each gap and emitting an `equal` opcode for each non-empty block. -/
def opcodesFromBlocks : Nat → Nat → List (Nat × Nat × Nat) →
    List (OpTag × Nat × Nat × Nat × Nat)
  | _, _, [] => []
  | i, j, (ai, bj, size) :: rest =>
    (if i < ai ∧ j < bj then [(OpTag.oReplace, i, ai, j, bj)]
     else if i < ai then [(OpTag.oDelete, i, ai, j, bj)]
     else if j < bj then [(OpTag.oInsert, i, ai, j, bj)]
     else [])
    ++ (if 0 < size then [(OpTag.oEqual, ai, ai + size, bj, bj + size)] else [])
    ++ opcodesFromBlocks (ai + size) (bj + size) rest

/-- Model of `SequenceMatcher.get_opcodes` (no junk). -/
def getOpcodes {α : Type} [DecidableEq α] (a b : List α) :
    List (OpTag × Nat × Nat × Nat × Nat) :=
  opcodesFromBlocks 0 0 (getMatchingBlocks a b)

/-- Segment kinds of the engine's output stream. -/
inductive SegKind
  | sEqual
  | sInsert
  | sDelete
  | sMoveSrc
  | sMoveDst
deriving DecidableEq, Repr

/-- `''.join(words[i1:i2])`. -/
def sliceJoin (ws : List Str) (i1 i2 : Nat) : Str := (pySlice ws i1 i2).flatten

theorem sliceJoin_nil (ws : List Str) (i : Nat) : sliceJoin ws i i = [] := by
  simp [sliceJoin, pySlice]

theorem sliceJoin_append (l : List Str) {i n m : Nat} (h1 : i ≤ n) (h2 : n ≤ m) :
    sliceJoin l i n ++ sliceJoin l n m = sliceJoin l i m := by
  unfold sliceJoin
  rw [← List.flatten_append, pySlice_append l h1 h2]

/-- The segments `diff_texts` emits for one opcode (lines 74-93): empty
texts are elided, a `replace` opcode emits its delete part then its insert
part. -/
def opSegs (ow mw : List Str) : OpTag × Nat × Nat × Nat × Nat → List (Str × SegKind)
  | (OpTag.oEqual, i1, i2, _, _) =>
    if sliceJoin ow i1 i2 = [] then [] else [(sliceJoin ow i1 i2, SegKind.sEqual)]
  | (OpTag.oDelete, i1, i2, _, _) =>
    if sliceJoin ow i1 i2 = [] then [] else [(sliceJoin ow i1 i2, SegKind.sDelete)]
  | (OpTag.oInsert, _, _, j1, j2) =>
    if sliceJoin mw j1 j2 = [] then [] else [(sliceJoin mw j1 j2, SegKind.sInsert)]
  | (OpTag.oReplace, i1, i2, j1, j2) =>
    (if sliceJoin ow i1 i2 = [] then [] else [(sliceJoin ow i1 i2, SegKind.sDelete)])
      ++ (if sliceJoin mw j1 j2 = [] then [] else [(sliceJoin mw j1 j2, SegKind.sInsert)])

/-- Embedding of `diff_texts` (lines 63-95): word-level diff of two texts
via `SequenceMatcher` over their token lists (`autojunk=False`). -/
def diff_texts (origText modText : Str) : List (Str × SegKind) :=
  ((getOpcodes (tokenize origText) (tokenize modText)).map
    (opSegs (tokenize origText) (tokenize modText))).flatten

/-- Concatenation of the texts of the segments whose kind lies in `ks`. -/
def projKinds (ks : List SegKind) (segs : List (Str × SegKind)) : Str :=
  ((segs.filter (fun s => s.2 ∈ ks)).map Prod.fst).flatten

theorem projKinds_append (ks : List SegKind) (l1 l2 : List (Str × SegKind)) :
    projKinds ks (l1 ++ l2) = projKinds ks l1 ++ projKinds ks l2 := by
  simp [projKinds]

theorem projKinds_ifseg (ks : List SegKind) (t : Str) (k : SegKind) :
    projKinds ks (if t = [] then [] else [(t, k)]) = if k ∈ ks then t else [] := by
  by_cases ht : t = [] <;> by_cases hk : k ∈ ks <;> simp [projKinds, ht, hk]

theorem opcodes_proj (ow mw : List Str) :
    ∀ (blocks : List (Nat × Nat × Nat)) (i j : Nat),
    ChainedB ow mw i j ow.length mw.length blocks →
    projKinds [SegKind.sEqual, SegKind.sDelete]
        (((opcodesFromBlocks i j blocks).map (opSegs ow mw)).flatten)
      = sliceJoin ow i (endPos (i, j) blocks).1 ∧
    projKinds [SegKind.sEqual, SegKind.sInsert]
        (((opcodesFromBlocks i j blocks).map (opSegs ow mw)).flatten)
      = sliceJoin mw j (endPos (i, j) blocks).2 := by
  intro blocks
  induction blocks with
  | nil =>
    intro i j _
    simp [opcodesFromBlocks, projKinds, endPos, sliceJoin_nil]
  | cons blk rest ih =>
    intro i j hch
    obtain ⟨ai, bj, k⟩ := blk
    obtain ⟨c1, c2, c3, c4, c5, c6⟩ := hch
    obtain ⟨ihA, ihB⟩ := ih (ai + k) (bj + k) c6
    obtain ⟨hEa, hEb⟩ := endPos_ge ow mw rest c6
    have hpreA : projKinds [SegKind.sEqual, SegKind.sDelete]
        (((if i < ai ∧ j < bj then [(OpTag.oReplace, i, ai, j, bj)]
           else if i < ai then [(OpTag.oDelete, i, ai, j, bj)]
           else if j < bj then [(OpTag.oInsert, i, ai, j, bj)]
           else []).map (opSegs ow mw)).flatten) = sliceJoin ow i ai := by
      by_cases h1 : i < ai ∧ j < bj
      · simp [h1, opSegs, projKinds_append, projKinds_ifseg]
      · by_cases h2 : i < ai
        · have h3 : ¬ j < bj := fun hj => h1 ⟨h2, hj⟩
          simp [h1, h2, h3, opSegs, projKinds_ifseg]
        · have hia : i = ai := by omega
          by_cases h3 : j < bj
          · simp [h1, h2, h3, opSegs, projKinds_ifseg, hia, sliceJoin_nil]
          · simp [h1, h2, h3, projKinds, hia, sliceJoin_nil]
    have hpreB : projKinds [SegKind.sEqual, SegKind.sInsert]
        (((if i < ai ∧ j < bj then [(OpTag.oReplace, i, ai, j, bj)]
           else if i < ai then [(OpTag.oDelete, i, ai, j, bj)]
           else if j < bj then [(OpTag.oInsert, i, ai, j, bj)]
           else []).map (opSegs ow mw)).flatten) = sliceJoin mw j bj := by
      by_cases h1 : i < ai ∧ j < bj
      · simp [h1, opSegs, projKinds_append, projKinds_ifseg]
      · by_cases h2 : i < ai
        · have h3 : ¬ j < bj := fun hj => h1 ⟨h2, hj⟩
          have hjb : j = bj := by omega
          simp [h1, h2, h3, opSegs, projKinds_ifseg, hjb, sliceJoin_nil]
        · by_cases h3 : j < bj
          · simp [h1, h2, h3, opSegs, projKinds_ifseg]
          · have hjb : j = bj := by omega
            simp [h1, h2, h3, projKinds, hjb, sliceJoin_nil]
    have heqA : projKinds [SegKind.sEqual, SegKind.sDelete]
        (((if 0 < k then [(OpTag.oEqual, ai, ai + k, bj, bj + k)] else []).map
          (opSegs ow mw)).flatten) = sliceJoin ow ai (ai + k) := by
      by_cases hk : 0 < k
      · simp [hk, opSegs, projKinds_ifseg]
      · have hk0 : k = 0 := by omega
        simp [hk, projKinds, hk0, sliceJoin_nil]
    have heqB : projKinds [SegKind.sEqual, SegKind.sInsert]
        (((if 0 < k then [(OpTag.oEqual, ai, ai + k, bj, bj + k)] else []).map
          (opSegs ow mw)).flatten) = sliceJoin mw bj (bj + k) := by
      have hsj : sliceJoin ow ai (ai + k) = sliceJoin mw bj (bj + k) := by
        unfold sliceJoin; rw [c5]
      by_cases hk : 0 < k
      · simp [hk, opSegs, projKinds_ifseg, hsj]
      · have hk0 : k = 0 := by omega
        simp [hk, projKinds, hk0, sliceJoin_nil]
    constructor
    · simp only [opcodesFromBlocks, List.map_append, List.flatten_append,
        projKinds_append, endPos]
      rw [hpreA, heqA, ihA, sliceJoin_append ow c1 (Nat.le_add_right ai k),
        sliceJoin_append ow (by omega) hEa]
    · simp only [opcodesFromBlocks, List.map_append, List.flatten_append,
        projKinds_append, endPos]
      rw [hpreB, heqB, ihB, sliceJoin_append mw c2 (Nat.le_add_right bj k),
        sliceJoin_append mw (by omega) hEb]

theorem diff_texts_proj (o m : Str) :
    projKinds [SegKind.sEqual, SegKind.sDelete] (diff_texts o m) = o ∧
    projKinds [SegKind.sEqual, SegKind.sInsert] (diff_texts o m) = m := by
  have h := opcodes_proj (tokenize o) (tokenize m)
    (getMatchingBlocks (tokenize o) (tokenize m)) 0 0 (getMatchingBlocks_chained _ _)
  have hend : endPos (0, 0) (getMatchingBlocks (tokenize o) (tokenize m))
      = ((tokenize o).length, (tokenize m).length) := by
    unfold getMatchingBlocks
    rw [endPos_append]
    simp [endPos]
  rw [hend] at h
  have hsA : sliceJoin (tokenize o) 0 (tokenize o).length = o := by
    unfold sliceJoin pySlice
    simp [tokenize_join]
  have hsB : sliceJoin (tokenize m) 0 (tokenize m).length = m := by
    unfold sliceJoin pySlice
    simp [tokenize_join]
  rw [hsA, hsB] at h
  exact h

/-- The popularity test of `SequenceMatcher.__chain_b` under the default
`autojunk=True` (the case of `calculate_similarity`'s matcher at line 124,
which passes no `autojunk` argument): when `b` has at least 200 elements,
an element occurring more than `len(b) // 100 + 1` times in `b` is
"popular" and is removed from the index `b2j`, so it can never seed a
match. -/
def isPopularB {α : Type} [DecidableEq α] (b : List α) (c : α) : Bool :=
  decide (200 ≤ b.length) && decide (b.length / 100 + 1 < b.count c)

/-- Longest common prefix of two lists along which the second list's
element is not popular: the diagonal seed chains of `find_longest_match`,
which are built through `b2j` and therefore skip popular elements. -/
def npPrefixLen {α : Type} [DecidableEq α] (bp : α → Bool) : List α → List α → Nat
  | x :: xs, y :: ys =>
    if x = y ∧ bp y = false then npPrefixLen bp xs ys + 1 else 0
  | _, _ => 0

/-- The length of the seed chain of `a[i:ahi]` / `b[j:bhi]` starting
exactly at `(i, j)`. -/
def npMatchLenAt {α : Type} [DecidableEq α] (bp : α → Bool) (a b : List α)
    (ahi bhi i j : Nat) : Nat :=
  npPrefixLen bp ((a.take ahi).drop i) ((b.take bhi).drop j)

/-- One candidate step of the seed phase of `find_longest_match` with
popular elements purged: keep the strictly longer chain. -/
def flmAStep {α : Type} [DecidableEq α] (bp : α → Bool) (a b : List α)
    (ahi bhi i : Nat) (best : Nat × Nat × Nat) (j : Nat) : Nat × Nat × Nat :=
  let k := npMatchLenAt bp a b ahi bhi i j
  if best.2.2 < k then (i, j, k) else best

/-- Model of `find_longest_match` with junk-free `b2j` minus the popular
elements (`autojunk=True`, no junk function): the seed phase finds the
longest chain of non-popular matches, then the result is extended on both
ends by plain element equality (the two non-junk extension loops; the junk
extension loops are no-ops because the junk set is empty).  With no seed at
all the extension still grows the empty match anchored at `(alo, blo)`. -/
def findLongestMatchAuto {α : Type} [DecidableEq α] (bp : α → Bool) (a b : List α)
    (alo ahi blo bhi : Nat) : Nat × Nat × Nat :=
  let r := (List.range' alo (ahi - alo)).foldl
    (fun best i => (List.range' blo (bhi - blo)).foldl (flmAStep bp a b ahi bhi i) best)
    (alo, blo, 0)
  let eb := commonPrefixLen (pySlice a alo r.1).reverse (pySlice b blo r.2.1).reverse
  let ef := commonPrefixLen (pySlice a (r.1 + r.2.2) ahi) (pySlice b (r.2.1 + r.2.2) bhi)
  (r.1 - eb, r.2.1 - eb, r.2.2 + eb + ef)

theorem npPrefixLen_le_left {α : Type} [DecidableEq α] (bp : α → Bool) :
    ∀ (l1 l2 : List α), npPrefixLen bp l1 l2 ≤ l1.length := by
  intro l1
  induction l1 with
  | nil => intro l2; cases l2 <;> simp [npPrefixLen]
  | cons a as ih =>
    intro l2
    cases l2 with
    | nil => simp [npPrefixLen]
    | cons b bs =>
      by_cases h : a = b ∧ bp b = false
      · simp only [npPrefixLen, if_pos h, List.length_cons]
        exact Nat.succ_le_succ (ih bs)
      · simp [npPrefixLen, h]

theorem npPrefixLen_le_right {α : Type} [DecidableEq α] (bp : α → Bool) :
    ∀ (l1 l2 : List α), npPrefixLen bp l1 l2 ≤ l2.length := by
  intro l1
  induction l1 with
  | nil => intro l2; cases l2 <;> simp [npPrefixLen]
  | cons a as ih =>
    intro l2
    cases l2 with
    | nil => simp [npPrefixLen]
    | cons b bs =>
      by_cases h : a = b ∧ bp b = false
      · simp only [npPrefixLen, if_pos h, List.length_cons]
        exact Nat.succ_le_succ (ih bs)
      · simp [npPrefixLen, h]

theorem npPrefixLen_take_eq {α : Type} [DecidableEq α] (bp : α → Bool) :
    ∀ (l1 l2 : List α),
    l1.take (npPrefixLen bp l1 l2) = l2.take (npPrefixLen bp l1 l2) := by
  intro l1
  induction l1 with
  | nil => intro l2; cases l2 <;> simp [npPrefixLen]
  | cons a as ih =>
    intro l2
    cases l2 with
    | nil => simp [npPrefixLen]
    | cons b bs =>
      by_cases h : a = b ∧ bp b = false
      · obtain ⟨rfl, hb⟩ := h
        simp [npPrefixLen, hb, ih bs]
      · simp [npPrefixLen, h]

theorem npMatchLenAt_le_left {α : Type} [DecidableEq α] (bp : α → Bool) (a b : List α)
    (ahi bhi i j : Nat) : npMatchLenAt bp a b ahi bhi i j ≤ ahi - i := by
  unfold npMatchLenAt
  have h1 := npPrefixLen_le_left bp ((a.take ahi).drop i) ((b.take bhi).drop j)
  have h2 : ((a.take ahi).drop i).length ≤ ahi - i := by
    simp [List.length_take]
    omega
  omega

theorem npMatchLenAt_le_right {α : Type} [DecidableEq α] (bp : α → Bool) (a b : List α)
    (ahi bhi i j : Nat) : npMatchLenAt bp a b ahi bhi i j ≤ bhi - j := by
  unfold npMatchLenAt
  have h1 := npPrefixLen_le_right bp ((a.take ahi).drop i) ((b.take bhi).drop j)
  have h2 : ((b.take bhi).drop j).length ≤ bhi - j := by
    simp [List.length_take]
    omega
  omega

theorem npMatchLenAt_slice {α : Type} [DecidableEq α] (bp : α → Bool) (a b : List α)
    (ahi bhi i j : Nat) :
    pySlice a i (i + npMatchLenAt bp a b ahi bhi i j)
      = pySlice b j (j + npMatchLenAt bp a b ahi bhi i j) := by
  have h := npPrefixLen_take_eq bp ((a.take ahi).drop i) ((b.take bhi).drop j)
  have ha : ((a.take ahi).drop i).take (npMatchLenAt bp a b ahi bhi i j)
      = pySlice a i (i + npMatchLenAt bp a b ahi bhi i j) := by
    rw [List.drop_take, List.take_take]
    unfold pySlice
    congr 1
    have := npMatchLenAt_le_left bp a b ahi bhi i j
    omega
  have hb : ((b.take bhi).drop j).take (npMatchLenAt bp a b ahi bhi i j)
      = pySlice b j (j + npMatchLenAt bp a b ahi bhi i j) := by
    rw [List.drop_take, List.take_take]
    unfold pySlice
    congr 1
    have := npMatchLenAt_le_right bp a b ahi bhi i j
    omega
  rw [← ha, ← hb]
  exact h


theorem pySlice_length_le {α : Type} (l : List α) (i1 i2 : Nat) :
    (pySlice l i1 i2).length ≤ i2 - i1 := by
  simp [pySlice, List.length_take]

theorem pySlice_length_eq {α : Type} (l : List α) {i1 i2 : Nat} (h1 : i1 ≤ i2)
    (h2 : i2 ≤ l.length) : (pySlice l i1 i2).length = i2 - i1 := by
  simp [pySlice, List.length_take, List.length_drop]
  omega

theorem pySlice_take {α : Type} (l : List α) {s e n : Nat} (h : n ≤ e - s) :
    (pySlice l s e).take n = pySlice l s (s + n) := by
  unfold pySlice
  rw [List.take_take]
  congr 1
  omega

theorem pySlice_drop {α : Type} (l : List α) (s e m : Nat) :
    (pySlice l s e).drop m = pySlice l (s + m) e := by
  unfold pySlice
  rw [List.drop_take, List.drop_drop]
  congr 1
  omega

/-- Common suffixes transfer to slice equality: the backward extension loop
of `find_longest_match`. -/
theorem ext_back_slice {α : Type} [DecidableEq α] (a b : List α)
    {alo blo i j : Nat} (hi1 : alo ≤ i) (hi2 : i ≤ a.length)
    (hj1 : blo ≤ j) (hj2 : j ≤ b.length) :
    pySlice a
        (i - commonPrefixLen (pySlice a alo i).reverse (pySlice b blo j).reverse) i
      = pySlice b
        (j - commonPrefixLen (pySlice a alo i).reverse (pySlice b blo j).reverse) j := by
  have htk := commonPrefixLen_take_eq (pySlice a alo i).reverse (pySlice b blo j).reverse
  rw [List.take_reverse, List.take_reverse] at htk
  have hdr := List.reverse_injective htk
  have hxl : (pySlice a alo i).length = i - alo := pySlice_length_eq a hi1 hi2
  have hyl : (pySlice b blo j).length = j - blo := pySlice_length_eq b hj1 hj2
  rw [hxl, hyl, pySlice_drop, pySlice_drop] at hdr
  have hn1 : commonPrefixLen (pySlice a alo i).reverse (pySlice b blo j).reverse
      ≤ i - alo := by
    have := commonPrefixLen_le_left (pySlice a alo i).reverse (pySlice b blo j).reverse
    rw [List.length_reverse, hxl] at this
    exact this
  have hn2 : commonPrefixLen (pySlice a alo i).reverse (pySlice b blo j).reverse
      ≤ j - blo := by
    have := commonPrefixLen_le_right (pySlice a alo i).reverse (pySlice b blo j).reverse
    rw [List.length_reverse, hyl] at this
    exact this
  have e1 : alo + (i - alo
      - commonPrefixLen (pySlice a alo i).reverse (pySlice b blo j).reverse)
      = i - commonPrefixLen (pySlice a alo i).reverse (pySlice b blo j).reverse := by
    omega
  have e2 : blo + (j - blo
      - commonPrefixLen (pySlice a alo i).reverse (pySlice b blo j).reverse)
      = j - commonPrefixLen (pySlice a alo i).reverse (pySlice b blo j).reverse := by
    omega
  rw [e1, e2] at hdr
  exact hdr

/-- Common prefixes transfer to slice equality: the forward extension loop
of `find_longest_match`. -/
theorem ext_fwd_slice {α : Type} [DecidableEq α] (a b : List α)
    (s1 e1 s2 e2 : Nat) :
    pySlice a s1 (s1 + commonPrefixLen (pySlice a s1 e1) (pySlice b s2 e2))
      = pySlice b s2 (s2 + commonPrefixLen (pySlice a s1 e1) (pySlice b s2 e2)) := by
  have htk := commonPrefixLen_take_eq (pySlice a s1 e1) (pySlice b s2 e2)
  have hn1 : commonPrefixLen (pySlice a s1 e1) (pySlice b s2 e2) ≤ e1 - s1 := by
    have h1 := commonPrefixLen_le_left (pySlice a s1 e1) (pySlice b s2 e2)
    have h2 := pySlice_length_le a s1 e1
    omega
  have hn2 : commonPrefixLen (pySlice a s1 e1) (pySlice b s2 e2) ≤ e2 - s2 := by
    have h1 := commonPrefixLen_le_right (pySlice a s1 e1) (pySlice b s2 e2)
    have h2 := pySlice_length_le b s2 e2
    omega
  rw [pySlice_take a hn1, pySlice_take b hn2] at htk
  exact htk

/-- Well-formedness of the seed phase of `findLongestMatchAuto`. -/
def GoodSeedA {α : Type} [DecidableEq α] (bp : α → Bool) (a b : List α)
    (alo ahi blo bhi : Nat) (r : Nat × Nat × Nat) : Prop :=
  r = (alo, blo, 0) ∨
  (alo ≤ r.1 ∧ r.1 < ahi ∧ blo ≤ r.2.1 ∧ r.2.1 < bhi ∧
    r.2.2 = npMatchLenAt bp a b ahi bhi r.1 r.2.1 ∧ 0 < r.2.2)

theorem flmAuto_seed_good {α : Type} [DecidableEq α] (bp : α → Bool) (a b : List α)
    (alo ahi blo bhi : Nat) :
    GoodSeedA bp a b alo ahi blo bhi
      ((List.range' alo (ahi - alo)).foldl
        (fun best i => (List.range' blo (bhi - blo)).foldl (flmAStep bp a b ahi bhi i) best)
        (alo, blo, 0)) := by
  apply foldl_preserve (GoodSeedA bp a b alo ahi blo bhi)
  · exact Or.inl rfl
  · intro s i hi hs
    apply foldl_preserve (GoodSeedA bp a b alo ahi blo bhi)
    · exact hs
    · intro s' j hj hs'
      unfold flmAStep
      by_cases hlt : s'.2.2 < npMatchLenAt bp a b ahi bhi i j
      · simp only [if_pos hlt]
        right
        obtain ⟨hi1, hi2⟩ := List.mem_range'_1.mp hi
        obtain ⟨hj1, hj2⟩ := List.mem_range'_1.mp hj
        exact ⟨hi1, show i < ahi by omega, hj1, show j < bhi by omega, rfl,
          show 0 < npMatchLenAt bp a b ahi bhi i j by omega⟩
      · simpa [hlt] using hs'

/-- Well-formedness of a `findLongestMatchAuto` result: inside the window
and slice-equal. -/
theorem findLongestMatchAuto_good {α : Type} [DecidableEq α] (bp : α → Bool)
    (a b : List α) (alo ahi blo bhi : Nat)
    (ha1 : alo ≤ ahi) (ha2 : ahi ≤ a.length) (hb1 : blo ≤ bhi) (hb2 : bhi ≤ b.length) :
    alo ≤ (findLongestMatchAuto bp a b alo ahi blo bhi).1 ∧
    blo ≤ (findLongestMatchAuto bp a b alo ahi blo bhi).2.1 ∧
    (findLongestMatchAuto bp a b alo ahi blo bhi).1
        + (findLongestMatchAuto bp a b alo ahi blo bhi).2.2 ≤ ahi ∧
    (findLongestMatchAuto bp a b alo ahi blo bhi).2.1
        + (findLongestMatchAuto bp a b alo ahi blo bhi).2.2 ≤ bhi ∧
    pySlice a (findLongestMatchAuto bp a b alo ahi blo bhi).1
        ((findLongestMatchAuto bp a b alo ahi blo bhi).1
          + (findLongestMatchAuto bp a b alo ahi blo bhi).2.2)
      = pySlice b (findLongestMatchAuto bp a b alo ahi blo bhi).2.1
        ((findLongestMatchAuto bp a b alo ahi blo bhi).2.1
          + (findLongestMatchAuto bp a b alo ahi blo bhi).2.2) := by
  unfold findLongestMatchAuto
  rcases hg : (List.range' alo (ahi - alo)).foldl
      (fun best i => (List.range' blo (bhi - blo)).foldl (flmAStep bp a b ahi bhi i) best)
      (alo, blo, 0) with ⟨si, sj, sk⟩
  have hseed := flmAuto_seed_good bp a b alo ahi blo bhi
  rw [hg] at hseed
  have hs1 : alo ≤ si ∧ blo ≤ sj ∧ si + sk ≤ ahi ∧ sj + sk ≤ bhi ∧
      pySlice a si (si + sk) = pySlice b sj (sj + sk) := by
    rcases hseed with heq | ⟨q1, q2, q3, q4, q5, q6⟩
    · cases heq
      refine ⟨le_rfl, le_rfl, by omega, by omega, ?_⟩
      simp [pySlice]
    · simp only at q1 q2 q3 q4 q5
      have hle1 := npMatchLenAt_le_left bp a b ahi bhi si sj
      have hle2 := npMatchLenAt_le_right bp a b ahi bhi si sj
      refine ⟨q1, q3, by omega, by omega, ?_⟩
      rw [q5]
      exact npMatchLenAt_slice bp a b ahi bhi si sj
  obtain ⟨w1, w2, w3, w4, w5⟩ := hs1
  simp only []
  have hi2 : si ≤ a.length := by omega
  have hj2 : sj ≤ b.length := by omega
  have hbs := ext_back_slice a b w1 hi2 w2 hj2
  have heb1 : commonPrefixLen (pySlice a alo si).reverse (pySlice b blo sj).reverse
      ≤ si - alo := by
    have h1 := commonPrefixLen_le_left (pySlice a alo si).reverse (pySlice b blo sj).reverse
    have h2 := pySlice_length_le a alo si
    rw [List.length_reverse] at h1
    omega
  have heb2 : commonPrefixLen (pySlice a alo si).reverse (pySlice b blo sj).reverse
      ≤ sj - blo := by
    have h1 := commonPrefixLen_le_right (pySlice a alo si).reverse (pySlice b blo sj).reverse
    have h2 := pySlice_length_le b blo sj
    rw [List.length_reverse] at h1
    omega
  have hfs := ext_fwd_slice a b (si + sk) ahi (sj + sk) bhi
  have hef1 : commonPrefixLen (pySlice a (si + sk) ahi) (pySlice b (sj + sk) bhi)
      ≤ ahi - (si + sk) := by
    have h1 := commonPrefixLen_le_left (pySlice a (si + sk) ahi) (pySlice b (sj + sk) bhi)
    have h2 := pySlice_length_le a (si + sk) ahi
    omega
  have hef2 : commonPrefixLen (pySlice a (si + sk) ahi) (pySlice b (sj + sk) bhi)
      ≤ bhi - (sj + sk) := by
    have h1 := commonPrefixLen_le_right (pySlice a (si + sk) ahi) (pySlice b (sj + sk) bhi)
    have h2 := pySlice_length_le b (sj + sk) bhi
    omega
  refine ⟨by omega, by omega, by omega, by omega, ?_⟩
  have ea : si - commonPrefixLen (pySlice a alo si).reverse (pySlice b blo sj).reverse
      + (sk + commonPrefixLen (pySlice a alo si).reverse (pySlice b blo sj).reverse
        + commonPrefixLen (pySlice a (si + sk) ahi) (pySlice b (sj + sk) bhi))
      = si + sk + commonPrefixLen (pySlice a (si + sk) ahi) (pySlice b (sj + sk) bhi) := by
    omega
  have eb : sj - commonPrefixLen (pySlice a alo si).reverse (pySlice b blo sj).reverse
      + (sk + commonPrefixLen (pySlice a alo si).reverse (pySlice b blo sj).reverse
        + commonPrefixLen (pySlice a (si + sk) ahi) (pySlice b (sj + sk) bhi))
      = sj + sk + commonPrefixLen (pySlice a (si + sk) ahi) (pySlice b (sj + sk) bhi) := by
    omega
  rw [ea, eb]
  have hsplA : pySlice a
      (si - commonPrefixLen (pySlice a alo si).reverse (pySlice b blo sj).reverse)
      (si + sk + commonPrefixLen (pySlice a (si + sk) ahi) (pySlice b (sj + sk) bhi))
      = pySlice a
          (si - commonPrefixLen (pySlice a alo si).reverse (pySlice b blo sj).reverse) si
        ++ pySlice a si (si + sk)
        ++ pySlice a (si + sk)
          (si + sk + commonPrefixLen (pySlice a (si + sk) ahi) (pySlice b (sj + sk) bhi)) := by
    rw [pySlice_append a (show si
          - commonPrefixLen (pySlice a alo si).reverse (pySlice b blo sj).reverse
          ≤ si by omega) (show si ≤ si + sk by omega),
      pySlice_append a (show si
          - commonPrefixLen (pySlice a alo si).reverse (pySlice b blo sj).reverse
          ≤ si + sk by omega)
        (show si + sk ≤ si + sk + commonPrefixLen (pySlice a (si + sk) ahi)
          (pySlice b (sj + sk) bhi) by omega)]
  have hsplB : pySlice b
      (sj - commonPrefixLen (pySlice a alo si).reverse (pySlice b blo sj).reverse)
      (sj + sk + commonPrefixLen (pySlice a (si + sk) ahi) (pySlice b (sj + sk) bhi))
      = pySlice b
          (sj - commonPrefixLen (pySlice a alo si).reverse (pySlice b blo sj).reverse) sj
        ++ pySlice b sj (sj + sk)
        ++ pySlice b (sj + sk)
          (sj + sk + commonPrefixLen (pySlice a (si + sk) ahi) (pySlice b (sj + sk) bhi)) := by
    rw [pySlice_append b (show sj
          - commonPrefixLen (pySlice a alo si).reverse (pySlice b blo sj).reverse
          ≤ sj by omega) (show sj ≤ sj + sk by omega),
      pySlice_append b (show sj
          - commonPrefixLen (pySlice a alo si).reverse (pySlice b blo sj).reverse
          ≤ sj + sk by omega)
        (show sj + sk ≤ sj + sk + commonPrefixLen (pySlice a (si + sk) ahi)
          (pySlice b (sj + sk) bhi) by omega)]
  rw [hsplA, hsplB, hbs, w5, hfs]

/-- The recursive block collection of `get_matching_blocks` with the
autojunk matcher. -/
def matchingBlocksFA {α : Type} [DecidableEq α] (bp : α → Bool) (a b : List α) :
    Nat → Nat → Nat → Nat → Nat → List (Nat × Nat × Nat)
  | 0, _, _, _, _ => []
  | fuel+1, alo, ahi, blo, bhi =>
    let r := findLongestMatchAuto bp a b alo ahi blo bhi
    if 0 < r.2.2 then
      matchingBlocksFA bp a b fuel alo r.1 blo r.2.1
        ++ r :: matchingBlocksFA bp a b fuel (r.1 + r.2.2) ahi (r.2.1 + r.2.2) bhi
    else []

theorem matchingBlocksFA_chained {α : Type} [DecidableEq α] (bp : α → Bool)
    (a b : List α) (fuel : Nat) :
    ∀ alo ahi blo bhi, alo ≤ ahi → ahi ≤ a.length → blo ≤ bhi → bhi ≤ b.length →
    ChainedB a b alo blo ahi bhi (matchingBlocksFA bp a b fuel alo ahi blo bhi) := by
  induction fuel with
  | zero => intro alo ahi blo bhi _ _ _ _; simp [matchingBlocksFA, ChainedB]
  | succ fuel ih =>
    intro alo ahi blo bhi ha1 ha2 hb1 hb2
    simp only [matchingBlocksFA]
    rcases hg : findLongestMatchAuto bp a b alo ahi blo bhi with ⟨ri, rj, rk⟩
    have hgood := findLongestMatchAuto_good bp a b alo ahi blo bhi ha1 ha2 hb1 hb2
    rw [hg] at hgood
    obtain ⟨g1, g2, g3, g4, g5⟩ := hgood
    simp only [] at g1 g2 g3 g4 g5
    by_cases hk : 0 < rk
    · simp only [if_pos hk]
      apply ChainedB_append a b _
        (ih alo ri blo rj (by omega) (by omega) (by omega) (by omega))
        _ (by omega) (by omega) g1 g2
      refine ⟨le_rfl, le_rfl, g3, g4, g5, ?_⟩
      exact ih (ri + rk) ahi (rj + rk) bhi (by omega) (by omega) (by omega) (by omega)
    · simp [hk, ChainedB]

/-- Model of `SequenceMatcher.get_matching_blocks` with the default
`autojunk=True` and no junk function (the `calculate_similarity` matcher):
the popularity set is computed once from `b`. -/
def getMatchingBlocksAuto {α : Type} [DecidableEq α] (a b : List α) :
    List (Nat × Nat × Nat) :=
  mergeBlocksAux 0 0 0
    (matchingBlocksFA (isPopularB b) a b (a.length + b.length) 0 a.length 0 b.length)
    ++ [(a.length, b.length, 0)]

theorem getMatchingBlocksAuto_chained {α : Type} [DecidableEq α] (a b : List α) :
    ChainedB a b 0 0 a.length b.length (getMatchingBlocksAuto a b) := by
  unfold getMatchingBlocksAuto
  have hbase := matchingBlocksFA_chained (isPopularB b) a b (a.length + b.length)
    0 a.length 0 b.length (by omega) le_rfl (by omega) le_rfl
  have hmerged : ChainedB a b 0 0 a.length b.length
      (mergeBlocksAux 0 0 0 (matchingBlocksFA (isPopularB b) a b (a.length + b.length)
        0 a.length 0 b.length)) := by
    apply mergeBlocksAux_chained a b _ 0 0 0 0 0 rfl (by omega) (by omega) le_rfl le_rfl
    simpa using hbase
  apply ChainedB_append a b _ hmerged _ le_rfl le_rfl (by omega) (by omega)
  exact ⟨le_rfl, le_rfl, by omega, by omega, by simp [pySlice], trivial⟩

theorem getMatchingBlocksAuto_sum_le {α : Type} [DecidableEq α] (a b : List α) :
    sumSizes (getMatchingBlocksAuto a b) ≤ a.length ∧
    sumSizes (getMatchingBlocksAuto a b) ≤ b.length := by
  have := chainedB_sum_le a b _ (getMatchingBlocksAuto_chained a b)
  omega

/-- Model of `difflib.SequenceMatcher(None, a, b).ratio()` as called by
`calculate_similarity` (line 124, default `autojunk=True`):
`2·M / (len(a)+len(b))`, where `M` is the total size of the matching blocks
of the autojunk matcher (`1.0` for two empty sequences). -/
def seqRatioAuto (a b : Str) : ℚ :=
  if a.length + b.length = 0 then 1
  else (2 * (sumSizes (getMatchingBlocksAuto a b) : ℚ))
    / ((a.length : ℚ) + (b.length : ℚ))

theorem seqRatioAuto_nonneg (a b : Str) : 0 ≤ seqRatioAuto a b := by
  unfold seqRatioAuto
  split_ifs with h
  · norm_num
  · positivity

theorem seqRatioAuto_le_one (a b : Str) : seqRatioAuto a b ≤ 1 := by
  unfold seqRatioAuto
  split_ifs with h
  · exact le_refl 1
  · have hM := getMatchingBlocksAuto_sum_le a b
    have hpos : (0 : ℚ) < (a.length : ℚ) + (b.length : ℚ) := by
      have : 0 < a.length + b.length := by omega
      exact_mod_cast this
    rw [div_le_one hpos]
    have : 2 * sumSizes (getMatchingBlocksAuto a b) ≤ a.length + b.length := by omega
    calc (2 * (sumSizes (getMatchingBlocksAuto a b) : ℚ))
        = ((2 * sumSizes (getMatchingBlocksAuto a b) : Nat) : ℚ) := by push_cast; ring
      _ ≤ ((a.length + b.length : Nat) : ℚ) := by exact_mod_cast this
      _ = (a.length : ℚ) + (b.length : ℚ) := by push_cast; ring

/-- The word-based Jaccard score of `calculate_similarity` (lines 113-121),
on the already-stripped texts: lowercased word sets, `|∩| / |∪|`. -/
def jaccardScore (a b : Str) : ℚ :=
  if (pySplit (lower a)).toFinset.card ≠ 0 ∧ (pySplit (lower b)).toFinset.card ≠ 0 then
    (if 0 < ((pySplit (lower a)).toFinset ∪ (pySplit (lower b)).toFinset).card then
      (((pySplit (lower a)).toFinset ∩ (pySplit (lower b)).toFinset).card : ℚ)
        / (((pySplit (lower a)).toFinset ∪ (pySplit (lower b)).toFinset).card : ℚ)
    else 0)
  else 0

/-- Python's binary `max`, written so that it evaluates inside the kernel. -/
def pyMax (x y : ℚ) : ℚ := if x ≤ y then y else x

theorem pyMax_eq_max (x y : ℚ) : pyMax x y = max x y := by
  unfold pyMax
  rcases le_total x y with h | h
  · rw [if_pos h, max_eq_right h]
  · rcases eq_or_lt_of_le h with h' | h'
    · simp [h']
    · rw [if_neg (not_le.mpr h'), max_eq_left h]

/-- Embedding of `calculate_similarity` (lines 98-126).  Note the order of
the tests in the source: byte equality first, then emptiness of the raw
texts, then stripping, then max of Jaccard and sequence ratio on the
stripped lowercased texts.  The matcher at line 124 is constructed without
`autojunk=False`, so the ratio is the autojunk one. -/
def calculate_similarity (text1 text2 : Str) : ℚ :=
  if text1 = text2 then 1
  else if text1 = [] ∨ text2 = [] then 0
  else if strip text1 = [] ∧ strip text2 = [] then 1
  else if strip text1 = [] ∨ strip text2 = [] then 0
  else pyMax (jaccardScore (strip text1) (strip text2))
    (seqRatioAuto (lower (strip text1)) (lower (strip text2)))

theorem jaccardScore_nonneg (a b : Str) : 0 ≤ jaccardScore a b := by
  unfold jaccardScore
  split_ifs with h1 h2
  · positivity
  · norm_num
  · norm_num

theorem jaccardScore_le_one (a b : Str) : jaccardScore a b ≤ 1 := by
  unfold jaccardScore
  split_ifs with h1 h2
  · rw [div_le_one (by exact_mod_cast h2)]
    exact_mod_cast Finset.card_le_card (Finset.inter_subset_union)
  · norm_num
  · norm_num

theorem calculate_similarity_mem01 (a b : Str) :
    0 ≤ calculate_similarity a b ∧ calculate_similarity a b ≤ 1 := by
  unfold calculate_similarity
  split_ifs with h1 h2 h3 h4
  · norm_num
  · norm_num
  · norm_num
  · norm_num
  · rw [pyMax_eq_max]
    constructor
    · exact le_max_of_le_left (jaccardScore_nonneg _ _)
    · exact max_le (jaccardScore_le_one _ _) (seqRatioAuto_le_one _ _)

theorem calculate_similarity_self (a : Str) : calculate_similarity a a = 1 := by
  simp [calculate_similarity]

/-- C7 (amended): `calculate_similarity` always lies in `[0,1]`; it returns
1.0 for byte-identical inputs; 0.0 when either raw input is empty (this test
precedes trimming); 1.0 when both inputs are non-empty but trim to empty;
0.0 when exactly one trims to empty; and otherwise the maximum of the
lowercased word-set Jaccard score and the sequence-matcher character ratio
computed on the lowercased *trimmed* strings with difflib's default
autojunk heuristic (the line-124 matcher passes no `autojunk=False`, so
when the trimmed modified string has at least 200 characters its characters
occurring more than `len // 100 + 1` times cannot seed matches). -/
theorem calculate_similarity_spec (a b : Str) :
    (0 ≤ calculate_similarity a b ∧ calculate_similarity a b ≤ 1) ∧
    (a = b → calculate_similarity a b = 1) ∧
    (a ≠ b → a = [] ∨ b = [] → calculate_similarity a b = 0) ∧
    (a ≠ b → a ≠ [] → b ≠ [] → strip a = [] → strip b = [] →
      calculate_similarity a b = 1) ∧
    (a ≠ b → a ≠ [] → b ≠ [] → ¬(strip a = [] ∧ strip b = []) →
      (strip a = [] ∨ strip b = []) → calculate_similarity a b = 0) ∧
    (a ≠ b → a ≠ [] → b ≠ [] → strip a ≠ [] → strip b ≠ [] →
      calculate_similarity a b
        = max (jaccardScore (strip a) (strip b))
            (seqRatioAuto (lower (strip a)) (lower (strip b)))) := by
  refine ⟨calculate_similarity_mem01 a b, ?_, ?_, ?_, ?_, ?_⟩
  · intro h; subst h; exact calculate_similarity_self a
  · intro h1 h2
    unfold calculate_similarity
    rw [if_neg h1, if_pos h2]
  · intro h1 h2 h3 h4 h5
    unfold calculate_similarity
    rw [if_neg h1, if_neg (by tauto), if_pos ⟨h4, h5⟩]
  · intro h1 h2 h3 h4 h5
    unfold calculate_similarity
    rw [if_neg h1, if_neg (by tauto), if_neg h4, if_pos h5]
  · intro h1 h2 h3 h4 h5
    unfold calculate_similarity
    rw [if_neg h1, if_neg (by tauto), if_neg (by tauto), if_neg (by tauto),
      pyMax_eq_max]

unseal Rat.mul Rat.inv Rat.add Rat.sub in
/-- Counterexample to C7 as stated: with `a = ""` and `b = " "` both inputs
are empty after trimming, so the claim requires 1.0, but the code returns
0.0 (its emptiness test precedes trimming); and with `a = "ab   "`,
`b = "ba"` the claim's ratio on the lowercased *full* strings would give
`max(0, 2·1/7) = 2/7`, but the code computes the ratio on the *trimmed*
strings and returns 1/2. -/
theorem calculate_similarity_cex :
    (calculate_similarity (chars "") (chars " ") = 0 ∧
      strip (chars "") = [] ∧ strip (chars " ") = [] ∧
      ¬ calculate_similarity (chars "") (chars " ") = 1) ∧
    (calculate_similarity (chars "ab   ") (chars "ba") = 1/2 ∧
      ¬ calculate_similarity (chars "ab   ") (chars "ba") = 2/7) := by
  constructor
  · refine ⟨by decide, by decide, by decide, by decide⟩
  · refine ⟨by decide, by decide⟩

unseal Rat.mul Rat.inv Rat.add Rat.sub in
/-- Witness for C7's amended theorem, discharging each of its hypotheses at
concrete inputs. -/
theorem calculate_similarity_spec_witness :
    calculate_similarity (chars "x") (chars "x") = 1 ∧
    calculate_similarity (chars "") (chars "y") = 0 ∧
    calculate_similarity (chars " ") (chars "\t") = 1 ∧
    calculate_similarity (chars " ") (chars "y") = 0 ∧
    calculate_similarity (chars "ax") (chars "ay")
      = max (jaccardScore (strip (chars "ax")) (strip (chars "ay")))
          (seqRatioAuto (lower (strip (chars "ax"))) (lower (strip (chars "ay")))) := by
  refine ⟨(calculate_similarity_spec (chars "x") (chars "x")).2.1 rfl,
    (calculate_similarity_spec (chars "") (chars "y")).2.2.1 (by decide) (by decide),
    (calculate_similarity_spec (chars " ") (chars "\t")).2.2.2.1 (by decide) (by decide)
      (by decide) (by decide) (by decide),
    (calculate_similarity_spec (chars " ") (chars "y")).2.2.2.2.1 (by decide) (by decide)
      (by decide) (by decide) (by decide),
    (calculate_similarity_spec (chars "ax") (chars "ay")).2.2.2.2.2 (by decide) (by decide)
      (by decide) (by decide) (by decide)⟩

/-- Move-detection settings (lines 21-22). -/
def MOVE_SIMILARITY_THRESHOLD : ℚ := 17/20

def MIN_MOVE_WORDS : Nat := 3

/-- Stable insertion into a list sorted by descending word count.  Folding
it over the input from the right models Python's stable
`sorted(deletions, key=lambda x: len(x[1].split()), reverse=True)`. -/
def insertDescBy (x : Nat × Str) : List (Nat × Str) → List (Nat × Str)
  | [] => [x]
  | y :: ys => if wordCount x.2 < wordCount y.2 then y :: insertDescBy x ys else x :: y :: ys

def sortDelsDesc (l : List (Nat × Str)) : List (Nat × Str) := l.foldr insertDescBy []

theorem insertDescBy_perm (x : Nat × Str) :
    ∀ l : List (Nat × Str), (insertDescBy x l).Perm (x :: l) := by
  intro l
  induction l with
  | nil => simp [insertDescBy]
  | cons y ys ih =>
    by_cases h : wordCount x.2 < wordCount y.2
    · simp only [insertDescBy, if_pos h]
      exact (List.Perm.cons y ih).trans (List.Perm.swap x y ys)
    · simp [insertDescBy, if_neg h]

theorem sortDelsDesc_perm (l : List (Nat × Str)) : (sortDelsDesc l).Perm l := by
  induction l with
  | nil => simp [sortDelsDesc]
  | cons x xs ih =>
    simp only [sortDelsDesc, List.foldr_cons]
    exact (insertDescBy_perm x _).trans (List.Perm.cons x ih)

/-- The inner candidate scan of the greedy move matcher (lines 162-174 /
516-526): walk the insertion candidates in order, skip the used ones, keep
the first one of maximal similarity at least the threshold, together with
its similarity (`best_similarity` starts at 0). -/
def bestInsertion (delNorm : Str) (used : List Nat) (inss : List (Nat × Str)) :
    Option Nat × ℚ :=
  inss.foldl
    (fun best pr =>
      if pr.1 ∈ used then best
      else if MOVE_SIMILARITY_THRESHOLD ≤
            calculate_similarity delNorm (normalize_text_for_move pr.2)
          ∧ best.2 < calculate_similarity delNorm (normalize_text_for_move pr.2) then
        (some pr.1, calculate_similarity delNorm (normalize_text_for_move pr.2))
      else best)
    (none, 0)

/-- One step of the greedy matcher's outer loop: try to pair the deletion
`d` against the insertion candidates, extending the pairing and the used
set on success. -/
def mmStep (inss : List (Nat × Str)) (st : List (Nat × Nat) × List Nat) (d : Nat × Str) :
    List (Nat × Nat) × List Nat :=
  match (bestInsertion (normalize_text_for_move d.2) st.2 inss).1 with
  | some j => (st.1 ++ [(d.1, j)], st.2 ++ [j])
  | none => st

/-- The greedy move matcher shared by `detect_word_level_moves`
(lines 156-178) and the paragraph-level move pass of `compare_documents`
(lines 511-530): process deletions in decreasing word count (stable),
pair each with its best unused insertion above the threshold.  Returns the
ordered pairing and the used insertion indices. -/
def matchMoves (dels inss : List (Nat × Str)) : List (Nat × Nat) × List Nat :=
  (sortDelsDesc dels).foldl (mmStep inss) ([], [])

/-- The move candidates of kind `k`: indices and texts of the segments of
that kind with at least `MIN_MOVE_WORDS` words (lines 145-150 / 506-509). -/
def moveCands (k : SegKind) (segs : List (Str × SegKind)) : List (Nat × Str) :=
  segs.enum.filterMap fun pr =>
    if pr.2.2 = k ∧ MIN_MOVE_WORDS ≤ wordCount pr.2.1 then some (pr.1, pr.2.1) else none

/-- The rewriting pass of `detect_word_level_moves` (lines 184-193): paired
deletions become `move_source`, paired insertions become `move_dest`,
everything else is copied. -/
def markMoves (moves : List (Nat × Nat)) (used : List Nat)
    (segs : List (Str × SegKind)) : List (Str × SegKind) :=
  segs.enum.map fun pr =>
    if pr.1 ∈ moves.map Prod.fst then (pr.2.1, SegKind.sMoveSrc)
    else if pr.1 ∈ used then (pr.2.1, SegKind.sMoveDst)
    else pr.2

/-- Embedding of `detect_word_level_moves` (lines 136-193). -/
def detect_word_level_moves (diff_segments : List (Str × SegKind)) : List (Str × SegKind) :=
  if moveCands SegKind.sDelete diff_segments = []
      ∨ moveCands SegKind.sInsert diff_segments = [] then diff_segments
  else if (matchMoves (moveCands SegKind.sDelete diff_segments)
      (moveCands SegKind.sInsert diff_segments)).1 = [] then diff_segments
  else markMoves
    (matchMoves (moveCands SegKind.sDelete diff_segments)
      (moveCands SegKind.sInsert diff_segments)).1
    (matchMoves (moveCands SegKind.sDelete diff_segments)
      (moveCands SegKind.sInsert diff_segments)).2
    diff_segments

theorem bestInsertion_spec (delNorm : Str) (used : List Nat) (inss : List (Nat × Str)) :
    (bestInsertion delNorm used inss).1 = none ∨
    (∃ j t, (bestInsertion delNorm used inss).1 = some j ∧ (j, t) ∈ inss ∧ j ∉ used ∧
      MOVE_SIMILARITY_THRESHOLD ≤ calculate_similarity delNorm (normalize_text_for_move t)) := by
  unfold bestInsertion
  refine foldl_preserve (fun (best : Option Nat × ℚ) => best.1 = none ∨
    (∃ j t, best.1 = some j ∧ (j, t) ∈ inss ∧ j ∉ used ∧
      MOVE_SIMILARITY_THRESHOLD ≤ calculate_similarity delNorm (normalize_text_for_move t)))
    _ inss (none, 0) (Or.inl rfl) ?_
  intro s pr hpr hs
  by_cases h1 : pr.1 ∈ used
  · simpa [h1] using hs
  · by_cases h2 : MOVE_SIMILARITY_THRESHOLD ≤
        calculate_similarity delNorm (normalize_text_for_move pr.2)
        ∧ s.2 < calculate_similarity delNorm (normalize_text_for_move pr.2)
    · simp only [if_neg h1, if_pos h2]
      right
      exact ⟨pr.1, pr.2, rfl, by simpa using hpr, h1, h2.1⟩
    · simpa [h1, h2] using hs

theorem mmFold_spec (inss : List (Nat × Str)) :
    ∀ (l : List (Nat × Str)) (st : List (Nat × Nat) × List Nat),
    st.2 = st.1.map Prod.snd →
    st.2.Nodup →
    (l.foldl (mmStep inss) st).2 = (l.foldl (mmStep inss) st).1.map Prod.snd ∧
    (l.foldl (mmStep inss) st).2.Nodup ∧
    (∀ p ∈ (l.foldl (mmStep inss) st).1, p ∈ st.1 ∨
      (∃ td tu, (p.1, td) ∈ l ∧ (p.2, tu) ∈ inss ∧
        MOVE_SIMILARITY_THRESHOLD ≤ calculate_similarity
          (normalize_text_for_move td) (normalize_text_for_move tu))) ∧
    (∃ ks, (l.foldl (mmStep inss) st).1.map Prod.fst = st.1.map Prod.fst ++ ks ∧
      ks.Sublist (l.map Prod.fst)) := by
  intro l
  induction l with
  | nil =>
    intro st h1 h2
    refine ⟨h1, h2, fun p hp => Or.inl hp, [], by simp, List.Sublist.refl _⟩
  | cons d l ih =>
    intro st h1 h2
    simp only [List.foldl_cons]
    rcases hbi : (bestInsertion (normalize_text_for_move d.2) st.2 inss).1 with _ | j
    · have hst : mmStep inss st d = st := by unfold mmStep; rw [hbi]
      rw [hst]
      obtain ⟨g1, g2, g3, ks, g4, g5⟩ := ih st h1 h2
      refine ⟨g1, g2, ?_, ks, g4, g5.trans (List.sublist_cons_self _ _)⟩
      intro p hp
      rcases g3 p hp with h | ⟨td, tu, hmem, hrest⟩
      · exact Or.inl h
      · exact Or.inr ⟨td, tu, List.mem_cons_of_mem _ hmem, hrest⟩
    · have hspec := bestInsertion_spec (normalize_text_for_move d.2) st.2 inss
      rw [hbi] at hspec
      rcases hspec with h | ⟨j', t, hj', hmem, hnu, hsim⟩
      · exact absurd h (by simp)
      · have hj : j' = j := by
          injection hj' with hinj
          exact hinj.symm
        subst hj
        have hst : mmStep inss st d = (st.1 ++ [(d.1, j')], st.2 ++ [j']) := by
          unfold mmStep; rw [hbi]
        rw [hst]
        have h1' : st.2 ++ [j'] = (st.1 ++ [(d.1, j')]).map Prod.snd := by
          simp [h1]
        have h2' : (st.2 ++ [j']).Nodup := by
          rw [List.nodup_append]
          refine ⟨h2, List.nodup_singleton _, ?_⟩
          intro a ha hb
          simp only [List.mem_singleton] at hb
          subst hb
          exact hnu ha
        obtain ⟨g1, g2, g3, ks, g4, g5⟩ :=
          ih (st.1 ++ [(d.1, j')], st.2 ++ [j']) h1' h2'
        refine ⟨g1, g2, ?_, d.1 :: ks, ?_, ?_⟩
        · intro p hp
          rcases g3 p hp with h | ⟨td, tu, hmemd, hrest⟩
          · rcases List.mem_append.mp h with h | h
            · exact Or.inl h
            · simp only [List.mem_singleton] at h
              subst h
              exact Or.inr ⟨d.2, t, by simp, hmem, hsim⟩
          · exact Or.inr ⟨td, tu, List.mem_cons_of_mem _ hmemd, hrest⟩
        · rw [g4]; simp
        · simpa using List.Sublist.cons₂ d.1 g5

theorem matchMoves_spec (dels inss : List (Nat × Str)) :
    (matchMoves dels inss).2 = (matchMoves dels inss).1.map Prod.snd ∧
    (matchMoves dels inss).2.Nodup ∧
    (∀ p ∈ (matchMoves dels inss).1,
      ∃ td tu, (p.1, td) ∈ dels ∧ (p.2, tu) ∈ inss ∧
        MOVE_SIMILARITY_THRESHOLD ≤ calculate_similarity
          (normalize_text_for_move td) (normalize_text_for_move tu)) ∧
    ((dels.map Prod.fst).Nodup → ((matchMoves dels inss).1.map Prod.fst).Nodup) := by
  obtain ⟨g1, g2, g3, ks, g4, g5⟩ :=
    mmFold_spec inss (sortDelsDesc dels) ([], []) rfl List.nodup_nil
  refine ⟨g1, g2, ?_, ?_⟩
  · intro p hp
    rcases g3 p hp with h | ⟨td, tu, hmemd, hrest⟩
    · simp at h
    · exact ⟨td, tu, (sortDelsDesc_perm dels).mem_iff.mp hmemd, hrest⟩
  · intro hnd
    have : ((sortDelsDesc dels).map Prod.fst).Nodup :=
      ((sortDelsDesc_perm dels).map Prod.fst).nodup_iff.mpr hnd
    rw [show (matchMoves dels inss).1.map Prod.fst = ks by simpa using g4]
    exact g5.nodup this

theorem filterMap_fst_sublist {α β : Type} (f : Nat × α → Option (Nat × β))
    (hf : ∀ x y, f x = some y → y.1 = x.1) :
    ∀ l : List (Nat × α), ((l.filterMap f).map Prod.fst).Sublist (l.map Prod.fst) := by
  intro l
  induction l with
  | nil => simp
  | cons x l ih =>
    rw [List.filterMap_cons]
    rcases hx : f x with _ | y
    · exact ih.trans (List.sublist_cons_self _ _)
    · simp only [List.map_cons]
      rw [hf x y hx]
      exact ih.cons₂ x.1

theorem moveCands_fst_nodup (k : SegKind) (segs : List (Str × SegKind)) :
    ((moveCands k segs).map Prod.fst).Nodup := by
  have hsub := filterMap_fst_sublist
    (fun pr => if pr.2.2 = k ∧ MIN_MOVE_WORDS ≤ wordCount pr.2.1 then
      some (pr.1, pr.2.1) else none)
    (by
      intro x y hxy
      simp only [] at hxy
      split_ifs at hxy with h
      cases hxy; rfl)
    segs.enum
  exact hsub.nodup (by simp [List.enum_map_fst, List.nodup_range])

/-- The default segment used with `List.getD`. -/
def dSeg : Str × SegKind := ([], SegKind.sEqual)

theorem mem_enum_iff {α : Type} (d : α) (l : List α) (p : Nat × α) :
    p ∈ l.enum ↔ p.1 < l.length ∧ l.getD p.1 d = p.2 := by
  rw [List.mem_iff_getElem]
  constructor
  · rintro ⟨i, hi, hget⟩
    have hi' : i < l.length := by simpa using hi
    have : l.enum[i] = (i, l[i]) := List.getElem_enum ..
    rw [this] at hget
    obtain ⟨h1, h2⟩ := Prod.mk.injEq .. ▸ hget
    refine ⟨h1 ▸ hi', ?_⟩
    rw [← h1, List.getD_eq_getElem l d hi', h2]
  · rintro ⟨hlt, hget⟩
    have hlt' : p.1 < l.enum.length := by simpa using hlt
    refine ⟨p.1, hlt', ?_⟩
    have : l.enum[p.1] = (p.1, l[p.1]) := List.getElem_enum ..
    rw [this, ← List.getD_eq_getElem l d hlt, hget]

theorem moveCands_mem (k : SegKind) (segs : List (Str × SegKind)) (p : Nat × Str) :
    p ∈ moveCands k segs ↔
    p.1 < segs.length ∧ (segs.getD p.1 dSeg).2 = k ∧ (segs.getD p.1 dSeg).1 = p.2 ∧
      MIN_MOVE_WORDS ≤ wordCount p.2 := by
  unfold moveCands
  rw [List.mem_filterMap]
  constructor
  · rintro ⟨pr, hpr, hcond⟩
    rw [mem_enum_iff dSeg] at hpr
    obtain ⟨hlt, hget⟩ := hpr
    split_ifs at hcond with h
    · cases hcond
      refine ⟨hlt, ?_, ?_, ?_⟩
      · rw [hget]; exact h.1
      · rw [hget]
      · simpa using h.2
  · rintro ⟨hlt, hk, ht, hw⟩
    refine ⟨(p.1, segs.getD p.1 dSeg), ?_, ?_⟩
    · rw [mem_enum_iff dSeg]
      exact ⟨hlt, rfl⟩
    · rw [if_pos ⟨hk, ht.symm ▸ hw⟩, ht]

theorem markMoves_length (moves : List (Nat × Nat)) (used : List Nat)
    (segs : List (Str × SegKind)) :
    (markMoves moves used segs).length = segs.length := by
  simp [markMoves]

theorem markMoves_getD (moves : List (Nat × Nat)) (used : List Nat)
    (segs : List (Str × SegKind)) (i : Nat) (hi : i < segs.length) :
    (markMoves moves used segs).getD i dSeg =
      (if i ∈ moves.map Prod.fst then ((segs.getD i dSeg).1, SegKind.sMoveSrc)
       else if i ∈ used then ((segs.getD i dSeg).1, SegKind.sMoveDst)
       else segs.getD i dSeg) := by
  unfold markMoves
  have hi1 : i < (segs.enum.map (fun pr =>
      if pr.1 ∈ moves.map Prod.fst then (pr.2.1, SegKind.sMoveSrc)
      else if pr.1 ∈ used then (pr.2.1, SegKind.sMoveDst)
      else pr.2)).length := by simpa using hi
  rw [List.getD_eq_getElem _ dSeg hi1, List.getElem_map]
  have hi2 : i < segs.enum.length := by simpa using hi
  have : segs.enum[i] = (i, segs[i]) := List.getElem_enum ..
  rw [this, ← List.getD_eq_getElem segs dSeg hi]

theorem detect_word_level_moves_length (segs : List (Str × SegKind)) :
    (detect_word_level_moves segs).length = segs.length := by
  unfold detect_word_level_moves
  split_ifs with h1 h2
  · rfl
  · rfl
  · exact markMoves_length _ _ _

theorem dwlm_getD (segs : List (Str × SegKind)) (i : Nat) (hi : i < segs.length) :
    (detect_word_level_moves segs).getD i dSeg = segs.getD i dSeg ∨
    ((segs.getD i dSeg).2 = SegKind.sDelete ∧
      (detect_word_level_moves segs).getD i dSeg
        = ((segs.getD i dSeg).1, SegKind.sMoveSrc) ∧
      MIN_MOVE_WORDS ≤ wordCount (segs.getD i dSeg).1 ∧
      ∃ j, j < segs.length ∧ (segs.getD j dSeg).2 = SegKind.sInsert ∧
        MIN_MOVE_WORDS ≤ wordCount (segs.getD j dSeg).1 ∧
        MOVE_SIMILARITY_THRESHOLD ≤ calculate_similarity
          (normalize_text_for_move (segs.getD i dSeg).1)
          (normalize_text_for_move (segs.getD j dSeg).1)) ∨
    ((segs.getD i dSeg).2 = SegKind.sInsert ∧
      (detect_word_level_moves segs).getD i dSeg
        = ((segs.getD i dSeg).1, SegKind.sMoveDst) ∧
      MIN_MOVE_WORDS ≤ wordCount (segs.getD i dSeg).1 ∧
      ∃ j, j < segs.length ∧ (segs.getD j dSeg).2 = SegKind.sDelete ∧
        MIN_MOVE_WORDS ≤ wordCount (segs.getD j dSeg).1 ∧
        MOVE_SIMILARITY_THRESHOLD ≤ calculate_similarity
          (normalize_text_for_move (segs.getD j dSeg).1)
          (normalize_text_for_move (segs.getD i dSeg).1)) := by
  unfold detect_word_level_moves
  split_ifs with h1 h2
  · exact Or.inl rfl
  · exact Or.inl rfl
  · obtain ⟨g1, _, g3, _⟩ := matchMoves_spec (moveCands SegKind.sDelete segs)
      (moveCands SegKind.sInsert segs)
    rw [markMoves_getD _ _ _ i hi]
    by_cases hks : i ∈ (matchMoves (moveCands SegKind.sDelete segs)
        (moveCands SegKind.sInsert segs)).1.map Prod.fst
    · rw [if_pos hks]
      obtain ⟨p, hp, hpfst⟩ := List.mem_map.mp hks
      obtain ⟨td, tu, hmemd, hmemi, hsim⟩ := g3 p hp
      rw [hpfst] at hmemd
      rw [moveCands_mem] at hmemd hmemi
      obtain ⟨hd1, hd2, hd3, hd4⟩ := hmemd
      obtain ⟨hi1, hi2, hi3, hi4⟩ := hmemi
      right; left
      refine ⟨hd2, rfl, by rw [hd3]; exact hd4, p.2, hi1, hi2, by rw [hi3]; exact hi4, ?_⟩
      rw [hd3, hi3]
      exact hsim
    · rw [if_neg hks]
      by_cases hus : i ∈ (matchMoves (moveCands SegKind.sDelete segs)
          (moveCands SegKind.sInsert segs)).2
      · rw [if_pos hus]
        rw [g1] at hus
        obtain ⟨p, hp, hpsnd⟩ := List.mem_map.mp hus
        obtain ⟨td, tu, hmemd, hmemi, hsim⟩ := g3 p hp
        rw [hpsnd] at hmemi
        rw [moveCands_mem] at hmemd hmemi
        obtain ⟨hd1, hd2, hd3, hd4⟩ := hmemd
        obtain ⟨hi1, hi2, hi3, hi4⟩ := hmemi
        right; right
        refine ⟨hi2, rfl, by rw [hi3]; exact hi4, p.1, hd1, hd2, by rw [hd3]; exact hd4, ?_⟩
        rw [hd3, hi3]
        exact hsim
      · rw [if_neg hus]
        exact Or.inl rfl

/-- C8: `detect_word_level_moves` returns a list of the same length with the
same texts at the same positions; the only change is rewriting the kind of
paired segments (`delete` to `move_source`, `insert` to `move_dest`), a
segment being paired only if it has at least `MIN_MOVE_WORDS` = 3
whitespace-separated words and its normalized text has similarity at least
`MOVE_SIMILARITY_THRESHOLD` = 0.85 to its partner (which is of the opposite
kind and also has at least 3 words); every other segment is returned
unchanged. -/
theorem detect_word_level_moves_frame (segs : List (Str × SegKind)) :
    (detect_word_level_moves segs).length = segs.length ∧
    ∀ i, i < segs.length →
      ((detect_word_level_moves segs).getD i dSeg).1 = (segs.getD i dSeg).1 ∧
      ((detect_word_level_moves segs).getD i dSeg = segs.getD i dSeg ∨
      ((segs.getD i dSeg).2 = SegKind.sDelete ∧
        (detect_word_level_moves segs).getD i dSeg
          = ((segs.getD i dSeg).1, SegKind.sMoveSrc) ∧
        MIN_MOVE_WORDS ≤ wordCount (segs.getD i dSeg).1 ∧
        ∃ j, j < segs.length ∧ (segs.getD j dSeg).2 = SegKind.sInsert ∧
          MIN_MOVE_WORDS ≤ wordCount (segs.getD j dSeg).1 ∧
          MOVE_SIMILARITY_THRESHOLD ≤ calculate_similarity
            (normalize_text_for_move (segs.getD i dSeg).1)
            (normalize_text_for_move (segs.getD j dSeg).1)) ∨
      ((segs.getD i dSeg).2 = SegKind.sInsert ∧
        (detect_word_level_moves segs).getD i dSeg
          = ((segs.getD i dSeg).1, SegKind.sMoveDst) ∧
        MIN_MOVE_WORDS ≤ wordCount (segs.getD i dSeg).1 ∧
        ∃ j, j < segs.length ∧ (segs.getD j dSeg).2 = SegKind.sDelete ∧
          MIN_MOVE_WORDS ≤ wordCount (segs.getD j dSeg).1 ∧
          MOVE_SIMILARITY_THRESHOLD ≤ calculate_similarity
            (normalize_text_for_move (segs.getD j dSeg).1)
            (normalize_text_for_move (segs.getD i dSeg).1))) := by
  refine ⟨detect_word_level_moves_length segs, ?_⟩
  intro i hi
  have h := dwlm_getD segs i hi
  refine ⟨?_, h⟩
  rcases h with h | ⟨_, h2, _⟩ | ⟨_, h2, _⟩
  · rw [h]
  · rw [h2]
  · rw [h2]

/-- A two-segment list that the word-level move detector pairs up. -/
def demoSegs : List (Str × SegKind) :=
  [(chars "a b c", SegKind.sDelete), (chars "a b c", SegKind.sInsert)]

set_option maxHeartbeats 2000000 in
unseal Rat.mul Rat.inv Rat.add Rat.sub in
/-- Witness for C8, applying the frame theorem at index 0 of a concrete
segment list. -/
theorem detect_word_level_moves_frame_witness :
    ((detect_word_level_moves demoSegs).getD 0 dSeg).1 = (demoSegs.getD 0 dSeg).1 ∧
    (detect_word_level_moves demoSegs).getD 0 dSeg
      = ((demoSegs.getD 0 dSeg).1, SegKind.sMoveSrc) := by
  refine ⟨((detect_word_level_moves_frame demoSegs).2 0 (by decide)).1, by decide⟩

theorem projKinds_cons (K : List SegKind) (s : Str × SegKind) (l : List (Str × SegKind)) :
    projKinds K (s :: l) = if s.2 ∈ K then s.1 ++ projKinds K l else projKinds K l := by
  by_cases h : s.2 ∈ K <;> simp [projKinds, h]

theorem projKinds_congr (K K' : List SegKind) :
    ∀ (xs ys : List (Str × SegKind)), ys.length = xs.length →
    (∀ i, i < xs.length → (ys.getD i dSeg).1 = (xs.getD i dSeg).1 ∧
      ((ys.getD i dSeg).2 ∈ K' ↔ (xs.getD i dSeg).2 ∈ K)) →
    projKinds K' ys = projKinds K xs := by
  intro xs
  induction xs with
  | nil =>
    intro ys hlen _
    rw [List.length_nil, List.length_eq_zero] at hlen
    subst hlen
    rfl
  | cons x xs ih =>
    intro ys hlen h
    match ys with
    | [] => simp at hlen
    | y :: ys' =>
      have h0 := h 0 (by simp)
      simp only [List.getD_cons_zero] at h0
      have hys : ys'.length = xs.length := by simpa using hlen
      have hrest : ∀ i, i < xs.length → (ys'.getD i dSeg).1 = (xs.getD i dSeg).1 ∧
          ((ys'.getD i dSeg).2 ∈ K' ↔ (xs.getD i dSeg).2 ∈ K) := by
        intro i hi
        have := h (i + 1) (by simpa using Nat.succ_lt_succ hi)
        simpa only [List.getD_cons_succ] using this
      rw [projKinds_cons, projKinds_cons]
      by_cases hxk : x.2 ∈ K
      · rw [if_pos hxk, if_pos (h0.2.mpr hxk), h0.1, ih ys' hys hrest]
      · rw [if_neg hxk, if_neg (fun hy => hxk (h0.2.mp hy)), ih ys' hys hrest]

theorem diff_texts_kinds (o m : Str) :
    ∀ s ∈ diff_texts o m, s.2 = SegKind.sEqual ∨ s.2 = SegKind.sDelete ∨
      s.2 = SegKind.sInsert := by
  intro s hs
  unfold diff_texts at hs
  rw [List.mem_flatten] at hs
  obtain ⟨l, hl, hsl⟩ := hs
  rw [List.mem_map] at hl
  obtain ⟨op, _, hop⟩ := hl
  subst hop
  obtain ⟨tag, i1, i2, j1, j2⟩ := op
  cases tag <;> simp only [opSegs] at hsl
  · split_ifs at hsl <;> simp at hsl
    · simp [hsl]
  · split_ifs at hsl <;> simp at hsl
    · simp [hsl]
  · split_ifs at hsl <;> simp at hsl
    · simp [hsl]
  · rcases List.mem_append.mp hsl with hh | hh <;> split_ifs at hh <;> simp at hh <;>
      simp [hh]

theorem getD_mem_of_lt {l : List (Str × SegKind)} {i : Nat} (hi : i < l.length) :
    l.getD i dSeg ∈ l := by
  rw [List.getD_eq_getElem l dSeg hi]
  exact List.getElem_mem hi

/-- C2: projecting the word differ's output by kind reproduces the inputs:
the `equal`/`delete` segments concatenate to the original text and the
`equal`/`insert` segments to the modified text; and after the word-level
move detector runs on that output the same holds with `move_source` grouped
with `delete` and `move_dest` grouped with `insert`. -/
theorem diff_texts_roundtrip (origText modText : Str) :
    projKinds [SegKind.sEqual, SegKind.sDelete] (diff_texts origText modText) = origText ∧
    projKinds [SegKind.sEqual, SegKind.sInsert] (diff_texts origText modText) = modText ∧
    projKinds [SegKind.sEqual, SegKind.sDelete, SegKind.sMoveSrc]
      (detect_word_level_moves (diff_texts origText modText)) = origText ∧
    projKinds [SegKind.sEqual, SegKind.sInsert, SegKind.sMoveDst]
      (detect_word_level_moves (diff_texts origText modText)) = modText := by
  obtain ⟨hA, hB⟩ := diff_texts_proj origText modText
  refine ⟨hA, hB, ?_, ?_⟩
  · refine Eq.trans ?_ hA
    apply projKinds_congr _ _ (diff_texts origText modText) _
      (detect_word_level_moves_length _)
    intro i hi
    have hk := diff_texts_kinds origText modText _ (getD_mem_of_lt hi)
    rcases dwlm_getD _ i hi with h | ⟨h1, h2, _⟩ | ⟨h1, h2, _⟩
    · refine ⟨by rw [h], ?_⟩
      rw [h]
      rcases hk with hk | hk | hk <;> rw [hk] <;> simp
    · exact ⟨by rw [h2], by rw [h2, h1]; simp⟩
    · exact ⟨by rw [h2], by rw [h2, h1]; simp⟩
  · refine Eq.trans ?_ hB
    apply projKinds_congr _ _ (diff_texts origText modText) _
      (detect_word_level_moves_length _)
    intro i hi
    have hk := diff_texts_kinds origText modText _ (getD_mem_of_lt hi)
    rcases dwlm_getD _ i hi with h | ⟨h1, h2, _⟩ | ⟨h1, h2, _⟩
    · refine ⟨by rw [h], ?_⟩
      rw [h]
      rcases hk with hk | hk | hk <;> rw [hk] <;> simp
    · exact ⟨by rw [h2], by rw [h2, h1]; simp⟩
    · exact ⟨by rw [h2], by rw [h2, h1]; simp⟩

/-- The paragraph-similarity threshold used by the aligner (line 205). -/
def PARA_SIM_THRESHOLD : ℚ := 2/5

/-- Alignment kinds of `align_paragraphs` records. -/
inductive AlignKind
  | akMatch
  | akInsert
  | akDelete
deriving DecidableEq, Repr

/-- Fuel-driven model of the LCS table of `align_paragraphs` (lines
200-208): `lcsF fuel i j` is `lcs[i][j]`, total whenever `fuel ≥ i + j`. -/
def lcsF (origs mods : List Str) : Nat → Nat → Nat → Nat
  | 0, _, _ => 0
  | fuel+1, i, j =>
    if i = 0 ∨ j = 0 then 0
    else if PARA_SIM_THRESHOLD ≤
        calculate_similarity (origs.getD (i-1) []) (mods.getD (j-1) []) then
      lcsF origs mods fuel (i-1) (j-1) + 1
    else max (lcsF origs mods fuel (i-1) j) (lcsF origs mods fuel i (j-1))

def lcsVal (origs mods : List Str) (i j : Nat) : Nat := lcsF origs mods (i + j) i j

/-- Fuel-driven model of the backtracking loop of `align_paragraphs` (lines
210-228); emits the alignment records in reverse order, exactly as the
`while i > 0 or j > 0` loop does. -/
def backtrackF (origs mods : List Str) : Nat → Nat → Nat → List (Int × Int × AlignKind)
  | 0, _, _ => []
  | fuel+1, i, j =>
    if 0 < i ∧ 0 < j ∧ PARA_SIM_THRESHOLD ≤
        calculate_similarity (origs.getD (i-1) []) (mods.getD (j-1) []) then
      ((i : Int) - 1, (j : Int) - 1, AlignKind.akMatch)
        :: backtrackF origs mods fuel (i-1) (j-1)
    else if 0 < j ∧ (i = 0 ∨ lcsVal origs mods (i-1) j ≤ lcsVal origs mods i (j-1)) then
      (-1, (j : Int) - 1, AlignKind.akInsert) :: backtrackF origs mods fuel i (j-1)
    else if 0 < i then
      ((i : Int) - 1, -1, AlignKind.akDelete) :: backtrackF origs mods fuel (i-1) j
    else []

/-- Embedding of `align_paragraphs` (lines 196-230): LCS alignment of the
two paragraph lists with `calculate_similarity ≥ 0.4` as the match oracle,
backtracked and reversed into source order. -/
def align_paragraphs (orig_texts mod_texts : List Str) : List (Int × Int × AlignKind) :=
  (backtrackF orig_texts mod_texts (orig_texts.length + mod_texts.length)
    orig_texts.length mod_texts.length).reverse

/-- Projection selecting the original-side index of `match`/`delete` records. -/
def origIdxOf (r : Int × Int × AlignKind) : Option Int :=
  if r.2.2 = AlignKind.akMatch ∨ r.2.2 = AlignKind.akDelete then some r.1 else none

/-- Projection selecting the modified-side index of `match`/`insert` records. -/
def modIdxOf (r : Int × Int × AlignKind) : Option Int :=
  if r.2.2 = AlignKind.akMatch ∨ r.2.2 = AlignKind.akInsert then some r.2.1 else none

theorem filterMap_cons_some {α β : Type} (f : α → Option β) (a : α) (l : List α)
    (b : β) (h : f a = some b) : (a :: l).filterMap f = b :: l.filterMap f := by
  rw [List.filterMap_cons, h]

theorem filterMap_cons_none {α β : Type} (f : α → Option β) (a : α) (l : List α)
    (h : f a = none) : (a :: l).filterMap f = l.filterMap f := by
  rw [List.filterMap_cons, h]

theorem range_reverse_cast_eq (i : Nat) (h : 0 < i) :
    (List.range i).reverse.map Int.ofNat
      = Int.ofNat (i-1) :: (List.range (i-1)).reverse.map Int.ofNat := by
  obtain ⟨k, rfl⟩ : ∃ k, i = k + 1 := ⟨i - 1, by omega⟩
  rw [List.range_succ, List.reverse_append]
  simp

theorem backtrackF_spec (origs mods : List Str) :
    ∀ (fuel : Nat), ∀ (i j : Nat), i + j ≤ fuel →
    (backtrackF origs mods fuel i j).filterMap origIdxOf
      = (List.range i).reverse.map Int.ofNat ∧
    (backtrackF origs mods fuel i j).filterMap modIdxOf
      = (List.range j).reverse.map Int.ofNat ∧
    (∀ r ∈ backtrackF origs mods fuel i j,
      (r.2.2 = AlignKind.akInsert → r.1 = -1 ∧ 0 ≤ r.2.1) ∧
      (r.2.2 = AlignKind.akDelete → r.2.1 = -1 ∧ 0 ≤ r.1) ∧
      (r.2.2 = AlignKind.akMatch → 0 ≤ r.1 ∧ 0 ≤ r.2.1)) := by
  intro fuel
  induction fuel with
  | zero =>
    intro i j h
    have hi : i = 0 := by omega
    have hj : j = 0 := by omega
    subst hi; subst hj
    simp [backtrackF]
  | succ fuel ih =>
    intro i j h
    unfold backtrackF
    by_cases h1 : 0 < i ∧ 0 < j ∧ PARA_SIM_THRESHOLD ≤
        calculate_similarity (origs.getD (i-1) []) (mods.getD (j-1) [])
    · rw [if_pos h1]
      obtain ⟨g1, g2, g3⟩ := ih (i-1) (j-1) (by omega)
      have hi0 : 0 < i := h1.1
      have hj0 : 0 < j := h1.2.1
      refine ⟨?_, ?_, ?_⟩
      · rw [filterMap_cons_some origIdxOf _ _ ((i : Int) - 1) (by simp [origIdxOf]),
          g1, range_reverse_cast_eq i hi0]
        congr 1
        simp only [Int.ofNat_eq_natCast]
        omega
      · rw [filterMap_cons_some modIdxOf _ _ ((j : Int) - 1) (by simp [modIdxOf]),
          g2, range_reverse_cast_eq j hj0]
        congr 1
        simp only [Int.ofNat_eq_natCast]
        omega
      · intro r hr
        rcases List.mem_cons.mp hr with rfl | hr
        · refine ⟨?_, ?_, ?_⟩
          · intro hcon; simp at hcon
          · intro hcon; simp at hcon
          · intro _
            constructor
            · show (0 : Int) ≤ (i : Int) - 1
              omega
            · show (0 : Int) ≤ (j : Int) - 1
              omega
        · exact g3 r hr
    · rw [if_neg h1]
      by_cases h2 : 0 < j ∧ (i = 0 ∨ lcsVal origs mods (i-1) j ≤ lcsVal origs mods i (j-1))
      · rw [if_pos h2]
        obtain ⟨g1, g2, g3⟩ := ih i (j-1) (by omega)
        have hj0 : 0 < j := h2.1
        refine ⟨?_, ?_, ?_⟩
        · rw [filterMap_cons_none origIdxOf _ _ (by simp [origIdxOf]), g1]
        · rw [filterMap_cons_some modIdxOf _ _ ((j : Int) - 1) (by simp [modIdxOf]),
            g2, range_reverse_cast_eq j hj0]
          congr 1
          simp only [Int.ofNat_eq_natCast]
          omega
        · intro r hr
          rcases List.mem_cons.mp hr with rfl | hr
          · refine ⟨?_, ?_, ?_⟩
            · intro _
              refine ⟨rfl, ?_⟩
              show (0 : Int) ≤ (j : Int) - 1
              omega
            · intro hcon; simp at hcon
            · intro hcon; simp at hcon
          · exact g3 r hr
      · rw [if_neg h2]
        by_cases h3 : 0 < i
        · rw [if_pos h3]
          obtain ⟨g1, g2, g3⟩ := ih (i-1) j (by omega)
          refine ⟨?_, ?_, ?_⟩
          · rw [filterMap_cons_some origIdxOf _ _ ((i : Int) - 1) (by simp [origIdxOf]),
              g1, range_reverse_cast_eq i h3]
            congr 1
            simp only [Int.ofNat_eq_natCast]
            omega
          · rw [filterMap_cons_none modIdxOf _ _ (by simp [modIdxOf]), g2]
          · intro r hr
            rcases List.mem_cons.mp hr with rfl | hr
            · refine ⟨?_, ?_, ?_⟩
              · intro hcon; simp at hcon
              · intro _
                refine ⟨rfl, ?_⟩
                show (0 : Int) ≤ (i : Int) - 1
                omega
              · intro hcon; simp at hcon
            · exact g3 r hr
        · rw [if_neg h3]
          have hi : i = 0 := by omega
          have hj : j = 0 := by
            subst hi
            by_contra hj0
            exact h2 ⟨by omega, Or.inl rfl⟩
          subst hi; subst hj
          simp

/-- C10: `align_paragraphs` returns a complete monotone alignment: the
original indices of the `match`/`delete` records are exactly `0..m-1` in
strictly increasing order (each occurring exactly once), the modified
indices of the `match`/`insert` records are exactly `0..n-1` likewise, and
in every `insert`/`delete` record the non-participating index is `-1` while
the participating one is non-negative (both non-negative for `match`). -/
theorem align_paragraphs_complete (orig_texts mod_texts : List Str) :
    (align_paragraphs orig_texts mod_texts).filterMap origIdxOf
      = (List.range orig_texts.length).map Int.ofNat ∧
    (align_paragraphs orig_texts mod_texts).filterMap modIdxOf
      = (List.range mod_texts.length).map Int.ofNat ∧
    (∀ r ∈ align_paragraphs orig_texts mod_texts,
      (r.2.2 = AlignKind.akInsert → r.1 = -1 ∧ 0 ≤ r.2.1) ∧
      (r.2.2 = AlignKind.akDelete → r.2.1 = -1 ∧ 0 ≤ r.1) ∧
      (r.2.2 = AlignKind.akMatch → 0 ≤ r.1 ∧ 0 ≤ r.2.1)) := by
  obtain ⟨g1, g2, g3⟩ := backtrackF_spec orig_texts mod_texts
    (orig_texts.length + mod_texts.length) orig_texts.length mod_texts.length le_rfl
  unfold align_paragraphs
  refine ⟨?_, ?_, ?_⟩
  · rw [List.filterMap_reverse, g1, List.map_reverse, List.reverse_reverse]
  · rw [List.filterMap_reverse, g2, List.map_reverse, List.reverse_reverse]
  · intro r hr
    exact g3 r (List.mem_reverse.mp hr)

set_option maxHeartbeats 2000000 in
unseal Rat.mul Rat.inv Rat.add Rat.sub in
/-- Witness for C10, applying the completeness theorem to the concrete
match record of a one-paragraph alignment. -/
theorem align_paragraphs_complete_witness :
    (0 : Int) ≤ ((0 : Int), (0 : Int), AlignKind.akMatch).1 ∧
    (0 : Int) ≤ ((0 : Int), (0 : Int), AlignKind.akMatch).2.1 :=
  ((align_paragraphs_complete [chars "ab"] [chars "ab"]).2.2
    ((0 : Int), (0 : Int), AlignKind.akMatch) (by decide)).2.2 rfl

/-- An entry of the first-pass `temp_results` list of `compare_documents`
(lines 463-503): segments, heading flag, the alignment type it came from,
and (for held-aside insert/delete entries) the paragraph text. -/
structure TempEntry where
  segments : List (Str × SegKind)
  isHeading : Bool
  alignType : AlignKind
  text : Str
deriving DecidableEq, Repr

/-- An entry of the final `diff_results` stream: an annotated paragraph. -/
structure AnnPara where
  segments : List (Str × SegKind)
  isHeading : Bool
  isTableRow : Bool
deriving DecidableEq, Repr

/-- The statistics accumulator of `compare_documents` (line 460). -/
structure Stats where
  insertions : Nat
  deletions : Nat
  moves : Nat
  unchanged : Nat
deriving DecidableEq, Repr

def Stats.total (st : Stats) : Nat :=
  st.insertions + st.deletions + st.moves + st.unchanged

/-- The per-segment statistics bump (lines 541-551 and 347-356): word count
of the segment text added to the bucket of its kind (`move_source` and
`move_dest` both count into `moves`, everything else than
insert/delete/move into `unchanged`). -/
def Stats.addSeg (st : Stats) (seg : Str × SegKind) : Stats :=
  match seg.2 with
  | SegKind.sInsert => { st with insertions := st.insertions + wordCount seg.1 }
  | SegKind.sDelete => { st with deletions := st.deletions + wordCount seg.1 }
  | SegKind.sMoveSrc => { st with moves := st.moves + wordCount seg.1 }
  | SegKind.sMoveDst => { st with moves := st.moves + wordCount seg.1 }
  | SegKind.sEqual => { st with unchanged := st.unchanged + wordCount seg.1 }

def countSegs (st : Stats) (segs : List (Str × SegKind)) : Stats :=
  segs.foldl Stats.addSeg st

/-- The first-pass branch of `compare_documents` for one alignment record
(lines 464-503): a `match` yields a word-level diff (plus word-level move
detection) or a single `equal` segment for trim-equal texts; `insert` /
`delete` records are held aside, and silently dropped when the paragraph
text is blank. -/
def contribEntry (origTexts modTexts : List Str) (origHead modHead : List Bool) :
    Int × Int × AlignKind → Option TempEntry
  | (oi, mi, AlignKind.akMatch) =>
    some { segments :=
             if strip (origTexts.getD oi.toNat []) ≠ strip (modTexts.getD mi.toNat []) then
               detect_word_level_moves
                 (diff_texts (origTexts.getD oi.toNat []) (modTexts.getD mi.toNat []))
             else [(modTexts.getD mi.toNat [], SegKind.sEqual)],
           isHeading := modHead.getD mi.toNat false,
           alignType := AlignKind.akMatch,
           text := [] }
  | (_, mi, AlignKind.akInsert) =>
    if strip (modTexts.getD mi.toNat []) ≠ [] then
      some { segments := [(modTexts.getD mi.toNat [], SegKind.sInsert)],
             isHeading := modHead.getD mi.toNat false,
             alignType := AlignKind.akInsert,
             text := modTexts.getD mi.toNat [] }
    else none
  | (oi, _, AlignKind.akDelete) =>
    if strip (origTexts.getD oi.toNat []) ≠ [] then
      some { segments := [(origTexts.getD oi.toNat [], SegKind.sDelete)],
             isHeading := origHead.getD oi.toNat false,
             alignType := AlignKind.akDelete,
             text := origTexts.getD oi.toNat [] }
    else none

/-- The first pass itself: fold over the alignment records, appending each
record's contribution (when any). -/
def buildTemp (origTexts modTexts : List Str) (origHead modHead : List Bool) :
    List TempEntry :=
  (align_paragraphs origTexts modTexts).foldl
    (fun acc r => acc ++ (contribEntry origTexts modTexts origHead modHead r).toList) []

/-- The held-aside candidates of the paragraph-level move pass (lines
506-509): temp indices and texts of insert/delete entries with at least
`MIN_MOVE_WORDS` words. -/
def heldOfType (k : AlignKind) (temp : List TempEntry) : List (Nat × Str) :=
  temp.enum.filterMap fun pr =>
    if pr.2.alignType = k ∧ MIN_MOVE_WORDS ≤ wordCount pr.2.text
    then some (pr.1, pr.2.text) else none

/-- The final segments of the temp entry at stream index `pr.1` after the
paragraph-level move rewriting (lines 533-539). -/
def bodySegs (temp : List TempEntry) (pr : Nat × TempEntry) : List (Str × SegKind) :=
  if pr.1 ∈ ((matchMoves (heldOfType AlignKind.akDelete temp)
      (heldOfType AlignKind.akInsert temp)).1.map Prod.fst) then
    [(pr.2.text, SegKind.sMoveSrc)]
  else if pr.1 ∈ (matchMoves (heldOfType AlignKind.akDelete temp)
      (heldOfType AlignKind.akInsert temp)).2 then
    [(pr.2.text, SegKind.sMoveDst)]
  else pr.2.segments

/-- The second pass of `compare_documents` (lines 505-556): detect
paragraph-level moves among the held-aside entries with the same greedy
matcher, rewrite the paired entries to single `move_source` / `move_dest`
segments, count statistics per emitted segment, and build the stream. -/
def bodyPass (temp : List TempEntry) (st0 : Stats) : List AnnPara × Stats :=
  temp.enum.foldl
    (fun acc pr =>
      (acc.1 ++ [{ segments := bodySegs temp pr, isHeading := pr.2.isHeading,
                   isTableRow := false }],
        countSegs acc.2 (bodySegs temp pr)))
    ([], st0)

/-- `' | '.join(row)` (lines 280-281 etc.). -/
def joinBar (row : List Str) : Str := List.intercalate [' ', '|', ' '] row

/-- Embedding of `compare_table_rows` (lines 276-318): the same LCS
alignment as `align_paragraphs`, on the rows' `' | '`-joined cell texts. -/
def compare_table_rows (orig_rows mod_rows : List (List Str)) :
    List (Int × Int × AlignKind) :=
  align_paragraphs (orig_rows.map joinBar) (mod_rows.map joinBar)

/-- The matched-row cell loop of `diff_table` (lines 334-373): diff changed
cells (word diff plus word-level moves, counted into the stats), copy equal
cells (counted as unchanged), mark extra modified-side cells as inserts,
silently drop extra original-side cells, and put an uncounted `' | '`
separator segment between the emitted cells. -/
def matchedRowDiff (origRow modRow : List Str) (st : Stats) :
    List (Str × SegKind) × Stats :=
  (List.range (max origRow.length modRow.length)).foldl
    (fun acc col =>
      if col < origRow.length ∧ col < modRow.length then
        let oc := origRow.getD col []
        let mc := modRow.getD col []
        if strip oc ≠ strip mc then
          let cellDiff := detect_word_level_moves (diff_texts oc mc)
          (acc.1 ++ cellDiff
            ++ (if col < max origRow.length modRow.length - 1
                then [([' ', '|', ' '], SegKind.sEqual)] else []),
            countSegs acc.2 cellDiff)
        else
          (acc.1 ++ [(mc, SegKind.sEqual)]
            ++ (if col < max origRow.length modRow.length - 1
                then [([' ', '|', ' '], SegKind.sEqual)] else []),
            { acc.2 with unchanged := acc.2.unchanged + wordCount mc })
      else if col < modRow.length then
        let mc := modRow.getD col []
        (acc.1 ++ [(mc, SegKind.sInsert)]
          ++ (if col < max origRow.length modRow.length - 1
              then [([' ', '|', ' '], SegKind.sEqual)] else []),
          { acc.2 with insertions := acc.2.insertions + wordCount mc })
      else acc)
    ([], st)

/-- Embedding of `diff_table` (lines 321-390). -/
def diff_table (orig_table mod_table : List (List Str)) (st : Stats) :
    List AnnPara × Stats :=
  (compare_table_rows orig_table mod_table).foldl
    (fun acc r =>
      match r with
      | (oi, mi, AlignKind.akMatch) =>
        if 0 ≤ oi ∧ 0 ≤ mi then
          let rowRes := matchedRowDiff (orig_table.getD oi.toNat [])
            (mod_table.getD mi.toNat []) acc.2
          (acc.1 ++ [{ segments := rowRes.1, isHeading := false, isTableRow := true }],
            rowRes.2)
        else acc
      | (_, mi, AlignKind.akInsert) =>
        if 0 ≤ mi then
          (acc.1 ++ [{ segments := [(joinBar (mod_table.getD mi.toNat []), SegKind.sInsert)],
                       isHeading := false, isTableRow := true }],
            { acc.2 with insertions :=
                acc.2.insertions + wordCount (joinBar (mod_table.getD mi.toNat [])) })
        else acc
      | (oi, _, AlignKind.akDelete) =>
        if 0 ≤ oi then
          (acc.1 ++ [{ segments := [(joinBar (orig_table.getD oi.toNat []), SegKind.sDelete)],
                       isHeading := false, isTableRow := true }],
            { acc.2 with deletions :=
                acc.2.deletions + wordCount (joinBar (orig_table.getD oi.toNat [])) })
        else acc)
    ([], st)

/-- Embedding of the pure comparison core of `compare_documents` (lines
449-590): the body-paragraph pipeline followed by the tables section,
producing the annotated stream and the statistics.  File handling, parsing
and rendering are outside the model. -/
def compare_documents_core (origParas modParas : List (Str × Bool))
    (origTables modTables : List (List (List Str))) : List AnnPara × Stats :=
  let bodyRes := bodyPass
    (buildTemp (origParas.map Prod.fst) (modParas.map Prod.fst)
      (origParas.map Prod.snd) (modParas.map Prod.snd))
    { insertions := 0, deletions := 0, moves := 0, unchanged := 0 }
  (List.range (max origTables.length modTables.length)).foldl
    (fun acc t =>
      if t < origTables.length ∧ t < modTables.length then
        let tRes := diff_table (origTables.getD t []) (modTables.getD t []) acc.2
        (acc.1 ++ tRes.1, tRes.2)
      else if t < modTables.length then
        (modTables.getD t []).foldl
          (fun acc2 row =>
            (acc2.1 ++ [{ segments := [(joinBar row, SegKind.sInsert)],
                          isHeading := false, isTableRow := true }],
              { acc2.2 with insertions := acc2.2.insertions + wordCount (joinBar row) }))
          acc
      else
        (origTables.getD t []).foldl
          (fun acc2 row =>
            (acc2.1 ++ [{ segments := [(joinBar row, SegKind.sDelete)],
                          isHeading := false, isTableRow := true }],
              { acc2.2 with deletions := acc2.2.deletions + wordCount (joinBar row) }))
          acc)
    bodyRes

/-- Total word count of a segment list. -/
def segWords (segs : List (Str × SegKind)) : Nat :=
  (segs.map (fun s => wordCount s.1)).sum

/-- Total word count of all segments of a stream. -/
def streamWords (paras : List AnnPara) : Nat :=
  (paras.map (fun p => segWords p.segments)).sum

theorem addSeg_total (st : Stats) (seg : Str × SegKind) :
    (st.addSeg seg).total = st.total + wordCount seg.1 := by
  obtain ⟨t, k⟩ := seg
  cases k <;> simp [Stats.addSeg, Stats.total] <;> omega

theorem countSegs_total (segs : List (Str × SegKind)) :
    ∀ st : Stats, (countSegs st segs).total = st.total + segWords segs := by
  induction segs with
  | nil => intro st; simp [countSegs, segWords]
  | cons s segs ih =>
    intro st
    simp only [countSegs, List.foldl_cons] at ih ⊢
    rw [ih (st.addSeg s), addSeg_total]
    simp only [segWords, List.map_cons, List.sum_cons] at ih ⊢
    omega

theorem addSeg_equal_fields (st : Stats) (seg : Str × SegKind) (h : seg.2 = SegKind.sEqual) :
    (st.addSeg seg).insertions = st.insertions ∧ (st.addSeg seg).deletions = st.deletions ∧
    (st.addSeg seg).moves = st.moves := by
  obtain ⟨t, k⟩ := seg
  simp only [] at h
  subst h
  simp [Stats.addSeg]

theorem countSegs_equal_fields (segs : List (Str × SegKind))
    (h : ∀ s ∈ segs, s.2 = SegKind.sEqual) :
    ∀ st : Stats, (countSegs st segs).insertions = st.insertions ∧
      (countSegs st segs).deletions = st.deletions ∧
      (countSegs st segs).moves = st.moves := by
  induction segs with
  | nil => intro st; simp [countSegs]
  | cons s segs ih =>
    intro st
    simp only [countSegs, List.foldl_cons] at ih ⊢
    have hs := addSeg_equal_fields st s (h s (by simp))
    have := ih (fun s hs' => h s (by simp [hs'])) (st.addSeg s)
    omega

/-- Number of `move_source` segments in a list. -/
def segsMS (l : List (Str × SegKind)) : Nat :=
  l.countP (fun s => s.2 == SegKind.sMoveSrc)

/-- Number of `move_dest` segments in a list. -/
def segsMD (l : List (Str × SegKind)) : Nat :=
  l.countP (fun s => s.2 == SegKind.sMoveDst)

/-- Number of `move_source` segments in a stream. -/
def streamMS (paras : List AnnPara) : Nat := (paras.map (fun p => segsMS p.segments)).sum

/-- Number of `move_dest` segments in a stream. -/
def streamMD (paras : List AnnPara) : Nat := (paras.map (fun p => segsMD p.segments)).sum

theorem countP_range'_mem :
    ∀ (len : Nat) (keys : List Nat) (n : Nat), keys.Nodup →
    (∀ k ∈ keys, n ≤ k ∧ k < n + len) →
    (List.range' n len).countP (fun i => decide (i ∈ keys)) = keys.length := by
  intro len
  induction len with
  | zero =>
    intro keys n hnd hb
    match keys, hb with
    | [], _ => simp
    | k :: keys, hb =>
      have := hb k (by simp)
      omega
  | succ len ih =>
    intro keys n hnd hb
    rw [List.range'_succ, List.countP_cons]
    have hcongr : (List.range' (n+1) len).countP (fun i => decide (i ∈ keys))
        = (List.range' (n+1) len).countP (fun i => decide (i ∈ keys.erase n)) := by
      apply List.countP_congr
      intro i hi
      have hi' : n + 1 ≤ i := (List.mem_range'_1.mp hi).1
      have : i ≠ n := by omega
      simp [List.mem_erase_of_ne this]
    rw [hcongr, ih (keys.erase n) (n+1) (hnd.erase n) ?bounds]
    case bounds =>
      intro k hk
      have hk' := List.mem_of_mem_erase hk
      have := hb k hk'
      have hne : k ≠ n := by
        intro hkn
        subst hkn
        exact (List.Nodup.not_mem_erase hnd) hk
      omega
    by_cases hn : n ∈ keys
    · rw [List.length_erase_of_mem hn]
      have : 0 < keys.length := List.length_pos.mpr (fun hemp => by simp [hemp] at hn)
      simp only [hn, decide_eq_true_eq, if_true]
      omega
    · rw [List.erase_of_not_mem hn]
      simp [hn]

theorem matchMoves_moveCands_props (segs : List (Str × SegKind)) :
    ((matchMoves (moveCands SegKind.sDelete segs)
        (moveCands SegKind.sInsert segs)).1.map Prod.fst).Nodup ∧
    (matchMoves (moveCands SegKind.sDelete segs) (moveCands SegKind.sInsert segs)).2.Nodup ∧
    (∀ k ∈ (matchMoves (moveCands SegKind.sDelete segs)
        (moveCands SegKind.sInsert segs)).1.map Prod.fst,
      k < segs.length ∧ (segs.getD k dSeg).2 = SegKind.sDelete) ∧
    (∀ k ∈ (matchMoves (moveCands SegKind.sDelete segs)
        (moveCands SegKind.sInsert segs)).2,
      k < segs.length ∧ (segs.getD k dSeg).2 = SegKind.sInsert) ∧
    (matchMoves (moveCands SegKind.sDelete segs)
        (moveCands SegKind.sInsert segs)).2.length
      = ((matchMoves (moveCands SegKind.sDelete segs)
        (moveCands SegKind.sInsert segs)).1.map Prod.fst).length := by
  obtain ⟨g1, g2, g3, g4⟩ := matchMoves_spec (moveCands SegKind.sDelete segs)
    (moveCands SegKind.sInsert segs)
  refine ⟨g4 (moveCands_fst_nodup _ _), g2, ?_, ?_, ?_⟩
  · intro k hk
    obtain ⟨p, hp, hfst⟩ := List.mem_map.mp hk
    obtain ⟨td, tu, hmemd, _, _⟩ := g3 p hp
    rw [hfst] at hmemd
    rw [moveCands_mem] at hmemd
    exact ⟨hmemd.1, hmemd.2.1⟩
  · intro k hk
    rw [g1] at hk
    obtain ⟨p, hp, hsnd⟩ := List.mem_map.mp hk
    obtain ⟨td, tu, _, hmemi, _⟩ := g3 p hp
    rw [hsnd] at hmemi
    rw [moveCands_mem] at hmemi
    exact ⟨hmemi.1, hmemi.2.1⟩
  · rw [g1]
    simp


theorem markMoves_counts (segs : List (Str × SegKind)) (moves : List (Nat × Nat))
    (used : List Nat)
    (hknd : (moves.map Prod.fst).Nodup) (hund : used.Nodup)
    (hk : ∀ k ∈ moves.map Prod.fst, k < segs.length)
    (hu : ∀ k ∈ used, k < segs.length)
    (hdisju : ∀ k ∈ used, k ∉ moves.map Prod.fst)
    (hnoms : ∀ s ∈ segs, s.2 ≠ SegKind.sMoveSrc)
    (hnomd : ∀ s ∈ segs, s.2 ≠ SegKind.sMoveDst) :
    segsMS (markMoves moves used segs) = (moves.map Prod.fst).length ∧
    segsMD (markMoves moves used segs) = used.length := by
  constructor
  · unfold segsMS markMoves
    rw [List.countP_map]
    have hcongr : segs.enum.countP ((fun s : Str × SegKind => s.2 == SegKind.sMoveSrc) ∘
        (fun pr : Nat × (Str × SegKind) =>
          if pr.1 ∈ moves.map Prod.fst then (pr.2.1, SegKind.sMoveSrc)
          else if pr.1 ∈ used then (pr.2.1, SegKind.sMoveDst)
          else pr.2))
        = segs.enum.countP (fun pr : Nat × (Str × SegKind) =>
          decide (pr.1 ∈ moves.map Prod.fst)) := by
      apply List.countP_congr
      intro pr hpr
      by_cases h1 : pr.1 ∈ moves.map Prod.fst
      · simp [Function.comp, h1]
      · by_cases h2 : pr.1 ∈ used
        · simp [Function.comp, h1, h2]
        · rw [mem_enum_iff dSeg] at hpr
          obtain ⟨hlt, hget⟩ := hpr
          have hmem : pr.2 ∈ segs := hget ▸ getD_mem_of_lt hlt
          have hne := hnoms pr.2 hmem
          simp [Function.comp, h1, h2, hne]
    rw [hcongr,
      show (fun pr : Nat × (Str × SegKind) => decide (pr.1 ∈ moves.map Prod.fst))
        = ((fun i => decide (i ∈ moves.map Prod.fst)) ∘ Prod.fst) from rfl,
      ← List.countP_map, List.enum_map_fst, List.range_eq_range']
    exact countP_range'_mem segs.length _ 0 hknd (fun k hkk => ⟨by omega, by
      have := hk k hkk; omega⟩)
  · unfold segsMD markMoves
    rw [List.countP_map]
    have hcongr : segs.enum.countP ((fun s : Str × SegKind => s.2 == SegKind.sMoveDst) ∘
        (fun pr : Nat × (Str × SegKind) =>
          if pr.1 ∈ moves.map Prod.fst then (pr.2.1, SegKind.sMoveSrc)
          else if pr.1 ∈ used then (pr.2.1, SegKind.sMoveDst)
          else pr.2))
        = segs.enum.countP (fun pr : Nat × (Str × SegKind) => decide (pr.1 ∈ used)) := by
      apply List.countP_congr
      intro pr hpr
      by_cases h1 : pr.1 ∈ moves.map Prod.fst
      · have h2 : pr.1 ∉ used := fun hc => hdisju pr.1 hc h1
        simp [Function.comp, h1, h2]
      · by_cases h2 : pr.1 ∈ used
        · simp [Function.comp, h1, h2]
        · rw [mem_enum_iff dSeg] at hpr
          obtain ⟨hlt, hget⟩ := hpr
          have hmem : pr.2 ∈ segs := hget ▸ getD_mem_of_lt hlt
          have hne := hnomd pr.2 hmem
          simp [Function.comp, h1, h2, hne]
    rw [hcongr,
      show (fun pr : Nat × (Str × SegKind) => decide (pr.1 ∈ used))
        = ((fun i => decide (i ∈ used)) ∘ Prod.fst) from rfl,
      ← List.countP_map, List.enum_map_fst, List.range_eq_range']
    exact countP_range'_mem segs.length _ 0 hund (fun k hkk => ⟨by omega, by
      have := hu k hkk; omega⟩)

theorem segs_count_zero_ms (segs : List (Str × SegKind))
    (h : ∀ s ∈ segs, s.2 ≠ SegKind.sMoveSrc) : segsMS segs = 0 := by
  unfold segsMS
  rw [List.countP_eq_zero]
  intro s hs
  simpa using h s hs

theorem segs_count_zero_md (segs : List (Str × SegKind))
    (h : ∀ s ∈ segs, s.2 ≠ SegKind.sMoveDst) : segsMD segs = 0 := by
  unfold segsMD
  rw [List.countP_eq_zero]
  intro s hs
  simpa using h s hs

theorem dwlm_balance (segs : List (Str × SegKind))
    (hnoms : ∀ s ∈ segs, s.2 ≠ SegKind.sMoveSrc)
    (hnomd : ∀ s ∈ segs, s.2 ≠ SegKind.sMoveDst) :
    segsMS (detect_word_level_moves segs) = segsMD (detect_word_level_moves segs) := by
  obtain ⟨p1, p2, p3, p4, p5⟩ := matchMoves_moveCands_props segs
  unfold detect_word_level_moves
  split_ifs with h1 h2
  · rw [segs_count_zero_ms segs hnoms, segs_count_zero_md segs hnomd]
  · rw [segs_count_zero_ms segs hnoms, segs_count_zero_md segs hnomd]
  · have hdisju : ∀ k ∈ (matchMoves (moveCands SegKind.sDelete segs)
        (moveCands SegKind.sInsert segs)).2,
        k ∉ (matchMoves (moveCands SegKind.sDelete segs)
          (moveCands SegKind.sInsert segs)).1.map Prod.fst := by
      intro k hku hkk
      have hd := (p3 k hkk).2
      have hi := (p4 k hku).2
      rw [hd] at hi
      cases hi
    obtain ⟨c1, c2⟩ := markMoves_counts segs _ _ p1 p2
      (fun k hkk => (p3 k hkk).1) (fun k hku => (p4 k hku).1) hdisju hnoms hnomd
    rw [c1, c2, p5]

theorem diff_texts_no_moves (o m : Str) :
    (∀ s ∈ diff_texts o m, s.2 ≠ SegKind.sMoveSrc) ∧
    (∀ s ∈ diff_texts o m, s.2 ≠ SegKind.sMoveDst) := by
  constructor <;>
  · intro s hs
    rcases diff_texts_kinds o m s hs with h | h | h <;> rw [h] <;> intro hcon <;> cases hcon

theorem foldl_append_toList {α β : Type} (f : α → Option β) :
    ∀ (l : List α) (acc : List β),
    l.foldl (fun a r => a ++ (f r).toList) acc = acc ++ l.filterMap f := by
  intro l
  induction l with
  | nil => intro acc; simp
  | cons r l ih =>
    intro acc
    rw [List.foldl_cons, ih, List.filterMap_cons]
    rcases hr : f r with _ | b <;> simp [hr]

theorem buildTemp_eq_filterMap (origTexts modTexts : List Str)
    (origHead modHead : List Bool) :
    buildTemp origTexts modTexts origHead modHead
      = (align_paragraphs origTexts modTexts).filterMap
          (contribEntry origTexts modTexts origHead modHead) := by
  unfold buildTemp
  rw [foldl_append_toList]
  rfl

theorem foldl_stream_shape {α : Type} (g : α → AnnPara) (F : Stats → α → Stats) :
    ∀ (l : List α) (acc : List AnnPara × Stats),
    (l.foldl (fun a x => (a.1 ++ [g x], F a.2 x)) acc).1 = acc.1 ++ l.map g ∧
    (l.foldl (fun a x => (a.1 ++ [g x], F a.2 x)) acc).2 = l.foldl F acc.2 := by
  intro l
  induction l with
  | nil => intro acc; simp
  | cons x l ih =>
    intro acc
    rw [List.foldl_cons, List.foldl_cons]
    obtain ⟨h1, h2⟩ := ih (acc.1 ++ [g x], F acc.2 x)
    rw [h1, h2]
    simp

theorem bodyPass_stream (temp : List TempEntry) (st0 : Stats) :
    (bodyPass temp st0).1 = temp.enum.map (fun pr =>
      { segments := bodySegs temp pr, isHeading := pr.2.isHeading,
        isTableRow := false }) ∧
    (bodyPass temp st0).2 = temp.enum.foldl
      (fun st pr => countSegs st (bodySegs temp pr)) st0 := by
  have := foldl_stream_shape
    (fun pr : Nat × TempEntry =>
      ({ segments := bodySegs temp pr, isHeading := pr.2.isHeading,
         isTableRow := false } : AnnPara))
    (fun st pr => countSegs st (bodySegs temp pr)) temp.enum ([], st0)
  simpa [bodyPass] using this

/-- The default temp entry used with `List.getD`. -/
def dTemp : TempEntry :=
  { segments := [], isHeading := false, alignType := AlignKind.akMatch, text := [] }

theorem heldOfType_mem (k : AlignKind) (temp : List TempEntry) (p : Nat × Str) :
    p ∈ heldOfType k temp ↔
    p.1 < temp.length ∧ (temp.getD p.1 dTemp).alignType = k ∧
      (temp.getD p.1 dTemp).text = p.2 ∧ MIN_MOVE_WORDS ≤ wordCount p.2 := by
  unfold heldOfType
  rw [List.mem_filterMap]
  constructor
  · rintro ⟨pr, hpr, hcond⟩
    rw [mem_enum_iff dTemp] at hpr
    obtain ⟨hlt, hget⟩ := hpr
    split_ifs at hcond with h
    · cases hcond
      refine ⟨hlt, ?_, ?_, ?_⟩
      · rw [hget]; exact h.1
      · rw [hget]
      · simpa using h.2
  · rintro ⟨hlt, hk, ht, hw⟩
    refine ⟨(p.1, temp.getD p.1 dTemp), ?_, ?_⟩
    · rw [mem_enum_iff dTemp]
      exact ⟨hlt, rfl⟩
    · rw [if_pos ⟨hk, ht.symm ▸ hw⟩, ht]

theorem heldOfType_fst_nodup (k : AlignKind) (temp : List TempEntry) :
    ((heldOfType k temp).map Prod.fst).Nodup := by
  have hsub := filterMap_fst_sublist
    (fun pr : Nat × TempEntry =>
      if pr.2.alignType = k ∧ MIN_MOVE_WORDS ≤ wordCount pr.2.text
      then some (pr.1, pr.2.text) else none)
    (by
      intro x y hxy
      simp only [] at hxy
      split_ifs at hxy with h
      cases hxy; rfl)
    temp.enum
  exact hsub.nodup (by simp [List.enum_map_fst, List.nodup_range])

theorem matchMoves_held_props (temp : List TempEntry) :
    ((matchMoves (heldOfType AlignKind.akDelete temp)
        (heldOfType AlignKind.akInsert temp)).1.map Prod.fst).Nodup ∧
    (matchMoves (heldOfType AlignKind.akDelete temp)
        (heldOfType AlignKind.akInsert temp)).2.Nodup ∧
    (∀ k ∈ (matchMoves (heldOfType AlignKind.akDelete temp)
        (heldOfType AlignKind.akInsert temp)).1.map Prod.fst,
      k < temp.length ∧ (temp.getD k dTemp).alignType = AlignKind.akDelete) ∧
    (∀ k ∈ (matchMoves (heldOfType AlignKind.akDelete temp)
        (heldOfType AlignKind.akInsert temp)).2,
      k < temp.length ∧ (temp.getD k dTemp).alignType = AlignKind.akInsert) ∧
    (matchMoves (heldOfType AlignKind.akDelete temp)
        (heldOfType AlignKind.akInsert temp)).2.length
      = ((matchMoves (heldOfType AlignKind.akDelete temp)
        (heldOfType AlignKind.akInsert temp)).1.map Prod.fst).length := by
  obtain ⟨g1, g2, g3, g4⟩ := matchMoves_spec (heldOfType AlignKind.akDelete temp)
    (heldOfType AlignKind.akInsert temp)
  refine ⟨g4 (heldOfType_fst_nodup _ _), g2, ?_, ?_, ?_⟩
  · intro k hk
    obtain ⟨p, hp, hfst⟩ := List.mem_map.mp hk
    obtain ⟨td, tu, hmemd, _, _⟩ := g3 p hp
    rw [hfst] at hmemd
    rw [heldOfType_mem] at hmemd
    exact ⟨hmemd.1, hmemd.2.1⟩
  · intro k hk
    rw [g1] at hk
    obtain ⟨p, hp, hsnd⟩ := List.mem_map.mp hk
    obtain ⟨td, tu, _, hmemi, _⟩ := g3 p hp
    rw [hsnd] at hmemi
    rw [heldOfType_mem] at hmemi
    exact ⟨hmemi.1, hmemi.2.1⟩
  · rw [g1]
    simp

theorem sum_rw_ms (keys used : List Nat) :
    ∀ (entries : List TempEntry) (n : Nat),
    ((entries.enumFrom n).map (fun pr =>
        segsMS (if pr.1 ∈ keys then [(pr.2.text, SegKind.sMoveSrc)]
          else if pr.1 ∈ used then [(pr.2.text, SegKind.sMoveDst)]
          else pr.2.segments))).sum
      = (List.range' n entries.length).countP (fun i => decide (i ∈ keys))
        + ((entries.enumFrom n).map (fun pr =>
            if pr.1 ∈ keys ∨ pr.1 ∈ used then 0 else segsMS pr.2.segments)).sum := by
  intro entries
  induction entries with
  | nil => intro n; simp [List.enumFrom]
  | cons e rest ih =>
    intro n
    rw [List.enumFrom_cons, List.length_cons, List.range'_succ]
    simp only [List.map_cons, List.sum_cons, List.countP_cons]
    rw [ih (n+1)]
    by_cases h1 : n ∈ keys
    · simp only [h1, if_pos, if_true, decide_eq_true_eq, ite_true, or_true, true_or]
      simp [segsMS]
      omega
    · by_cases h2 : n ∈ used
      · simp only [h1, h2, ite_false, ite_true, if_neg, if_pos, decide_eq_true_eq]
        simp [segsMS, h1, h2]
      · simp only [h1, h2, ite_false, if_neg, decide_eq_true_eq]
        simp [h1, h2]
        omega

theorem sum_rw_md (keys used : List Nat) :
    ∀ (entries : List TempEntry) (n : Nat),
    ((entries.enumFrom n).map (fun pr =>
        segsMD (if pr.1 ∈ keys then [(pr.2.text, SegKind.sMoveSrc)]
          else if pr.1 ∈ used then [(pr.2.text, SegKind.sMoveDst)]
          else pr.2.segments))).sum
      = (List.range' n entries.length).countP
          (fun i => decide (i ∈ used ∧ ¬ i ∈ keys))
        + ((entries.enumFrom n).map (fun pr =>
            if pr.1 ∈ keys ∨ pr.1 ∈ used then 0 else segsMD pr.2.segments)).sum := by
  intro entries
  induction entries with
  | nil => intro n; simp [List.enumFrom]
  | cons e rest ih =>
    intro n
    rw [List.enumFrom_cons, List.length_cons, List.range'_succ]
    simp only [List.map_cons, List.sum_cons, List.countP_cons]
    rw [ih (n+1)]
    by_cases h1 : n ∈ keys
    · simp only [h1, ite_true, or_true, true_or]
      simp [segsMD, h1]
    · by_cases h2 : n ∈ used
      · simp only [h1, h2, ite_false, ite_true]
        simp [segsMD, h1, h2]
        omega
      · simp only [h1, h2, ite_false]
        simp [h1, h2]
        omega

theorem bodyPass_balance (temp : List TempEntry) (st0 : Stats)
    (hbal : ∀ e ∈ temp, segsMS e.segments = segsMD e.segments) :
    streamMS (bodyPass temp st0).1 = streamMD (bodyPass temp st0).1 := by
  obtain ⟨hstream, _⟩ := bodyPass_stream temp st0
  rw [hstream]
  unfold streamMS streamMD
  rw [List.map_map, List.map_map]
  obtain ⟨p1, p2, p3, p4, p5⟩ := matchMoves_held_props temp
  have hdisju : ∀ k ∈ (matchMoves (heldOfType AlignKind.akDelete temp)
      (heldOfType AlignKind.akInsert temp)).2,
      k ∉ (matchMoves (heldOfType AlignKind.akDelete temp)
        (heldOfType AlignKind.akInsert temp)).1.map Prod.fst := by
    intro k hku hkk
    have hd := (p3 k hkk).2
    have hi := (p4 k hku).2
    rw [hd] at hi
    cases hi
  have hms : ((temp.enum.map ((fun p : AnnPara => segsMS p.segments) ∘
      (fun pr : Nat × TempEntry =>
        ({ segments := bodySegs temp pr, isHeading := pr.2.isHeading,
           isTableRow := false } : AnnPara))))).sum
      = ((temp.enumFrom 0).map (fun pr =>
          segsMS (if pr.1 ∈ (matchMoves (heldOfType AlignKind.akDelete temp)
              (heldOfType AlignKind.akInsert temp)).1.map Prod.fst then
            [(pr.2.text, SegKind.sMoveSrc)]
          else if pr.1 ∈ (matchMoves (heldOfType AlignKind.akDelete temp)
              (heldOfType AlignKind.akInsert temp)).2 then
            [(pr.2.text, SegKind.sMoveDst)]
          else pr.2.segments))).sum := by
    rw [List.enum_eq_enumFrom]
    congr 1
  have hmd : ((temp.enum.map ((fun p : AnnPara => segsMD p.segments) ∘
      (fun pr : Nat × TempEntry =>
        ({ segments := bodySegs temp pr, isHeading := pr.2.isHeading,
           isTableRow := false } : AnnPara))))).sum
      = ((temp.enumFrom 0).map (fun pr =>
          segsMD (if pr.1 ∈ (matchMoves (heldOfType AlignKind.akDelete temp)
              (heldOfType AlignKind.akInsert temp)).1.map Prod.fst then
            [(pr.2.text, SegKind.sMoveSrc)]
          else if pr.1 ∈ (matchMoves (heldOfType AlignKind.akDelete temp)
              (heldOfType AlignKind.akInsert temp)).2 then
            [(pr.2.text, SegKind.sMoveDst)]
          else pr.2.segments))).sum := by
    rw [List.enum_eq_enumFrom]
    congr 1
  rw [hms, hmd, sum_rw_ms, sum_rw_md]
  have hkeys : (List.range' 0 temp.length).countP
      (fun i => decide (i ∈ (matchMoves (heldOfType AlignKind.akDelete temp)
        (heldOfType AlignKind.akInsert temp)).1.map Prod.fst))
      = ((matchMoves (heldOfType AlignKind.akDelete temp)
        (heldOfType AlignKind.akInsert temp)).1.map Prod.fst).length :=
    countP_range'_mem temp.length _ 0 p1 (fun k hk => ⟨by omega, by
      have := (p3 k hk).1; omega⟩)
  have husedc : (List.range' 0 temp.length).countP
      (fun i => decide (i ∈ (matchMoves (heldOfType AlignKind.akDelete temp)
          (heldOfType AlignKind.akInsert temp)).2
        ∧ ¬ i ∈ (matchMoves (heldOfType AlignKind.akDelete temp)
          (heldOfType AlignKind.akInsert temp)).1.map Prod.fst))
      = (matchMoves (heldOfType AlignKind.akDelete temp)
          (heldOfType AlignKind.akInsert temp)).2.length := by
    have h2 : (List.range' 0 temp.length).countP
        (fun i => decide (i ∈ (matchMoves (heldOfType AlignKind.akDelete temp)
            (heldOfType AlignKind.akInsert temp)).2
          ∧ ¬ i ∈ (matchMoves (heldOfType AlignKind.akDelete temp)
            (heldOfType AlignKind.akInsert temp)).1.map Prod.fst))
        = (List.range' 0 temp.length).countP
        (fun i => decide (i ∈ (matchMoves (heldOfType AlignKind.akDelete temp)
            (heldOfType AlignKind.akInsert temp)).2)) := by
      apply List.countP_congr
      intro i _
      simp only [decide_eq_true_eq]
      exact ⟨fun hc => hc.1, fun hc => ⟨hc, hdisju i hc⟩⟩
    rw [h2]
    exact countP_range'_mem temp.length _ 0 p2 (fun k hk => ⟨by omega, by
      have := (p4 k hk).1; omega⟩)
  rw [hkeys, husedc, p5]
  have hrest : ((temp.enumFrom 0).map (fun pr =>
      if pr.1 ∈ (matchMoves (heldOfType AlignKind.akDelete temp)
          (heldOfType AlignKind.akInsert temp)).1.map Prod.fst
        ∨ pr.1 ∈ (matchMoves (heldOfType AlignKind.akDelete temp)
          (heldOfType AlignKind.akInsert temp)).2
      then 0 else segsMS pr.2.segments)).sum
      = ((temp.enumFrom 0).map (fun pr =>
      if pr.1 ∈ (matchMoves (heldOfType AlignKind.akDelete temp)
          (heldOfType AlignKind.akInsert temp)).1.map Prod.fst
        ∨ pr.1 ∈ (matchMoves (heldOfType AlignKind.akDelete temp)
          (heldOfType AlignKind.akInsert temp)).2
      then 0 else segsMD pr.2.segments)).sum := by
    congr 1
    apply List.map_congr_left
    intro pr hpr
    have hmem : pr.2 ∈ temp := by
      have := List.mem_enumFrom hpr
      have hlt : pr.1 - 0 < temp.length := by omega
      rw [this.2.2]
      exact List.getElem_mem hlt
    rw [hbal pr.2 hmem]
  rw [hrest]

theorem segsMS_append (a b : List (Str × SegKind)) :
    segsMS (a ++ b) = segsMS a + segsMS b := by
  simp [segsMS, List.countP_append]

theorem segsMD_append (a b : List (Str × SegKind)) :
    segsMD (a ++ b) = segsMD a + segsMD b := by
  simp [segsMD, List.countP_append]

theorem streamMS_append (a b : List AnnPara) :
    streamMS (a ++ b) = streamMS a + streamMS b := by
  simp [streamMS]

theorem streamMD_append (a b : List AnnPara) :
    streamMD (a ++ b) = streamMD a + streamMD b := by
  simp [streamMD]

theorem cellDiff_balance (o m : Str) :
    segsMS (detect_word_level_moves (diff_texts o m))
      = segsMD (detect_word_level_moves (diff_texts o m)) :=
  dwlm_balance (diff_texts o m) (diff_texts_no_moves o m).1 (diff_texts_no_moves o m).2

theorem buildTemp_balanced (origTexts modTexts : List Str) (origHead modHead : List Bool) :
    ∀ e ∈ buildTemp origTexts modTexts origHead modHead,
      segsMS e.segments = segsMD e.segments := by
  intro e he
  rw [buildTemp_eq_filterMap] at he
  obtain ⟨r, hmem, hr⟩ := List.mem_filterMap.mp he
  obtain ⟨oi, mi, k⟩ := r
  cases k with
  | akMatch =>
    simp only [contribEntry, Option.some.injEq] at hr
    split_ifs at hr with hne
    · have hseg : e.segments = detect_word_level_moves
          (diff_texts (origTexts.getD oi.toNat []) (modTexts.getD mi.toNat [])) := by
        rw [← hr]
      rw [hseg]
      exact cellDiff_balance _ _
    · rw [← hr]
      simp [segsMS, segsMD, List.countP_cons]
  | akInsert =>
    simp only [contribEntry] at hr
    by_cases hc : strip (modTexts.getD mi.toNat []) ≠ []
    · rw [if_pos hc, Option.some.injEq] at hr
      have hseg : e.segments = [(modTexts.getD mi.toNat [], SegKind.sInsert)] := by
        rw [← hr]
      rw [hseg]
      simp [segsMS, segsMD, List.countP_cons]
    · rw [if_neg hc] at hr
      cases hr
  | akDelete =>
    simp only [contribEntry] at hr
    by_cases hc : strip (origTexts.getD oi.toNat []) ≠ []
    · rw [if_pos hc, Option.some.injEq] at hr
      have hseg : e.segments = [(origTexts.getD oi.toNat [], SegKind.sDelete)] := by
        rw [← hr]
      rw [hseg]
      simp [segsMS, segsMD, List.countP_cons]
    · rw [if_neg hc] at hr
      cases hr

theorem segsMS_sgl (t : Str) (k : SegKind) (h : k ≠ SegKind.sMoveSrc) :
    segsMS [(t, k)] = 0 := by
  simp [segsMS, List.countP_cons]
  intro hc
  exact absurd hc h

theorem segsMD_sgl (t : Str) (k : SegKind) (h : k ≠ SegKind.sMoveDst) :
    segsMD [(t, k)] = 0 := by
  simp [segsMD, List.countP_cons]
  intro hc
  exact absurd hc h

theorem matchedRowDiff_balance (origRow modRow : List Str) (st : Stats) :
    segsMS (matchedRowDiff origRow modRow st).1
      = segsMD (matchedRowDiff origRow modRow st).1 := by
  unfold matchedRowDiff
  refine foldl_preserve (fun acc => segsMS acc.1 = segsMD acc.1) _ _ ([], st)
    (by simp [segsMS, segsMD]) ?_
  intro acc col _ hacc
  simp only []
  split_ifs with h1 h2 h3 h4 h5 h6
  · simp only [segsMS_append, segsMD_append]
    rw [hacc, cellDiff_balance, segsMS_sgl _ _ (by intro hc; cases hc),
      segsMD_sgl _ _ (by intro hc; cases hc)]
  · simp only [List.append_nil, segsMS_append, segsMD_append]
    rw [hacc, cellDiff_balance]
  · simp only [segsMS_append, segsMD_append]
    rw [hacc, segsMS_sgl _ _ (by intro hc; cases hc), segsMD_sgl _ _ (by intro hc; cases hc),
      segsMS_sgl _ SegKind.sEqual (by intro hc; cases hc),
      segsMD_sgl _ SegKind.sEqual (by intro hc; cases hc)]
  · simp only [List.append_nil, segsMS_append, segsMD_append]
    rw [hacc, segsMS_sgl _ _ (by intro hc; cases hc), segsMD_sgl _ _ (by intro hc; cases hc)]
  · simp only [segsMS_append, segsMD_append]
    rw [hacc, segsMS_sgl _ _ (by intro hc; cases hc), segsMD_sgl _ _ (by intro hc; cases hc),
      segsMS_sgl _ SegKind.sEqual (by intro hc; cases hc),
      segsMD_sgl _ SegKind.sEqual (by intro hc; cases hc)]
  · simp only [List.append_nil, segsMS_append, segsMD_append]
    rw [hacc, segsMS_sgl _ _ (by intro hc; cases hc), segsMD_sgl _ _ (by intro hc; cases hc)]
  · exact hacc

theorem streamMS_one (p : AnnPara) : streamMS [p] = segsMS p.segments := by
  simp [streamMS]

theorem streamMD_one (p : AnnPara) : streamMD [p] = segsMD p.segments := by
  simp [streamMD]

theorem diff_table_balance (orig_table mod_table : List (List Str)) (st : Stats) :
    streamMS (diff_table orig_table mod_table st).1
      = streamMD (diff_table orig_table mod_table st).1 := by
  unfold diff_table
  refine foldl_preserve (fun acc => streamMS acc.1 = streamMD acc.1) _ _ ([], st)
    (by simp [streamMS, streamMD]) ?_
  intro acc r _ hacc
  obtain ⟨oi, mi, k⟩ := r
  cases k with
  | akMatch =>
    simp only []
    by_cases h : 0 ≤ oi ∧ 0 ≤ mi
    · rw [if_pos h]
      simp only [streamMS_append, streamMD_append, streamMS_one, streamMD_one]
      rw [hacc, matchedRowDiff_balance]
    · rw [if_neg h]
      exact hacc
  | akInsert =>
    simp only []
    by_cases h : 0 ≤ mi
    · rw [if_pos h]
      simp only [streamMS_append, streamMD_append, streamMS_one, streamMD_one]
      rw [hacc, segsMS_sgl _ _ (by intro hc; cases hc), segsMD_sgl _ _ (by intro hc; cases hc)]
    · rw [if_neg h]
      exact hacc
  | akDelete =>
    simp only []
    by_cases h : 0 ≤ oi
    · rw [if_pos h]
      simp only [streamMS_append, streamMD_append, streamMS_one, streamMD_one]
      rw [hacc, segsMS_sgl _ _ (by intro hc; cases hc), segsMD_sgl _ _ (by intro hc; cases hc)]
    · rw [if_neg h]
      exact hacc

/-- C5: in the output stream of any single comparison, the number of
`move_source` segments equals the number of `move_dest` segments: the
word-level move detector, the paragraph-level move pass and the table cell
diffs each pair sources and destinations one to one. -/
theorem compare_documents_move_balance (origParas modParas : List (Str × Bool))
    (origTables modTables : List (List (List Str))) :
    streamMS (compare_documents_core origParas modParas origTables modTables).1
      = streamMD (compare_documents_core origParas modParas origTables modTables).1 := by
  unfold compare_documents_core
  refine foldl_preserve
    (fun acc : List AnnPara × Stats => streamMS acc.1 = streamMD acc.1) _ _ _
    (bodyPass_balance _ _ (buildTemp_balanced _ _ _ _)) ?_
  intro acc t _ hacc
  simp only []
  split_ifs with h1 h2
  · simp only [streamMS_append, streamMD_append]
    rw [hacc, diff_table_balance]
  · refine foldl_preserve (fun acc2 => streamMS acc2.1 = streamMD acc2.1) _ _ acc hacc ?_
    intro acc2 row _ hacc2
    simp only [streamMS_append, streamMD_append, streamMS_one, streamMD_one]
    rw [hacc2, segsMS_sgl _ _ (by intro hc; cases hc), segsMD_sgl _ _ (by intro hc; cases hc)]
  · refine foldl_preserve (fun acc2 => streamMS acc2.1 = streamMD acc2.1) _ _ acc hacc ?_
    intro acc2 row _ hacc2
    simp only [streamMS_append, streamMD_append, streamMS_one, streamMD_one]
    rw [hacc2, segsMS_sgl _ _ (by intro hc; cases hc), segsMD_sgl _ _ (by intro hc; cases hc)]

theorem range_reverse_map_succ {β : Type} (g : Nat → β) (i : Nat) (h : 0 < i) :
    (List.range i).reverse.map g = g (i-1) :: (List.range (i-1)).reverse.map g := by
  obtain ⟨k, rfl⟩ : ∃ k, i = k + 1 := ⟨i - 1, by omega⟩
  rw [List.range_succ, List.reverse_append]
  simp

theorem backtrackF_self (l : List Str) :
    ∀ (fuel i : Nat), i ≤ fuel →
    backtrackF l l fuel i i
      = (List.range i).reverse.map (fun n => (Int.ofNat n, Int.ofNat n, AlignKind.akMatch)) := by
  intro fuel
  induction fuel with
  | zero =>
    intro i hi
    have h0 : i = 0 := by omega
    subst h0
    simp [backtrackF]
  | succ fuel ih =>
    intro i hi
    by_cases h0 : i = 0
    · subst h0
      simp [backtrackF]
    · have hpos : 0 < i := Nat.pos_of_ne_zero h0
      have hsim : PARA_SIM_THRESHOLD ≤
          calculate_similarity (l.getD (i-1) []) (l.getD (i-1) []) := by
        rw [calculate_similarity_self]
        norm_num [PARA_SIM_THRESHOLD]
      unfold backtrackF
      rw [if_pos ⟨hpos, hpos, hsim⟩, ih (i-1) (by omega),
        range_reverse_map_succ _ i hpos]
      have hcast : ((i : Int) - 1) = Int.ofNat (i - 1) := by
        simp only [Int.ofNat_eq_natCast]
        omega
      rw [hcast]

theorem align_paragraphs_self (l : List Str) :
    align_paragraphs l l
      = (List.range l.length).map (fun n => (Int.ofNat n, Int.ofNat n, AlignKind.akMatch)) := by
  unfold align_paragraphs
  rw [backtrackF_self l (l.length + l.length) l.length (by omega),
    List.map_reverse, List.reverse_reverse]

theorem filterMap_eq_map_of_some {α β : Type} (f : α → Option β) (h : α → β) :
    ∀ l : List α, (∀ a ∈ l, f a = some (h a)) → l.filterMap f = l.map h := by
  intro l
  induction l with
  | nil => intro _; simp
  | cons a l ih =>
    intro hall
    rw [List.filterMap_cons, hall a (by simp), List.map_cons,
      ih (fun a ha => hall a (by simp [ha]))]

theorem buildTemp_self (texts : List Str) (heads : List Bool) :
    buildTemp texts texts heads heads
      = (List.range texts.length).map (fun n =>
          { segments := [(texts.getD n [], SegKind.sEqual)],
            isHeading := heads.getD n false, alignType := AlignKind.akMatch,
            text := [] }) := by
  rw [buildTemp_eq_filterMap, align_paragraphs_self, List.filterMap_map]
  apply filterMap_eq_map_of_some
  intro n _
  simp only [Function.comp, contribEntry, Int.ofNat_eq_natCast, Int.toNat_natCast]
  rw [if_neg (by intro hc; exact hc rfl)]

theorem heldOfType_all_match (k : AlignKind) (temp : List TempEntry)
    (hk : k ≠ AlignKind.akMatch)
    (h : ∀ e ∈ temp, e.alignType = AlignKind.akMatch) : heldOfType k temp = [] := by
  rw [List.eq_nil_iff_forall_not_mem]
  intro p hp
  rw [heldOfType_mem] at hp
  obtain ⟨hlt, hal, _, _⟩ := hp
  have hmem : temp.getD p.1 dTemp ∈ temp := by
    rw [List.getD_eq_getElem temp dTemp hlt]
    exact List.getElem_mem hlt
  rw [h _ hmem] at hal
  exact hk hal.symm

theorem bodySegs_all_match (temp : List TempEntry)
    (hmatch : ∀ e ∈ temp, e.alignType = AlignKind.akMatch) (pr : Nat × TempEntry) :
    bodySegs temp pr = pr.2.segments := by
  unfold bodySegs
  rw [heldOfType_all_match AlignKind.akDelete temp (by intro hc; cases hc) hmatch,
    heldOfType_all_match AlignKind.akInsert temp (by intro hc; cases hc) hmatch]
  simp [matchMoves, sortDelsDesc]

theorem bodyPass_all_equal (temp : List TempEntry) (st0 : Stats)
    (hmatch : ∀ e ∈ temp, e.alignType = AlignKind.akMatch)
    (hseg : ∀ e ∈ temp, ∀ s ∈ e.segments, s.2 = SegKind.sEqual) :
    (∀ p ∈ (bodyPass temp st0).1, ∀ s ∈ p.segments, s.2 = SegKind.sEqual) ∧
    (bodyPass temp st0).2.insertions = st0.insertions ∧
    (bodyPass temp st0).2.deletions = st0.deletions ∧
    (bodyPass temp st0).2.moves = st0.moves := by
  obtain ⟨h1, h2⟩ := bodyPass_stream temp st0
  constructor
  · intro p hp s hs
    rw [h1] at hp
    obtain ⟨pr, hpr, hmk⟩ := List.mem_map.mp hp
    rw [bodySegs_all_match temp hmatch pr] at hmk
    have hmem : pr.2 ∈ temp := by
      rw [mem_enum_iff dTemp] at hpr
      obtain ⟨hlt, hget⟩ := hpr
      rw [← hget]
      rw [List.getD_eq_getElem temp dTemp hlt]
      exact List.getElem_mem hlt
    have hsp : s ∈ pr.2.segments := by
      rw [← hmk] at hs
      exact hs
    exact hseg pr.2 hmem s hsp
  · rw [h2]
    refine foldl_preserve
      (fun st : Stats => st.insertions = st0.insertions ∧ st.deletions = st0.deletions ∧
        st.moves = st0.moves) _ _ st0 ⟨rfl, rfl, rfl⟩ ?_
    intro st pr hpr hst
    rw [bodySegs_all_match temp hmatch pr]
    have hmem : pr.2 ∈ temp := by
      rw [mem_enum_iff dTemp] at hpr
      obtain ⟨hlt, hget⟩ := hpr
      rw [← hget]
      rw [List.getD_eq_getElem temp dTemp hlt]
      exact List.getElem_mem hlt
    obtain ⟨e1, e2, e3⟩ := countSegs_equal_fields pr.2.segments (hseg pr.2 hmem) st
    omega

theorem matchedRowDiff_self (row : List Str) (st : Stats) :
    (∀ s ∈ (matchedRowDiff row row st).1, s.2 = SegKind.sEqual) ∧
    (matchedRowDiff row row st).2.insertions = st.insertions ∧
    (matchedRowDiff row row st).2.deletions = st.deletions ∧
    (matchedRowDiff row row st).2.moves = st.moves := by
  unfold matchedRowDiff
  refine foldl_preserve
    (fun acc : List (Str × SegKind) × Stats =>
      (∀ s ∈ acc.1, s.2 = SegKind.sEqual) ∧
      acc.2.insertions = st.insertions ∧ acc.2.deletions = st.deletions ∧
      acc.2.moves = st.moves)
    _ _ ([], st) ⟨by simp, rfl, rfl, rfl⟩ ?_
  intro acc col hcol hacc
  have hlt : col < row.length := by
    rw [List.mem_range] at hcol
    omega
  simp only []
  split_ifs with h1 h2 h3 h4 h5
  · exact absurd rfl h2
  · exact absurd rfl h2
  · refine ⟨?_, by simpa using hacc.2⟩
    intro s hs
    rcases List.mem_append.mp hs with hs | hs
    · rcases List.mem_append.mp hs with hs | hs
      · exact hacc.1 s hs
      · rcases List.mem_singleton.mp hs with rfl
        rfl
    · rcases List.mem_singleton.mp hs with rfl
      rfl
  · refine ⟨?_, by simpa using hacc.2⟩
    intro s hs
    rcases List.mem_append.mp hs with hs | hs
    · rcases List.mem_append.mp hs with hs | hs
      · exact hacc.1 s hs
      · rcases List.mem_singleton.mp hs with rfl
        rfl
    · simp at hs
  · exact absurd ⟨hlt, hlt⟩ h1
  · exact absurd ⟨hlt, hlt⟩ h1

set_option synthInstance.maxHeartbeats 400000 in
theorem diff_table_self (t : List (List Str)) (st : Stats) :
    (∀ p ∈ (diff_table t t st).1, ∀ s ∈ p.segments, s.2 = SegKind.sEqual) ∧
    (diff_table t t st).2.insertions = st.insertions ∧
    (diff_table t t st).2.deletions = st.deletions ∧
    (diff_table t t st).2.moves = st.moves := by
  unfold diff_table
  refine foldl_preserve
    (fun acc : List AnnPara × Stats =>
      (∀ p ∈ acc.1, ∀ s ∈ p.segments, s.2 = SegKind.sEqual) ∧
      acc.2.insertions = st.insertions ∧ acc.2.deletions = st.deletions ∧
      acc.2.moves = st.moves)
    _ _ ([], st) ?ini ?step
  case ini => exact ⟨by simp, rfl, rfl, rfl⟩
  case step =>
  intro acc r hr hacc
  unfold compare_table_rows at hr
  rw [align_paragraphs_self] at hr
  obtain ⟨n, _, hrn⟩ := List.mem_map.mp hr
  rw [← hrn]
  simp only [Int.ofNat_eq_natCast]
  rw [if_pos ⟨Int.natCast_nonneg n, Int.natCast_nonneg n⟩]
  obtain ⟨q1, q2, q3, q4⟩ := matchedRowDiff_self (t.getD n []) acc.2
  refine ⟨?_, ?_⟩
  · intro p hp s hs
    rcases List.mem_append.mp hp with hp | hp
    · exact hacc.1 p hp s hs
    · rcases List.mem_singleton.mp hp with rfl
      simp only [] at hs
      exact q1 s (by simpa [Int.toNat_natCast] using hs)
  · constructor
    · rw [show (matchedRowDiff (t.getD ((n:Int)).toNat []) (t.getD ((n:Int)).toNat []) acc.2).2.insertions = (matchedRowDiff (t.getD n []) (t.getD n []) acc.2).2.insertions from by rw [Int.toNat_natCast], q2]
      exact hacc.2.1
    constructor
    · rw [show (matchedRowDiff (t.getD ((n:Int)).toNat []) (t.getD ((n:Int)).toNat []) acc.2).2.deletions = (matchedRowDiff (t.getD n []) (t.getD n []) acc.2).2.deletions from by rw [Int.toNat_natCast], q3]
      exact hacc.2.2.1
    · rw [show (matchedRowDiff (t.getD ((n:Int)).toNat []) (t.getD ((n:Int)).toNat []) acc.2).2.moves = (matchedRowDiff (t.getD n []) (t.getD n []) acc.2).2.moves from by rw [Int.toNat_natCast], q4]
      exact hacc.2.2.2

/-- C4: when the original and modified inputs expose equal paragraph lists
and equal table lists, every segment in the emitted stream has kind `equal`
and the statistics satisfy `insertions = deletions = moves = 0`. -/
theorem compare_documents_identical (paras : List (Str × Bool))
    (tables : List (List (List Str))) :
    (∀ p ∈ (compare_documents_core paras paras tables tables).1,
      ∀ s ∈ p.segments, s.2 = SegKind.sEqual) ∧
    (compare_documents_core paras paras tables tables).2.insertions = 0 ∧
    (compare_documents_core paras paras tables tables).2.deletions = 0 ∧
    (compare_documents_core paras paras tables tables).2.moves = 0 := by
  have htemp : ∀ e ∈ buildTemp (paras.map Prod.fst) (paras.map Prod.fst)
      (paras.map Prod.snd) (paras.map Prod.snd),
      e.alignType = AlignKind.akMatch ∧ ∀ s ∈ e.segments, s.2 = SegKind.sEqual := by
    intro e he
    rw [buildTemp_self] at he
    obtain ⟨n, _, hne⟩ := List.mem_map.mp he
    rw [← hne]
    refine ⟨rfl, ?_⟩
    intro s hs
    rcases List.mem_singleton.mp hs with rfl
    rfl
  obtain ⟨b1, b2, b3, b4⟩ := bodyPass_all_equal
    (buildTemp (paras.map Prod.fst) (paras.map Prod.fst)
      (paras.map Prod.snd) (paras.map Prod.snd))
    { insertions := 0, deletions := 0, moves := 0, unchanged := 0 }
    (fun e he => (htemp e he).1) (fun e he => (htemp e he).2)
  unfold compare_documents_core
  refine foldl_preserve
    (fun acc : List AnnPara × Stats =>
      (∀ p ∈ acc.1, ∀ s ∈ p.segments, s.2 = SegKind.sEqual) ∧
      acc.2.insertions = 0 ∧ acc.2.deletions = 0 ∧ acc.2.moves = 0)
    _ _ _ ?ini ?step
  case ini => exact ⟨b1, b2, b3, b4⟩
  case step =>
  intro acc t ht hacc
  obtain ⟨ha1, ha2, ha3, ha4⟩ := hacc
  have hlt : t < tables.length := by
    rw [List.mem_range] at ht
    omega
  simp only []
  rw [if_pos ⟨hlt, hlt⟩]
  obtain ⟨q1, q2, q3, q4⟩ := diff_table_self (tables.getD t []) acc.2
  refine ⟨?_, ?_, ?_, ?_⟩
  · intro p hp s hs
    rcases List.mem_append.mp hp with hp | hp
    · exact ha1 p hp s hs
    · exact q1 p hp s hs
  · show (diff_table (tables.getD t []) (tables.getD t []) acc.2).2.insertions = 0
    omega
  · show (diff_table (tables.getD t []) (tables.getD t []) acc.2).2.deletions = 0
    omega
  · show (diff_table (tables.getD t []) (tables.getD t []) acc.2).2.moves = 0
    omega

theorem compare_documents_identical_witness :
    (∀ p ∈ (compare_documents_core [(['h', 'i'], false)] [(['h', 'i'], false)] [] []).1,
      ∀ s ∈ p.segments, s.2 = SegKind.sEqual) ∧
    (compare_documents_core [(['h', 'i'], false)] [(['h', 'i'], false)] [] []).2.insertions = 0 ∧
    (compare_documents_core [(['h', 'i'], false)] [(['h', 'i'], false)] [] []).2.deletions = 0 ∧
    (compare_documents_core [(['h', 'i'], false)] [(['h', 'i'], false)] [] []).2.moves = 0 :=
  compare_documents_identical [(['h', 'i'], false)] []

theorem segWords_append (a b : List (Str × SegKind)) :
    segWords (a ++ b) = segWords a + segWords b := by
  simp [segWords]

theorem streamWords_append (a b : List AnnPara) :
    streamWords (a ++ b) = streamWords a + streamWords b := by
  simp [streamWords]

/-- The step of the matched-row cell loop of `diff_table`, named. -/
def mrdStep (origRow modRow : List Str) (acc : List (Str × SegKind) × Stats)
    (col : Nat) : List (Str × SegKind) × Stats :=
  if col < origRow.length ∧ col < modRow.length then
    let oc := origRow.getD col []
    let mc := modRow.getD col []
    if strip oc ≠ strip mc then
      let cellDiff := detect_word_level_moves (diff_texts oc mc)
      (acc.1 ++ cellDiff
        ++ (if col < max origRow.length modRow.length - 1
            then [([' ', '|', ' '], SegKind.sEqual)] else []),
        countSegs acc.2 cellDiff)
    else
      (acc.1 ++ [(mc, SegKind.sEqual)]
        ++ (if col < max origRow.length modRow.length - 1
            then [([' ', '|', ' '], SegKind.sEqual)] else []),
        { acc.2 with unchanged := acc.2.unchanged + wordCount mc })
  else if col < modRow.length then
    let mc := modRow.getD col []
    (acc.1 ++ [(mc, SegKind.sInsert)]
      ++ (if col < max origRow.length modRow.length - 1
          then [([' ', '|', ' '], SegKind.sEqual)] else []),
      { acc.2 with insertions := acc.2.insertions + wordCount mc })
  else acc

theorem matchedRowDiff_eq (origRow modRow : List Str) (st : Stats) :
    matchedRowDiff origRow modRow st
      = (List.range (max origRow.length modRow.length)).foldl
          (mrdStep origRow modRow) ([], st) := rfl

/-- Word count of the uncounted `' | '` separator segment the matched-row
loop emits after the cell at `col`, if any. -/
def mrdSep (origRow modRow : List Str) (col : Nat) : Nat :=
  if (col < origRow.length ∧ col < modRow.length ∨ col < modRow.length)
      ∧ col < max origRow.length modRow.length - 1
    then wordCount [' ', '|', ' '] else 0

/-- Total word count of the separator segments of one matched table row. -/
def matchedRowSepWords (origRow modRow : List Str) : Nat :=
  ((List.range (max origRow.length modRow.length)).map (mrdSep origRow modRow)).sum

theorem foldl_transcript {α β : Type} (w : β → Nat) (tot : β → Nat) (g : α → Nat)
    (f : β → α → β)
    (hstep : ∀ acc x, w (f acc x) + tot acc = w acc + tot (f acc x) + g x) :
    ∀ (l : List α) (acc : β),
    w (l.foldl f acc) + tot acc = w acc + tot (l.foldl f acc) + (l.map g).sum := by
  intro l
  induction l with
  | nil => intro acc; simp
  | cons x l ih =>
    intro acc
    rw [List.foldl_cons, List.map_cons, List.sum_cons]
    have h1 := ih (f acc x)
    have h2 := hstep acc x
    omega

theorem segWords_sgl (t : Str) (k : SegKind) : segWords [(t, k)] = wordCount t := by
  simp [segWords]

theorem total_add_unchanged (st : Stats) (w : Nat) :
    ({ st with unchanged := st.unchanged + w } : Stats).total = st.total + w := by
  simp [Stats.total]
  omega

theorem total_add_insertions (st : Stats) (w : Nat) :
    ({ st with insertions := st.insertions + w } : Stats).total = st.total + w := by
  simp [Stats.total]
  omega

theorem total_add_deletions (st : Stats) (w : Nat) :
    ({ st with deletions := st.deletions + w } : Stats).total = st.total + w := by
  simp [Stats.total]
  omega

theorem mrdStep_words (origRow modRow : List Str) (acc : List (Str × SegKind) × Stats)
    (col : Nat) :
    segWords (mrdStep origRow modRow acc col).1 + acc.2.total
      = segWords acc.1 + (mrdStep origRow modRow acc col).2.total
        + mrdSep origRow modRow col := by
  simp only [mrdStep, mrdSep]
  split_ifs with h1 h2 h3 h4 h5 h6 h7 h8 h9 h10 h11 h12 <;>
    (try simp only [List.append_nil, segWords_append, segWords_sgl, countSegs_total,
      total_add_unchanged, total_add_insertions]) <;>
    omega

theorem matchedRowDiff_words (origRow modRow : List Str) (st : Stats) :
    segWords (matchedRowDiff origRow modRow st).1 + st.total
      = (matchedRowDiff origRow modRow st).2.total
        + matchedRowSepWords origRow modRow := by
  rw [matchedRowDiff_eq]
  have := foldl_transcript
    (fun acc : List (Str × SegKind) × Stats => segWords acc.1)
    (fun acc : List (Str × SegKind) × Stats => acc.2.total)
    (mrdSep origRow modRow) (mrdStep origRow modRow)
    (mrdStep_words origRow modRow)
    (List.range (max origRow.length modRow.length)) ([], st)
  simp only [segWords, List.map_nil, List.sum_nil] at this
  unfold matchedRowSepWords
  unfold segWords
  omega

/-- The per-record step of `diff_table`, named. -/
def dtStep (orig_table mod_table : List (List Str)) (acc : List AnnPara × Stats)
    (r : Int × Int × AlignKind) : List AnnPara × Stats :=
  match r with
  | (oi, mi, AlignKind.akMatch) =>
    if 0 ≤ oi ∧ 0 ≤ mi then
      let rowRes := matchedRowDiff (orig_table.getD oi.toNat [])
        (mod_table.getD mi.toNat []) acc.2
      (acc.1 ++ [{ segments := rowRes.1, isHeading := false, isTableRow := true }],
        rowRes.2)
    else acc
  | (_, mi, AlignKind.akInsert) =>
    if 0 ≤ mi then
      (acc.1 ++ [{ segments := [(joinBar (mod_table.getD mi.toNat []), SegKind.sInsert)],
                   isHeading := false, isTableRow := true }],
        { acc.2 with insertions :=
            acc.2.insertions + wordCount (joinBar (mod_table.getD mi.toNat [])) })
    else acc
  | (oi, _, AlignKind.akDelete) =>
    if 0 ≤ oi then
      (acc.1 ++ [{ segments := [(joinBar (orig_table.getD oi.toNat []), SegKind.sDelete)],
                   isHeading := false, isTableRow := true }],
        { acc.2 with deletions :=
            acc.2.deletions + wordCount (joinBar (orig_table.getD oi.toNat [])) })
    else acc

theorem diff_table_eq (orig_table mod_table : List (List Str)) (st : Stats) :
    diff_table orig_table mod_table st
      = (compare_table_rows orig_table mod_table).foldl
          (dtStep orig_table mod_table) ([], st) := rfl

/-- Word count of the separator segments contributed by one alignment
record of `diff_table`: non-zero only for matched rows. -/
def dtSep (orig_table mod_table : List (List Str)) (r : Int × Int × AlignKind) : Nat :=
  match r with
  | (oi, mi, AlignKind.akMatch) =>
    if 0 ≤ oi ∧ 0 ≤ mi then
      matchedRowSepWords (orig_table.getD oi.toNat []) (mod_table.getD mi.toNat [])
    else 0
  | (_, _, AlignKind.akInsert) => 0
  | (_, _, AlignKind.akDelete) => 0

/-- Total word count of the uncounted `' | '` separator segments of one
table comparison. -/
def tableSepWords (orig_table mod_table : List (List Str)) : Nat :=
  ((compare_table_rows orig_table mod_table).map (dtSep orig_table mod_table)).sum

theorem streamWords_one (p : AnnPara) : streamWords [p] = segWords p.segments := by
  simp [streamWords]

theorem dtStep_words (orig_table mod_table : List (List Str)) (acc : List AnnPara × Stats)
    (r : Int × Int × AlignKind) :
    streamWords (dtStep orig_table mod_table acc r).1 + acc.2.total
      = streamWords acc.1 + (dtStep orig_table mod_table acc r).2.total
        + dtSep orig_table mod_table r := by
  obtain ⟨oi, mi, k⟩ := r
  cases k with
  | akMatch =>
    simp only [dtStep, dtSep]
    split_ifs with h
    · simp only [streamWords_append, streamWords_one]
      have := matchedRowDiff_words (orig_table.getD oi.toNat [])
        (mod_table.getD mi.toNat []) acc.2
      omega
    · omega
  | akInsert =>
    simp only [dtStep, dtSep]
    split_ifs with h
    · simp only [streamWords_append, streamWords_one, segWords_sgl, total_add_insertions]
      omega
    · omega
  | akDelete =>
    simp only [dtStep, dtSep]
    split_ifs with h
    · simp only [streamWords_append, streamWords_one, segWords_sgl, total_add_deletions]
      omega
    · omega

theorem diff_table_words (orig_table mod_table : List (List Str)) (st : Stats) :
    streamWords (diff_table orig_table mod_table st).1 + st.total
      = (diff_table orig_table mod_table st).2.total
        + tableSepWords orig_table mod_table := by
  rw [diff_table_eq]
  have := foldl_transcript
    (fun acc : List AnnPara × Stats => streamWords acc.1)
    (fun acc : List AnnPara × Stats => acc.2.total)
    (dtSep orig_table mod_table) (dtStep orig_table mod_table)
    (dtStep_words orig_table mod_table)
    (compare_table_rows orig_table mod_table) ([], st)
  simp only [streamWords, List.map_nil, List.sum_nil] at this
  unfold tableSepWords
  unfold streamWords
  omega

/-- The insert step for a modified-only table's rows. -/
def tblInsStep (acc2 : List AnnPara × Stats) (row : List Str) : List AnnPara × Stats :=
  (acc2.1 ++ [{ segments := [(joinBar row, SegKind.sInsert)],
                isHeading := false, isTableRow := true }],
    { acc2.2 with insertions := acc2.2.insertions + wordCount (joinBar row) })

/-- The delete step for an original-only table's rows. -/
def tblDelStep (acc2 : List AnnPara × Stats) (row : List Str) : List AnnPara × Stats :=
  (acc2.1 ++ [{ segments := [(joinBar row, SegKind.sDelete)],
                isHeading := false, isTableRow := true }],
    { acc2.2 with deletions := acc2.2.deletions + wordCount (joinBar row) })

/-- The per-table step of the tables section of `compare_documents`, named. -/
def tblStep (origTables modTables : List (List (List Str)))
    (acc : List AnnPara × Stats) (t : Nat) : List AnnPara × Stats :=
  if t < origTables.length ∧ t < modTables.length then
    let tRes := diff_table (origTables.getD t []) (modTables.getD t []) acc.2
    (acc.1 ++ tRes.1, tRes.2)
  else if t < modTables.length then
    (modTables.getD t []).foldl tblInsStep acc
  else
    (origTables.getD t []).foldl tblDelStep acc

theorem tblInsStep_words (acc2 : List AnnPara × Stats) (row : List Str) :
    streamWords (tblInsStep acc2 row).1 + acc2.2.total
      = streamWords acc2.1 + (tblInsStep acc2 row).2.total + 0 := by
  simp only [tblInsStep, streamWords_append, streamWords_one, segWords_sgl,
    total_add_insertions]
  omega

theorem tblDelStep_words (acc2 : List AnnPara × Stats) (row : List Str) :
    streamWords (tblDelStep acc2 row).1 + acc2.2.total
      = streamWords acc2.1 + (tblDelStep acc2 row).2.total + 0 := by
  simp only [tblDelStep, streamWords_append, streamWords_one, segWords_sgl,
    total_add_deletions]
  omega

theorem compare_documents_core_eq (origParas modParas : List (Str × Bool))
    (origTables modTables : List (List (List Str))) :
    compare_documents_core origParas modParas origTables modTables
      = (List.range (max origTables.length modTables.length)).foldl
          (tblStep origTables modTables)
          (bodyPass (buildTemp (origParas.map Prod.fst) (modParas.map Prod.fst)
              (origParas.map Prod.snd) (modParas.map Prod.snd))
            { insertions := 0, deletions := 0, moves := 0, unchanged := 0 }) := rfl

/-- Word count of the separator segments contributed by the table at
position `t`: non-zero only when both documents have a table there. -/
def tblSep (origTables modTables : List (List (List Str))) (t : Nat) : Nat :=
  if t < origTables.length ∧ t < modTables.length
    then tableSepWords (origTables.getD t []) (modTables.getD t []) else 0

/-- Total word count of the uncounted `' | '` separator segments of a
whole comparison. -/
def totalSepWords (origTables modTables : List (List (List Str))) : Nat :=
  ((List.range (max origTables.length modTables.length)).map
    (tblSep origTables modTables)).sum

theorem tblStep_words (origTables modTables : List (List (List Str)))
    (acc : List AnnPara × Stats) (t : Nat) :
    streamWords (tblStep origTables modTables acc t).1 + acc.2.total
      = streamWords acc.1 + (tblStep origTables modTables acc t).2.total
        + tblSep origTables modTables t := by
  simp only [tblStep, tblSep]
  split_ifs with h1 h2
  · simp only [streamWords_append]
    have := diff_table_words (origTables.getD t []) (modTables.getD t []) acc.2
    omega
  · have := foldl_transcript
      (fun acc2 : List AnnPara × Stats => streamWords acc2.1)
      (fun acc2 : List AnnPara × Stats => acc2.2.total)
      (fun _ => 0) tblInsStep tblInsStep_words (modTables.getD t []) acc
    have hz : ((modTables.getD t []).map (fun _ : List Str => 0)).sum = 0 := by
      simp
    omega
  · have := foldl_transcript
      (fun acc2 : List AnnPara × Stats => streamWords acc2.1)
      (fun acc2 : List AnnPara × Stats => acc2.2.total)
      (fun _ => 0) tblDelStep tblDelStep_words (origTables.getD t []) acc
    have hz : ((origTables.getD t []).map (fun _ : List Str => 0)).sum = 0 := by
      simp
    omega

theorem foldl_countSegs_total {α : Type} (g : α → List (Str × SegKind)) :
    ∀ (l : List α) (st : Stats),
    (l.foldl (fun st x => countSegs st (g x)) st).total
      = st.total + (l.map (fun x => segWords (g x))).sum := by
  intro l
  induction l with
  | nil => intro st; simp
  | cons x l ih =>
    intro st
    rw [List.foldl_cons, List.map_cons, List.sum_cons, ih, countSegs_total]
    omega

theorem bodyPass_total (temp : List TempEntry) (st0 : Stats) :
    (bodyPass temp st0).2.total = st0.total + streamWords (bodyPass temp st0).1 := by
  obtain ⟨h1, h2⟩ := bodyPass_stream temp st0
  rw [h1, h2, foldl_countSegs_total]
  unfold streamWords
  rw [List.map_map]
  rfl

/-- C1 (amended): the statistics balance against the output stream up to
the uncounted `' | '` separator segments of matched table rows: for every
comparison, `insertions + deletions + moves + unchanged` plus the word
count of the emitted separator segments equals the total word count of all
emitted segment texts. -/
theorem compare_documents_conservation (origParas modParas : List (Str × Bool))
    (origTables modTables : List (List (List Str))) :
    (compare_documents_core origParas modParas origTables modTables).2.total
        + totalSepWords origTables modTables
      = streamWords (compare_documents_core origParas modParas origTables modTables).1 := by
  rw [compare_documents_core_eq]
  have htr := foldl_transcript
    (fun acc : List AnnPara × Stats => streamWords acc.1)
    (fun acc : List AnnPara × Stats => acc.2.total)
    (tblSep origTables modTables) (tblStep origTables modTables)
    (tblStep_words origTables modTables)
    (List.range (max origTables.length modTables.length))
    (bodyPass (buildTemp (origParas.map Prod.fst) (modParas.map Prod.fst)
        (origParas.map Prod.snd) (modParas.map Prod.snd))
      { insertions := 0, deletions := 0, moves := 0, unchanged := 0 })
  have hb := bodyPass_total
    (buildTemp (origParas.map Prod.fst) (modParas.map Prod.fst)
      (origParas.map Prod.snd) (modParas.map Prod.snd))
    { insertions := 0, deletions := 0, moves := 0, unchanged := 0 }
  have hz : ({ insertions := 0, deletions := 0, moves := 0, unchanged := 0 } : Stats).total
      = 0 := rfl
  unfold totalSepWords
  omega

unseal Rat.mul Rat.inv Rat.add Rat.sub in
/-- C1 counterexample: a document pair with one identical two-cell table
row emits an uncounted `' | '` separator segment, so the statistics total
(2 unchanged words) differs from the stream's word count (3). -/
theorem conservation_cex :
    (compare_documents_core [] [] [[[['a'], ['b']]]] [[[['a'], ['b']]]]).2.total
      ≠ streamWords (compare_documents_core [] [] [[[['a'], ['b']]]] [[[['a'], ['b']]]]).1 := by
  decide

theorem diff_texts_nonempty (o m : Str) : ∀ s ∈ diff_texts o m, s.1 ≠ [] := by
  intro s hs
  unfold diff_texts at hs
  rw [List.mem_flatten] at hs
  obtain ⟨l, hl, hsl⟩ := hs
  rw [List.mem_map] at hl
  obtain ⟨op, _, rfl⟩ := hl
  obtain ⟨tag, i1, i2, j1, j2⟩ := op
  cases tag with
  | oEqual =>
    simp only [opSegs] at hsl
    split_ifs at hsl with h
    · simp at hsl
    · rcases List.mem_singleton.mp hsl with rfl
      exact h
  | oDelete =>
    simp only [opSegs] at hsl
    split_ifs at hsl with h
    · simp at hsl
    · rcases List.mem_singleton.mp hsl with rfl
      exact h
  | oInsert =>
    simp only [opSegs] at hsl
    split_ifs at hsl with h
    · simp at hsl
    · rcases List.mem_singleton.mp hsl with rfl
      exact h
  | oReplace =>
    simp only [opSegs] at hsl
    rcases List.mem_append.mp hsl with hsl | hsl
    · split_ifs at hsl with h
      · simp at hsl
      · rw [List.mem_singleton] at hsl
        rw [hsl]
        exact h
    · split_ifs at hsl with h
      · simp at hsl
      · rw [List.mem_singleton] at hsl
        rw [hsl]
        exact h

theorem dwlm_texts (segs : List (Str × SegKind)) :
    ∀ s ∈ detect_word_level_moves segs, ∃ t ∈ segs, s.1 = t.1 := by
  unfold detect_word_level_moves
  split_ifs with h1 h2
  · exact fun s hs => ⟨s, hs, rfl⟩
  · exact fun s hs => ⟨s, hs, rfl⟩
  · intro s hs
    unfold markMoves at hs
    rw [List.mem_map] at hs
    obtain ⟨pr, hpr, hf⟩ := hs
    rw [mem_enum_iff dSeg] at hpr
    obtain ⟨hlt, hget⟩ := hpr
    have hmem : pr.2 ∈ segs := hget ▸ getD_mem_of_lt hlt
    refine ⟨pr.2, hmem, ?_⟩
    split_ifs at hf <;> rw [← hf]

theorem strip_ne_nil (t : Str) (h : strip t ≠ []) : t ≠ [] := by
  intro hc
  subst hc
  exact h rfl

theorem joinBar_ne_nil (row : List Str) (hrow : row ≠ [])
    (hc : ∀ c ∈ row, c ≠ []) : joinBar row ≠ [] := by
  match row, hrow with
  | c :: rest, _ =>
    have hcne : c ≠ [] := hc c (by simp)
    unfold joinBar
    cases rest with
    | nil =>
      simpa [List.intercalate] using hcne
    | cons d rest =>
      simp only [List.intercalate, List.intersperse_cons_cons, List.flatten_cons]
      intro hcon
      rw [List.append_eq_nil] at hcon
      exact hcne hcon.1

theorem align_paragraphs_valid (origs mods : List Str) :
    ∀ r ∈ align_paragraphs origs mods,
      (r.2.2 = AlignKind.akMatch →
        0 ≤ r.1 ∧ 0 ≤ r.2.1 ∧ r.1.toNat < origs.length ∧ r.2.1.toNat < mods.length) ∧
      (r.2.2 = AlignKind.akInsert → 0 ≤ r.2.1 ∧ r.2.1.toNat < mods.length) ∧
      (r.2.2 = AlignKind.akDelete → 0 ≤ r.1 ∧ r.1.toNat < origs.length) := by
  intro r hr
  rw [align_paragraphs, List.mem_reverse] at hr
  obtain ⟨hfo, hfm, hsigns⟩ := backtrackF_spec origs mods
    (origs.length + mods.length) origs.length mods.length (le_refl _)
  have horig : r.2.2 = AlignKind.akMatch ∨ r.2.2 = AlignKind.akDelete →
      0 ≤ r.1 ∧ r.1.toNat < origs.length := by
    intro hk
    have hmem : r.1 ∈ (backtrackF origs mods (origs.length + mods.length)
        origs.length mods.length).filterMap origIdxOf :=
      List.mem_filterMap.mpr ⟨r, hr, by rw [origIdxOf, if_pos hk]⟩
    rw [hfo, List.mem_map] at hmem
    obtain ⟨n, hn, hcast⟩ := hmem
    rw [List.mem_reverse, List.mem_range] at hn
    rw [← hcast]
    simp only [Int.ofNat_eq_natCast, Int.toNat_natCast]
    exact ⟨Int.natCast_nonneg n, hn⟩
  have hmod : r.2.2 = AlignKind.akMatch ∨ r.2.2 = AlignKind.akInsert →
      0 ≤ r.2.1 ∧ r.2.1.toNat < mods.length := by
    intro hk
    have hmem : r.2.1 ∈ (backtrackF origs mods (origs.length + mods.length)
        origs.length mods.length).filterMap modIdxOf :=
      List.mem_filterMap.mpr ⟨r, hr, by rw [modIdxOf, if_pos hk]⟩
    rw [hfm, List.mem_map] at hmem
    obtain ⟨n, hn, hcast⟩ := hmem
    rw [List.mem_reverse, List.mem_range] at hn
    rw [← hcast]
    simp only [Int.ofNat_eq_natCast, Int.toNat_natCast]
    exact ⟨Int.natCast_nonneg n, hn⟩
  refine ⟨?_, ?_, ?_⟩
  · intro hk
    obtain ⟨h1, h2⟩ := horig (Or.inl hk)
    obtain ⟨h3, h4⟩ := hmod (Or.inl hk)
    exact ⟨h1, h3, h2, h4⟩
  · intro hk
    exact hmod (Or.inr hk)
  · intro hk
    exact horig (Or.inr hk)

theorem getD_mem {α : Type} (l : List α) (i : Nat) (d : α) (h : i < l.length) :
    l.getD i d ∈ l := by
  rw [List.getD_eq_getElem l d h]
  exact List.getElem_mem h

theorem buildTemp_entries (origTexts modTexts : List Str) (origHead modHead : List Bool)
    (hmod : ∀ t ∈ modTexts, t ≠ []) :
    ∀ e ∈ buildTemp origTexts modTexts origHead modHead,
      (∀ s ∈ e.segments, s.1 ≠ []) ∧
      (e.alignType ≠ AlignKind.akMatch → e.text ≠ []) := by
  intro e he
  rw [buildTemp_eq_filterMap] at he
  obtain ⟨r, hmem, hr⟩ := List.mem_filterMap.mp he
  obtain ⟨oi, mi, k⟩ := r
  cases k with
  | akMatch =>
    simp only [contribEntry, Option.some.injEq] at hr
    have hval := ((align_paragraphs_valid origTexts modTexts _ hmem).1 rfl)
    split_ifs at hr with hne
    · constructor
      · intro s hs
        have hseg : e.segments = detect_word_level_moves
            (diff_texts (origTexts.getD oi.toNat []) (modTexts.getD mi.toNat [])) := by
          rw [← hr]
        rw [hseg] at hs
        obtain ⟨t, ht, heq⟩ := dwlm_texts _ s hs
        rw [heq]
        exact diff_texts_nonempty _ _ t ht
      · intro hal
        exact absurd (by rw [← hr]) hal
    · constructor
      · intro s hs
        have hseg : e.segments = [(modTexts.getD mi.toNat [], SegKind.sEqual)] := by
          rw [← hr]
        rw [hseg] at hs
        rcases List.mem_singleton.mp hs with rfl
        exact hmod _ (getD_mem modTexts mi.toNat [] hval.2.2.2)
      · intro hal
        exact absurd (by rw [← hr]) hal
  | akInsert =>
    simp only [contribEntry] at hr
    by_cases hc : strip (modTexts.getD mi.toNat []) ≠ []
    · rw [if_pos hc, Option.some.injEq] at hr
      constructor
      · intro s hs
        have hseg : e.segments = [(modTexts.getD mi.toNat [], SegKind.sInsert)] := by
          rw [← hr]
        rw [hseg] at hs
        rcases List.mem_singleton.mp hs with rfl
        exact strip_ne_nil _ hc
      · intro _
        have htxt : e.text = modTexts.getD mi.toNat [] := by
          rw [← hr]
        rw [htxt]
        exact strip_ne_nil _ hc
    · rw [if_neg hc] at hr
      cases hr
  | akDelete =>
    simp only [contribEntry] at hr
    by_cases hc : strip (origTexts.getD oi.toNat []) ≠ []
    · rw [if_pos hc, Option.some.injEq] at hr
      constructor
      · intro s hs
        have hseg : e.segments = [(origTexts.getD oi.toNat [], SegKind.sDelete)] := by
          rw [← hr]
        rw [hseg] at hs
        rcases List.mem_singleton.mp hs with rfl
        exact strip_ne_nil _ hc
      · intro _
        have htxt : e.text = origTexts.getD oi.toNat [] := by
          rw [← hr]
        rw [htxt]
        exact strip_ne_nil _ hc
    · rw [if_neg hc] at hr
      cases hr

theorem buildTemp_shape (origTexts modTexts : List Str) (origHead modHead : List Bool) :
    ∀ e ∈ buildTemp origTexts modTexts origHead modHead,
      (e.alignType = AlignKind.akInsert →
        e.segments = [(e.text, SegKind.sInsert)] ∧ strip e.text ≠ []) ∧
      (e.alignType = AlignKind.akDelete →
        e.segments = [(e.text, SegKind.sDelete)] ∧ strip e.text ≠ []) := by
  intro e he
  rw [buildTemp_eq_filterMap] at he
  obtain ⟨r, hmem, hr⟩ := List.mem_filterMap.mp he
  obtain ⟨oi, mi, k⟩ := r
  cases k with
  | akMatch =>
    simp only [contribEntry, Option.some.injEq] at hr
    have hal : e.alignType = AlignKind.akMatch := by
      split_ifs at hr <;> rw [← hr]
    constructor
    · intro hins
      rw [hal] at hins
      cases hins
    · intro hdel
      rw [hal] at hdel
      cases hdel
  | akInsert =>
    simp only [contribEntry] at hr
    by_cases hc : strip (modTexts.getD mi.toNat []) ≠ []
    · rw [if_pos hc, Option.some.injEq] at hr
      have htxt : e.text = modTexts.getD mi.toNat [] := by
        rw [← hr]
      have hal : e.alignType = AlignKind.akInsert := by
        rw [← hr]
      refine ⟨fun _ => ⟨?_, by rw [htxt]; exact hc⟩, fun hdel => ?_⟩
      · rw [htxt, ← hr]
      · rw [hal] at hdel
        cases hdel
    · rw [if_neg hc] at hr
      cases hr
  | akDelete =>
    simp only [contribEntry] at hr
    by_cases hc : strip (origTexts.getD oi.toNat []) ≠ []
    · rw [if_pos hc, Option.some.injEq] at hr
      have htxt : e.text = origTexts.getD oi.toNat [] := by
        rw [← hr]
      have hal : e.alignType = AlignKind.akDelete := by
        rw [← hr]
      refine ⟨fun hins => ?_, fun _ => ⟨?_, by rw [htxt]; exact hc⟩⟩
      · rw [hal] at hins
        cases hins
      · rw [htxt, ← hr]
    · rw [if_neg hc] at hr
      cases hr

theorem bodyPass_texts (temp : List TempEntry) (st0 : Stats)
    (h : ∀ e ∈ temp, (∀ s ∈ e.segments, s.1 ≠ []) ∧
      (e.alignType ≠ AlignKind.akMatch → e.text ≠ [])) :
    ∀ p ∈ (bodyPass temp st0).1, ∀ s ∈ p.segments, s.1 ≠ [] := by
  obtain ⟨h1, _⟩ := bodyPass_stream temp st0
  intro p hp s hs
  rw [h1] at hp
  obtain ⟨pr, hpr, hmk⟩ := List.mem_map.mp hp
  rw [mem_enum_iff dTemp] at hpr
  obtain ⟨hlt, hget⟩ := hpr
  have hmem : pr.2 ∈ temp := hget ▸ getD_mem temp pr.1 dTemp hlt
  have hsegs : p.segments = bodySegs temp pr := by
    rw [← hmk]
  rw [hsegs] at hs
  obtain ⟨p1, p2, p3, p4, p5⟩ := matchMoves_held_props temp
  unfold bodySegs at hs
  split_ifs at hs with hk hu
  · rcases List.mem_singleton.mp hs with rfl
    have hdel := (p3 pr.1 hk).2
    rw [hget] at hdel
    exact (h pr.2 hmem).2 (by rw [hdel]; intro hc; cases hc)
  · rcases List.mem_singleton.mp hs with rfl
    have hins := (p4 pr.1 hu).2
    rw [hget] at hins
    exact (h pr.2 hmem).2 (by rw [hins]; intro hc; cases hc)
  · exact (h pr.2 hmem).1 s hs

theorem matchedRowDiff_texts (origRow modRow : List Str) (st : Stats)
    (hmc : ∀ c ∈ modRow, c ≠ []) :
    ∀ s ∈ (matchedRowDiff origRow modRow st).1, s.1 ≠ [] := by
  rw [matchedRowDiff_eq]
  refine foldl_preserve
    (fun acc : List (Str × SegKind) × Stats => ∀ s ∈ acc.1, s.1 ≠ [])
    _ _ ([], st) (by simp) ?_
  intro acc col _ hacc
  simp only [mrdStep]
  split_ifs with h1 h2 h3 h4 h5 h6 <;> intro s hs
  · rcases List.mem_append.mp hs with hs | hs
    · rcases List.mem_append.mp hs with hs | hs
      · exact hacc s hs
      · obtain ⟨t, ht, heq⟩ := dwlm_texts _ s hs
        rw [heq]
        exact diff_texts_nonempty _ _ t ht
    · rcases List.mem_singleton.mp hs with rfl
      intro hc
      cases hc
  · rcases List.mem_append.mp hs with hs | hs
    · rcases List.mem_append.mp hs with hs | hs
      · exact hacc s hs
      · obtain ⟨t, ht, heq⟩ := dwlm_texts _ s hs
        rw [heq]
        exact diff_texts_nonempty _ _ t ht
    · simp at hs
  · rcases List.mem_append.mp hs with hs | hs
    · rcases List.mem_append.mp hs with hs | hs
      · exact hacc s hs
      · rcases List.mem_singleton.mp hs with rfl
        exact hmc _ (getD_mem modRow col [] h1.2)
    · rcases List.mem_singleton.mp hs with rfl
      intro hc
      cases hc
  · rcases List.mem_append.mp hs with hs | hs
    · rcases List.mem_append.mp hs with hs | hs
      · exact hacc s hs
      · rcases List.mem_singleton.mp hs with rfl
        exact hmc _ (getD_mem modRow col [] h1.2)
    · simp at hs
  · rcases List.mem_append.mp hs with hs | hs
    · rcases List.mem_append.mp hs with hs | hs
      · exact hacc s hs
      · rcases List.mem_singleton.mp hs with rfl
        exact hmc _ (getD_mem modRow col [] h5)
    · rcases List.mem_singleton.mp hs with rfl
      intro hc
      cases hc
  · rcases List.mem_append.mp hs with hs | hs
    · rcases List.mem_append.mp hs with hs | hs
      · exact hacc s hs
      · rcases List.mem_singleton.mp hs with rfl
        exact hmc _ (getD_mem modRow col [] h5)
    · simp at hs
  · exact hacc s hs

set_option synthInstance.maxHeartbeats 400000 in
theorem diff_table_texts (orig_table mod_table : List (List Str)) (st : Stats)
    (hmt : ∀ row ∈ mod_table, row ≠ [] ∧ ∀ c ∈ row, c ≠ [])
    (hot : ∀ row ∈ orig_table, row ≠ [] ∧ ∀ c ∈ row, c ≠ []) :
    ∀ p ∈ (diff_table orig_table mod_table st).1, ∀ s ∈ p.segments, s.1 ≠ [] := by
  rw [diff_table_eq]
  refine foldl_preserve
    (fun acc : List AnnPara × Stats => ∀ p ∈ acc.1, ∀ s ∈ p.segments, s.1 ≠ [])
    _ _ ([], st) (by simp) ?_
  intro acc r hr hacc
  have hval := align_paragraphs_valid (orig_table.map joinBar) (mod_table.map joinBar) r hr
  rw [List.length_map, List.length_map] at hval
  obtain ⟨oi, mi, k⟩ := r
  cases k with
  | akMatch =>
    simp only [dtStep]
    split_ifs with h
    · intro p hp s hs
      rcases List.mem_append.mp hp with hp | hp
      · exact hacc p hp s hs
      · rcases List.mem_singleton.mp hp with rfl
        simp only [] at hs
        have hrow : ∀ c ∈ mod_table.getD mi.toNat [], c ≠ [] := by
          intro c hcm
          exact (hmt _ (getD_mem mod_table mi.toNat [] (hval.1 rfl).2.2.2)).2 c hcm
        exact matchedRowDiff_texts _ _ acc.2 hrow s hs
    · exact hacc
  | akInsert =>
    simp only [dtStep]
    split_ifs with h
    · intro p hp s hs
      rcases List.mem_append.mp hp with hp | hp
      · exact hacc p hp s hs
      · rcases List.mem_singleton.mp hp with rfl
        simp only [] at hs
        rcases List.mem_singleton.mp hs with rfl
        have hrow := hmt _ (getD_mem mod_table mi.toNat [] (hval.2.1 rfl).2)
        exact joinBar_ne_nil _ hrow.1 hrow.2
    · exact hacc
  | akDelete =>
    simp only [dtStep]
    split_ifs with h
    · intro p hp s hs
      rcases List.mem_append.mp hp with hp | hp
      · exact hacc p hp s hs
      · rcases List.mem_singleton.mp hp with rfl
        simp only [] at hs
        rcases List.mem_singleton.mp hs with rfl
        have hrow := hot _ (getD_mem orig_table oi.toNat [] (hval.2.2 rfl).2)
        exact joinBar_ne_nil _ hrow.1 hrow.2
    · exact hacc

/-- C3 (amended): under the proviso that every modified paragraph text is
non-empty and that the tables of both documents have non-empty rows with
non-empty cells, every segment emitted in the output stream has non-empty
text.  (Without the proviso the stream can carry empty-text `equal`
segments, e.g. for a pair of empty matched paragraphs.) -/
theorem nonempty_text_spec (origParas modParas : List (Str × Bool))
    (origTables modTables : List (List (List Str)))
    (hmp : ∀ p ∈ modParas, p.1 ≠ [])
    (hmt : ∀ tbl ∈ modTables, ∀ row ∈ tbl, row ≠ [] ∧ ∀ c ∈ row, c ≠ [])
    (hot : ∀ tbl ∈ origTables, ∀ row ∈ tbl, row ≠ [] ∧ ∀ c ∈ row, c ≠ []) :
    ∀ p ∈ (compare_documents_core origParas modParas origTables modTables).1,
      ∀ s ∈ p.segments, s.1 ≠ [] := by
  rw [compare_documents_core_eq]
  refine foldl_preserve
    (fun acc : List AnnPara × Stats => ∀ p ∈ acc.1, ∀ s ∈ p.segments, s.1 ≠ [])
    _ _ _ ?ini ?step
  case ini =>
    refine bodyPass_texts _ _ ?_
    refine buildTemp_entries _ _ _ _ ?_
    intro t ht
    obtain ⟨q, hq, hqt⟩ := List.mem_map.mp ht
    rw [← hqt]
    exact hmp q hq
  case step =>
  intro acc t _ hacc
  simp only [tblStep]
  split_ifs with h1 h2
  · intro p hp s hs
    rcases List.mem_append.mp hp with hp | hp
    · exact hacc p hp s hs
    · refine diff_table_texts _ _ acc.2 ?_ ?_ p hp s hs
      · exact hmt _ (getD_mem modTables t [] h1.2)
      · exact hot _ (getD_mem origTables t [] h1.1)
  · refine foldl_preserve
      (fun acc2 : List AnnPara × Stats => ∀ p ∈ acc2.1, ∀ s ∈ p.segments, s.1 ≠ [])
      _ _ acc hacc ?_
    intro acc2 row hrow hacc2
    intro p hp s hs
    rcases List.mem_append.mp hp with hp | hp
    · exact hacc2 p hp s hs
    · rcases List.mem_singleton.mp hp with rfl
      simp only [] at hs
      rcases List.mem_singleton.mp hs with rfl
      have hr := (hmt _ (getD_mem modTables t [] h2)) row hrow
      exact joinBar_ne_nil _ hr.1 hr.2
  · refine foldl_preserve
      (fun acc2 : List AnnPara × Stats => ∀ p ∈ acc2.1, ∀ s ∈ p.segments, s.1 ≠ [])
      _ _ acc hacc ?_
    intro acc2 row hrow hacc2
    intro p hp s hs
    rcases List.mem_append.mp hp with hp | hp
    · exact hacc2 p hp s hs
    · rcases List.mem_singleton.mp hp with rfl
      simp only [] at hs
      rcases List.mem_singleton.mp hs with rfl
      have hrt : t < origTables.length := by
        by_contra hc
        have : (origTables.getD t []) = [] := by
          rw [List.getD_eq_default]
          omega
        rw [this] at hrow
        simp at hrow
      have hr := (hot _ (getD_mem origTables t [] hrt)) row hrow
      exact joinBar_ne_nil _ hr.1 hr.2

/-- The default annotated paragraph used with `List.getD`. -/
def dAnn : AnnPara := { segments := [], isHeading := false, isTableRow := false }

unseal Rat.mul Rat.inv Rat.add Rat.sub in
/-- C3 counterexample: comparing a single empty paragraph against a single
empty paragraph emits an `equal` segment whose text is empty. -/
theorem nonempty_text_cex :
    ((compare_documents_core [(([] : Str), false)] [(([] : Str), false)]
        ([] : List (List (List Str))) ([] : List (List (List Str)))).1.getD 0 dAnn).segments
      = [(([] : Str), SegKind.sEqual)] := by
  decide

theorem nonempty_text_spec_witness :
    (∀ p ∈ [((['h', 'i'] : Str), false)], p.1 ≠ []) ∧
    (∀ p ∈ (compare_documents_core [] [((['h', 'i'] : Str), false)]
        ([] : List (List (List Str))) ([] : List (List (List Str)))).1,
      ∀ s ∈ p.segments, s.1 ≠ []) :=
  ⟨by decide, nonempty_text_spec [] [((['h', 'i'] : Str), false)]
    ([] : List (List (List Str))) ([] : List (List (List Str)))
    (by decide) (by decide) (by decide)⟩

/-- C6 (amended): the paragraph aligner's `insert` / `delete` records are
held aside exactly when their paragraph text is non-blank (blank ones are
silently dropped); each held-aside record yields one temp entry carrying
the whole paragraph text, the first pass emits the entries interleaved
with the match results in the original alignment order, and the second
pass emits exactly one annotated paragraph per temp entry, whose single
segment carries the held-aside text with kind insert/delete or, after
paragraph-level move detection, move_dest/move_source. -/
theorem held_aside_spec (origTexts modTexts : List Str)
    (origHead modHead : List Bool) (st0 : Stats) :
    buildTemp origTexts modTexts origHead modHead
      = (align_paragraphs origTexts modTexts).filterMap
          (contribEntry origTexts modTexts origHead modHead)
    ∧ (∀ oi mi : Int,
        contribEntry origTexts modTexts origHead modHead (oi, mi, AlignKind.akInsert)
          = (if strip (modTexts.getD mi.toNat []) ≠ [] then
               some { segments := [(modTexts.getD mi.toNat [], SegKind.sInsert)],
                      isHeading := modHead.getD mi.toNat false,
                      alignType := AlignKind.akInsert,
                      text := modTexts.getD mi.toNat [] }
             else none)
        ∧ contribEntry origTexts modTexts origHead modHead (oi, mi, AlignKind.akDelete)
          = (if strip (origTexts.getD oi.toNat []) ≠ [] then
               some { segments := [(origTexts.getD oi.toNat [], SegKind.sDelete)],
                      isHeading := origHead.getD oi.toNat false,
                      alignType := AlignKind.akDelete,
                      text := origTexts.getD oi.toNat [] }
             else none))
    ∧ (bodyPass (buildTemp origTexts modTexts origHead modHead) st0).1.length
        = (buildTemp origTexts modTexts origHead modHead).length
    ∧ (∀ k, k < (buildTemp origTexts modTexts origHead modHead).length →
        (((buildTemp origTexts modTexts origHead modHead).getD k dTemp).alignType
            = AlignKind.akInsert →
          ((bodyPass (buildTemp origTexts modTexts origHead modHead) st0).1.getD
              k dAnn).segments
            = [(((buildTemp origTexts modTexts origHead modHead).getD k dTemp).text,
                SegKind.sInsert)]
          ∨ ((bodyPass (buildTemp origTexts modTexts origHead modHead) st0).1.getD
              k dAnn).segments
            = [(((buildTemp origTexts modTexts origHead modHead).getD k dTemp).text,
                SegKind.sMoveDst)])
        ∧ (((buildTemp origTexts modTexts origHead modHead).getD k dTemp).alignType
            = AlignKind.akDelete →
          ((bodyPass (buildTemp origTexts modTexts origHead modHead) st0).1.getD
              k dAnn).segments
            = [(((buildTemp origTexts modTexts origHead modHead).getD k dTemp).text,
                SegKind.sDelete)]
          ∨ ((bodyPass (buildTemp origTexts modTexts origHead modHead) st0).1.getD
              k dAnn).segments
            = [(((buildTemp origTexts modTexts origHead modHead).getD k dTemp).text,
                SegKind.sMoveSrc)])) := by
  obtain ⟨h1, _⟩ := bodyPass_stream (buildTemp origTexts modTexts origHead modHead) st0
  refine ⟨buildTemp_eq_filterMap origTexts modTexts origHead modHead,
    fun oi mi => ⟨rfl, rfl⟩, ?_, ?_⟩
  · rw [h1]
    simp
  · intro k hk
    have hgetp : ((bodyPass (buildTemp origTexts modTexts origHead modHead) st0).1.getD
        k dAnn).segments
        = bodySegs (buildTemp origTexts modTexts origHead modHead)
            (k, (buildTemp origTexts modTexts origHead modHead).getD k dTemp) := by
      rw [h1]
      rw [List.getD_eq_getElem _ dAnn (by simp [hk]), List.getElem_map, List.getElem_enum]
      rw [List.getD_eq_getElem _ dTemp hk]
    have hmem : (buildTemp origTexts modTexts origHead modHead).getD k dTemp
        ∈ buildTemp origTexts modTexts origHead modHead :=
      getD_mem _ k dTemp hk
    obtain ⟨p1, p2, p3, p4, p5⟩ :=
      matchMoves_held_props (buildTemp origTexts modTexts origHead modHead)
    obtain ⟨hshi, hshd⟩ := buildTemp_shape origTexts modTexts origHead modHead _ hmem
    constructor
    · intro hins
      rw [hgetp]
      unfold bodySegs
      split_ifs with hkk hku
      · have := (p3 k hkk).2
        rw [this] at hins
        cases hins
      · exact Or.inr rfl
      · exact Or.inl (hshi hins).1
    · intro hdel
      rw [hgetp]
      unfold bodySegs
      split_ifs with hkk hku
      · exact Or.inr rfl
      · have := (p4 k hku).2
        rw [this] at hdel
        cases hdel
      · exact Or.inl (hshd hdel).1

unseal Rat.mul Rat.inv Rat.add Rat.sub in
/-- C6 counterexample: a whitespace-only inserted paragraph produces an
`insert` alignment record, yet no annotated paragraph at all appears in
the output stream — the record is silently dropped, not held aside. -/
theorem held_aside_cex :
    ((align_paragraphs ([] : List Str) [[' ']]).filter
        (fun r => r.2.2 == AlignKind.akInsert)).length = 1
    ∧ (compare_documents_core [] [(([' '] : Str), false)]
        ([] : List (List (List Str))) ([] : List (List (List Str)))).1 = [] := by
  decide
